import Mathlib

/-!
# Intrusive list and signal: a shallow embedding

Memory is a map from addresses (`Nat`) to nodes; a pointer is an `Option Nat`
with `none` for `nullptr`.  An operation that dereferences a null pointer has no
result (`none`).  Loops whose termination depends on the state take a fuel
argument and have no result when the fuel runs out.
-/

namespace intrusive

/-- The struct `node` of `intrusive_list.h`: two raw pointers, both null by default. -/
structure node where
  next : Option Nat := none
  prev : Option Nat := none
  deriving DecidableEq, Repr

/-- Memory: the node stored at every address. -/
abbrev Heap := Nat → node

/-- The assignment `p->next = v`. -/
def setNext (h : Heap) (p : Nat) (v : Option Nat) : Heap :=
  fun a => if a = p then { h a with next := v } else h a

/-- The assignment `p->prev = v`. -/
def setPrev (h : Heap) (p : Nat) (v : Option Nat) : Heap :=
  fun a => if a = p then { h a with prev := v } else h a

/-- Storage at address `p` initialised by `node() = default`. -/
def fresh (h : Heap) (p : Nat) : Heap :=
  fun a => if a = p then {} else h a

namespace node

/-- The function `node::unlink` (intrusive_list.cpp:20-29). -/
def unlink (h : Heap) (self : Nat) : Option Heap :=
  match (h self).next with
  | none => some h
  | some n =>
    -- next->prev = prev;
    let h1 := setPrev h n (h self).prev
    -- prev->next = next;
    match (h1 self).prev with
    | none => none
    | some p =>
      let h2 := setNext h1 p (h1 self).next
      -- prev = nullptr; next = nullptr;
      some (setNext (setPrev h2 self none) self none)

/-- The function `node::link` (intrusive_list.cpp:31-39); the two arguments are
pointer values computed by the caller before the call. -/
def link (h : Heap) (self : Nat) (prev next : Option Nat) : Option Heap :=
  match unlink h self with
  | none => none
  | some h1 =>
    -- this->prev = prev; this->next = next;
    let h2 := setNext (setPrev h1 self prev) self next
    -- prev->next = this;
    match prev with
    | none => none
    | some p =>
      let h3 := setNext h2 p (some self)
      -- next->prev = this;
      match next with
      | none => none
      | some n => some (setPrev h3 n (some self))

/-- The move assignment `node::operator=(node &&)` (intrusive_list.cpp:11-18). -/
def move_assign (h : Heap) (self src : Nat) : Option Heap :=
  if self ≠ src then
    match link h self (h src).prev (h src).next with
    | none => none
    | some h1 => some (setNext (setPrev h1 src none) src none)
  else some h

/-- The move constructor `node::node(node &&)` (intrusive_list.cpp:3-5): the
members get their default initialisers, then the move assignment runs. -/
def move_construct (h : Heap) (self src : Nat) : Option Heap :=
  move_assign (fresh h self) self src

end node

/-- The struct `list`: its only member is the sentinel `fake`, given by its address. -/
structure list where
  fake : Nat
  deriving DecidableEq, Repr

namespace list

/-- The function `list::init_fake_for_empty`: `fake.next = fake.prev = &fake`. -/
def init_fake_for_empty (h : Heap) (l : list) : Heap :=
  setNext (setPrev h l.fake (some l.fake)) l.fake (some l.fake)

/-- The function `list::empty`: `fake.next == &fake`. -/
def empty (h : Heap) (l : list) : Bool :=
  (h l.fake).next == some l.fake

/-- The pointer held by `list::begin()`: `fake.next`. -/
def begin (h : Heap) (l : list) : Option Nat :=
  (h l.fake).next

/-- The pointer held by `list::end()`: `&fake`. -/
def end_ (l : list) : Nat :=
  l.fake

/-- The function `list::insert(pos, value)`: `value.link(pos.p->prev, pos.p)`;
returns the new memory (the returned iterator holds `&value`). -/
def insert (h : Heap) (_l : list) (pos value : Nat) : Option Heap :=
  node.link h value (h pos).prev (some pos)

/-- The function `list::erase(pos)`: the pointer of the returned iterator is
read from the predecessor after the node is unlinked. -/
def erase (h : Heap) (_l : list) (pos : Nat) : Option (Heap × Option Nat) :=
  -- iterator it(pos.p->prev);
  let it := (h pos).prev
  match node.unlink h pos with
  | none => none
  | some h1 =>
    -- return std::next(it);
    match it with
    | none => none
    | some q => some (h1, (h1 q).next)

/-- The function `list::push_back`: `insert(end(), value)`. -/
def push_back (h : Heap) (l : list) (value : Nat) : Option Heap :=
  insert h l l.end_ value

/-- The function `list::push_front`: `insert(begin(), value)`. -/
def push_front (h : Heap) (l : list) (value : Nat) : Option Heap :=
  match l.begin h with
  | none => none
  | some b => insert h l b value

/-- The function `list::pop_back`: `erase(std::prev(end()))`. -/
def pop_back (h : Heap) (l : list) : Option Heap :=
  match (h l.end_).prev with
  | none => none
  | some p => (erase h l p).map Prod.fst

/-- The function `list::pop_front`: `erase(begin())`. -/
def pop_front (h : Heap) (l : list) : Option Heap :=
  match l.begin h with
  | none => none
  | some b => (erase h l b).map Prod.fst

/-- The address of the element `list::back()` refers to: `*std::prev(end())`. -/
def back (h : Heap) (l : list) : Option Nat :=
  (h l.end_).prev

/-- The address of the element `list::front()` refers to: `*begin()`. -/
def front (h : Heap) (l : list) : Option Nat :=
  l.begin h

/-- The function `list::clear`: `while (!empty()) pop_back();`, one unit of fuel
per test of the loop condition. -/
def clear : Nat → Heap → list → Option Heap
  | 0, _, _ => none
  | fuel + 1, h, l =>
    if l.empty h then some h
    else
      match pop_back h l with
      | none => none
      | some h1 => clear fuel h1 l

/-- Forward traversal `for (it = begin(); it != end(); ++it)`: the addresses
visited, one unit of fuel per test of the loop condition. -/
def traverse_from (h : Heap) (l : list) : Nat → Option Nat → Option (List Nat)
  | 0, _ => none
  | _ + 1, none => none
  | fuel + 1, some p =>
    if p = l.end_ then some []
    else (traverse_from h l fuel (h p).next).map (p :: ·)

/-- Forward traversal of the whole list, from `begin()` to `end()`. -/
def forward (h : Heap) (l : list) (fuel : Nat) : Option (List Nat) :=
  traverse_from h l fuel (l.begin h)

/-- Backward traversal from `end()` following `prev` (`--it`) until `end()` is
met again: the addresses visited. -/
def traverse_back (h : Heap) (l : list) : Nat → Option Nat → Option (List Nat)
  | 0, _ => none
  | _ + 1, none => none
  | fuel + 1, some p =>
    if p = l.end_ then some []
    else (traverse_back h l fuel (h p).prev).map (p :: ·)

/-- Backward traversal of the whole list, from the last element to the first. -/
def backward (h : Heap) (l : list) (fuel : Nat) : Option (List Nat) :=
  traverse_back h l fuel (h l.end_).prev

end list

end intrusive

namespace signals

open intrusive

/-- Update of a per-address attribute map. -/
def upd {α : Type} (m : Nat → α) (a : Nat) (v : α) : Nat → α :=
  fun x => if x = a then v else m x

/-- Address of the one signal object of the model; a non-null `signal *` holds it. -/
def this_signal : Nat := 0

/-- The member `m_connections` of the signal: the list whose sentinel lives
inside the signal object. -/
def m_connections : list := ⟨0⟩

/-- The struct `iteration_token` (signals.h:99-119).  `iterator` is the node
pointer held by the iterator.  Tokens are objects on the call stack; the address
of a token is the number of tokens below it. -/
structure iteration_token where
  m_signal : Option Nat
  previous : Option Nat
  iterator : Option Nat
  deriving DecidableEq, Repr

/-- The program state around one signal.
* `heap`: the `node` base of the sentinel and of every connection;
* `m_callback c`: the function held by connection `c`, `none` for an empty
  `std::function`;
* `m_signal c`: the back-pointer of connection `c`;
* `objects`: the addresses of the connection objects alive;
* `tokens`: the token objects on the call stack, innermost pass first; while
  the signal lives they are the chain `last_token, last_token->previous, ...`
  (theorem `reachable_chain`), and the loops of the code over that chain are
  taken over this list;
* `alive`: the signal has not been destroyed;
* `log`: the invocations so far, as pairs (connection, function);
* `last_token`: the member `last_token` of the signal (what it holds after the
  signal is destroyed is what was last written to it). -/
structure State where
  heap : Heap
  m_callback : Nat → Option Nat
  m_signal : Nat → Option Nat
  objects : List Nat
  tokens : List iteration_token
  alive : Bool
  log : List (Nat × Nat)
  last_token : Option Nat

/-- The state after `signal() = default` in memory `h`: the list constructor
runs `init_fake_for_empty`, `last_token` is null, no connection exists. -/
def State.init (h : Heap) : State :=
  { heap := list.init_fake_for_empty h m_connections
    m_callback := fun _ => none
    m_signal := fun _ => none
    objects := []
    tokens := []
    alive := true
    log := []
    last_token := none }

/-- Storage at `c` may receive a new connection object: it is neither a live
connection nor the signal itself. -/
def State.free (s : State) (c : Nat) : Prop :=
  c ∉ s.objects ∧ c ≠ m_connections.fake

instance (s : State) (c : Nat) : Decidable (s.free c) := by
  unfold State.free; infer_instance

namespace connection

/-- The default constructor `connection() = default`. -/
def ctor_default (s : State) (self : Nat) : State :=
  { s with
    heap := fresh s.heap self
    m_callback := upd s.m_callback self none
    m_signal := upd s.m_signal self none
    objects := self :: s.objects }

/-- The constructor `connection(callback_t &&, signal *)` (signals.h:24-29):
the members are initialised, then `m_signal->m_connections.push_back(*this)`. -/
def ctor (s : State) (self : Nat) (callback : Nat) : Option State :=
  match m_connections.push_back (fresh s.heap self) self with
  | none => none
  | some h1 =>
    some { s with
      heap := h1
      m_callback := upd s.m_callback self (some callback)
      m_signal := upd s.m_signal self (some this_signal)
      objects := self :: s.objects }

/-- The function `connection::disconnect` (signals.h:70-85). -/
def disconnect (s : State) (self : Nat) : Option State :=
  match s.m_signal self with
  | none => some s
  | some _ =>
    -- for every token: if (&*token->iterator == this) ++token->iterator;
    let tokens := s.tokens.map fun token =>
      if token.iterator = some self then { token with iterator := (s.heap self).next }
      else token
    -- this->unlink(); m_signal = nullptr; m_callback = {};
    match node.unlink s.heap self with
    | none => none
    | some h1 =>
      some { s with
        heap := h1
        tokens := tokens
        m_signal := upd s.m_signal self none
        m_callback := upd s.m_callback self none }

/-- The function `connection::replace` (signals.h:49-68). -/
def replace (s : State) (self other : Nat) : Option State :=
  match s.m_signal self with
  | none => disconnect s other
  | some _ =>
    -- this_iterator = m_connections.insert(other_iterator, *this);
    match m_connections.insert s.heap other self with
    | none => none
    | some h1 =>
      -- every token on other_iterator is set to this_iterator
      let tokens := s.tokens.map fun token =>
        if token.iterator = some other then { token with iterator := some self }
        else token
      disconnect { s with heap := h1, tokens := tokens } other

/-- The move constructor `connection(connection &&)` (signals.h:31-36): the
`node` base is default-constructed, `m_callback` is moved out of `other` (which
is left empty), `m_signal` is copied, then `replace(other)`. -/
def move_construct (s : State) (self other : Nat) : Option State :=
  replace
    { s with
      heap := fresh s.heap self
      m_callback := upd (upd s.m_callback self (s.m_callback other)) other none
      m_signal := upd s.m_signal self (s.m_signal other)
      objects := self :: s.objects }
    self other

/-- The move assignment `connection::operator=(connection &&)` (signals.h:38-47). -/
def move_assign (s : State) (self other : Nat) : Option State :=
  if self ≠ other then
    match disconnect s self with
    | none => none
    | some s1 =>
      replace
        { s1 with
          m_signal := upd s1.m_signal self (s1.m_signal other)
          m_callback := upd (upd s1.m_callback self (s1.m_callback other)) other none }
        self other
  else some s

/-- The destructor `~connection` (signals.h:87-90): `disconnect()`, then the
base `node` is destroyed, which unlinks it, and the object is gone. -/
def dtor (s : State) (self : Nat) : Option State :=
  match disconnect s self with
  | none => none
  | some s1 =>
    match node.unlink s1.heap self with
    | none => none
    | some h1 => some { s1 with heap := h1, objects := s1.objects.erase self }

end connection

namespace iteration_token

/-- The constructor `iteration_token(signal *)` (signals.h:101-107):
`previous` is the current `last_token`, the cursor is `begin()`, and the token
becomes `last_token`. -/
def ctor (s : State) : State :=
  { s with
    tokens := { m_signal := some this_signal, previous := s.last_token,
                iterator := m_connections.begin s.heap } :: s.tokens
    last_token := some s.tokens.length }

/-- The destructor `~iteration_token` (signals.h:109-114) of the innermost
token: `if (m_signal) m_signal->last_token = previous;`, and the token object is
gone.  A token whose signal was destroyed skips the assignment. -/
def dtor (s : State) : State :=
  { s with
    tokens := s.tokens.tail
    last_token :=
      match s.tokens.head? with
      | some token => if token.m_signal.isSome then token.previous else s.last_token
      | none => s.last_token }

end iteration_token

namespace signal

/-- The loop condition of `operator()` for `token`:
`token.m_signal && token.iterator != m_connections.end()`. -/
def pending (token : iteration_token) : Bool :=
  token.m_signal.isSome && (token.iterator != some m_connections.end_)

/-- The expression `(token.iterator++)->m_callback` of the innermost pass: the
cursor moves to the successor, and the function of the connection it stood on is
the one to invoke; the invocation is logged.  No result when the cursor is null
or the function is empty. -/
def advance (s : State) : Option (State × Nat) :=
  match s.tokens with
  | [] => none
  | token :: previous =>
    match token.iterator with
    | none => none
    | some c =>
      match s.m_callback c with
      | none => none
      | some f =>
        some ({ s with
                tokens := { token with iterator := (s.heap c).next } :: previous
                log := s.log ++ [(c, f)] }, f)

/-- The loop `while (!m_connections.empty()) m_connections.back().disconnect();`
of `~signal`, one unit of fuel per test of the loop condition. -/
def disconnect_all : Nat → State → Option State
  | 0, _ => none
  | fuel + 1, s =>
    if m_connections.empty s.heap then some s
    else
      match m_connections.back s.heap with
      | none => none
      | some c =>
        match connection.disconnect s c with
        | none => none
        | some s1 => disconnect_all fuel s1

/-- The destructor `~signal` (signals.h:131-139): every token of the chain
loses its signal, every connection is disconnected, then the member
`m_connections` is destroyed (`clear()`, and the sentinel node unlinks itself). -/
def dtor (fuel : Nat) (s : State) : Option State :=
  let s1 := { s with tokens := s.tokens.map fun token => { token with m_signal := none } }
  match disconnect_all fuel s1 with
  | none => none
  | some s2 =>
    match m_connections.clear fuel s2.heap with
    | none => none
    | some h3 =>
      match node.unlink h3 m_connections.fake with
      | none => none
      | some h4 => some { s2 with heap := h4, alive := false }

end signal

/-- What a callback may do to the signal and its connections. -/
inductive Cmd where
  /-- The call `sig(args...)`. -/
  | emit
  /-- A connection is created at address `c` by `sig.connect(f)`. -/
  | connect (c f : Nat)
  /-- A connection is default-constructed at address `c`. -/
  | construct (c : Nat)
  /-- The call `c.disconnect()`. -/
  | disconnect (c : Nat)
  /-- A connection is move-constructed at `dst` from `src`. -/
  | move_construct (dst src : Nat)
  /-- The assignment `dst = std::move(src)`. -/
  | move_assign (dst src : Nat)
  /-- The connection at `c` is destroyed. -/
  | destroy (c : Nat)
  /-- The signal is destroyed. -/
  | destroy_signal
  deriving DecidableEq, Repr

/-- The body of every function: what function `f` does when invoked after the
invocations `history`. -/
abbrev Program := Nat → List (Nat × Nat) → List Cmd

/-- One command other than `emit`, applied to objects that exist (a command on
an object that is not alive, or on a destroyed signal, has no result). -/
def Cmd.run (fuel : Nat) (s : State) : Cmd → Option State
  | .emit => none
  | .connect c f => if s.alive ∧ s.free c then connection.ctor s c f else none
  | .construct c => if s.free c then some (connection.ctor_default s c) else none
  | .disconnect c => if c ∈ s.objects then connection.disconnect s c else none
  | .move_construct dst src =>
    if s.free dst ∧ src ∈ s.objects then connection.move_construct s dst src else none
  | .move_assign dst src =>
    if dst ∈ s.objects ∧ src ∈ s.objects then connection.move_assign s dst src else none
  | .destroy c => if c ∈ s.objects then connection.dtor s c else none
  | .destroy_signal => if s.alive then signal.dtor fuel s else none

mutual

/-- A function body: its commands in order. -/
def exec (prog : Program) : Nat → List Cmd → State → Option State
  | 0, _, _ => none
  | _ + 1, [], s => some s
  | fuel + 1, .emit :: cs, s =>
    match call prog fuel s with
    | none => none
    | some s1 => exec prog fuel cs s1
  | fuel + 1, c :: cs, s =>
    match c.run fuel s with
    | none => none
    | some s1 => exec prog fuel cs s1

/-- The loop of `operator()` (signals.h:144-146) for the innermost token. -/
def loop (prog : Program) : Nat → State → Option State
  | 0, _ => none
  | fuel + 1, s =>
    match s.tokens with
    | [] => none
    | token :: _ =>
      if signal.pending token then
        match signal.advance s with
        | none => none
        | some (s1, f) =>
          match exec prog fuel (prog f s.log) s1 with
          | none => none
          | some s2 => loop prog fuel s2
      else some s

/-- The function `signal::operator()` (signals.h:141-147): a token is pushed,
the loop runs, the token is popped. -/
def call (prog : Program) : Nat → State → Option State
  | 0, _ => none
  | fuel + 1, s =>
    if s.alive then
      match loop prog fuel (iteration_token.ctor s) with
      | none => none
      | some s1 => some (iteration_token.dtor s1)
    else none

end

end signals

namespace intrusive

/-- `Seg h a l b`: starting at `a`, the `next` pointers lead through the nodes
of `l` in order and then to `b`, and the `prev` pointers lead back. -/
def Seg (h : Heap) : Nat → List Nat → Nat → Prop
  | a, [], b => (h a).next = some b ∧ (h b).prev = some a
  | a, x :: xs, b => (h a).next = some x ∧ (h x).prev = some a ∧ Seg h x xs b

instance Seg.decide (h : Heap) : (a : Nat) → (l : List Nat) → (b : Nat) → Decidable (Seg h a l b)
  | a, [], b => by unfold Seg; infer_instance
  | a, x :: xs, b => by
    unfold Seg
    have := Seg.decide h x xs b
    infer_instance

/-- `IsList h f l`: in memory `h` the list with sentinel `f` holds exactly the
nodes `l`, in this order: a closed ring through the sentinel, without repetition. -/
def IsList (h : Heap) (f : Nat) (l : List Nat) : Prop :=
  Seg h f l f ∧ (f :: l).Nodup

instance (h : Heap) (f : Nat) (l : List Nat) : Decidable (IsList h f l) := by
  unfold IsList; infer_instance

end intrusive

namespace signals

open intrusive

/-- The state is well-formed and the connection list of the signal is `l`:
* the ring through the sentinel holds exactly `l`;
* the connections of `l` are live objects, attached, with a function;
* a live object that is attached is in `l`;
* a live object that is not attached has null links and an empty function;
* the cursor of every token that still has its signal is the sentinel or a
  connection of `l`. -/
structure Rep (s : State) (l : List Nat) : Prop where
  isList : IsList s.heap m_connections.fake l
  fake_free : m_connections.fake ∉ s.objects
  sub : ∀ c ∈ l, c ∈ s.objects
  attached : ∀ c ∈ s.objects, s.m_signal c ≠ none → c ∈ l
  linked : ∀ c ∈ l, s.m_signal c ≠ none ∧ s.m_callback c ≠ none
  detached : ∀ c ∈ s.objects, s.m_signal c = none → s.heap c = {} ∧ s.m_callback c = none
  cursor : ∀ t ∈ s.tokens, t.m_signal ≠ none →
    t.iterator = some m_connections.fake ∨ ∃ c ∈ l, t.iterator = some c

/-- Every token whose cursor is on node `a` gets the cursor `b`. -/
def retarget (ts : List iteration_token) (a : Nat) (b : Option Nat) : List iteration_token :=
  ts.map fun token => if token.iterator = some a then { token with iterator := b } else token

/-- The member initialisation of a move: `m_signal` of `self` is copied from
`other`, `m_callback` is moved from `other`, which is left empty. -/
def connection.take (s : State) (self other : Nat) : State :=
  { s with
    m_signal := upd s.m_signal self (s.m_signal other)
    m_callback := upd (upd s.m_callback self (s.m_callback other)) other none }

/-- The state after the signal is destroyed: no token has a signal, no live
connection is attached, linked or holds a function. -/
structure Dead (s : State) : Prop where
  not_alive : s.alive = false
  tokens : ∀ t ∈ s.tokens, t.m_signal = none
  objects : ∀ c ∈ s.objects, s.m_signal c = none ∧ s.heap c = {} ∧ s.m_callback c = none

/-- The states the program can be in: the signal is constructed, then
connections are created, disconnected, moved and destroyed, passes start
(a token is pushed), the innermost pass advances its cursor and invokes, a pass
whose loop condition fails ends (its token is popped), the signal is destroyed. -/
inductive Reachable : State → Prop where
  | init (h : Heap) : Reachable (State.init h)
  | run {s s' : State} (fuel : Nat) (c : Cmd) :
      Reachable s → c.run fuel s = some s' → Reachable s'
  | push {s : State} : Reachable s → s.alive = true → Reachable (iteration_token.ctor s)
  | step {s s' : State} {t : iteration_token} {f : Nat} :
      Reachable s → s.tokens.head? = some t → signal.pending t = true →
      signal.advance s = some (s', f) → Reachable s'
  | pop {s : State} {t : iteration_token} :
      Reachable s → s.tokens.head? = some t → signal.pending t = false →
      Reachable (iteration_token.dtor s)

end signals

namespace signals

open intrusive

/-- A reachable state used as an instance: one connection at address 1, and one
pass in progress whose cursor stands on it. -/
def cursor_demo : State :=
  iteration_token.ctor
    (((Cmd.connect 1 11).run 0 (State.init fun _ => {})).get (by decide))

end signals

namespace signals

open intrusive

/-- The connections `cs` (address, function) are created one after the other by
`connect`. -/
def signal.connect_each (s : State) : List (Nat × Nat) → Option State
  | [] => some s
  | p :: rest =>
    match (Cmd.connect p.1 p.2).run 0 s with
    | none => none
    | some s1 => signal.connect_each s1 rest

end signals

namespace intrusive

/-- The operations on a list the traversal property is about. -/
inductive ListOp where
  | push_back (x : Nat)
  | push_front (x : Nat)
  | pop_back
  | pop_front
  | erase (x : Nat)
  deriving DecidableEq, Repr

/-- One operation on the list `l` in memory `h`, as the code performs it. -/
def ListOp.run (h : Heap) (l : list) : ListOp → Option Heap
  | .push_back x => l.push_back h x
  | .push_front x => l.push_front h x
  | .pop_back => l.pop_back h
  | .pop_front => l.pop_front h
  | .erase x => (l.erase h x).map Prod.fst

/-- A sequence of operations on the list `l`, as the code performs them. -/
def list.run_ops (l : list) : Heap → List ListOp → Option Heap
  | h, [] => some h
  | h, op :: ops =>
    match op.run h l with
    | none => none
    | some h1 => l.run_ops h1 ops

/-- The expected sequence of the spec: one operation on an abstract sequence
`xs` of elements.  A pushed element is not linked yet (it is not in `xs` and is
not the sentinel `f`), a pop needs a non-empty sequence, an erased element is in
the sequence. -/
def ListOp.model (f : Nat) (xs : List Nat) : ListOp → Option (List Nat)
  | .push_back x => if x ∉ xs ∧ x ≠ f then some (xs ++ [x]) else none
  | .push_front x => if x ∉ xs ∧ x ≠ f then some (x :: xs) else none
  | .pop_back => if xs ≠ [] then some xs.dropLast else none
  | .pop_front => if xs ≠ [] then some xs.tail else none
  | .erase x => if x ∈ xs then some (xs.erase x) else none

/-- The expected sequence of the spec after a sequence of operations. -/
def ListOp.model_ops (f : Nat) : List Nat → List ListOp → Option (List Nat)
  | xs, [] => some xs
  | xs, op :: ops =>
    match op.model f xs with
    | none => none
    | some ys => ListOp.model_ops f ys ops

/-- The invariant of the refinement: the ring holds the abstract sequence, and
every node outside the ring is unlinked. -/
def Refines (h : Heap) (f : Nat) (xs : List Nat) : Prop :=
  IsList h f xs ∧ ∀ y, y ∉ f :: xs → (h y).next = none

end intrusive

namespace intrusive

/-- The list with sentinel 0 after `push_back` of node `a`, then of node `b`,
among nodes that start unlinked. -/
def two_nodes (a b : Nat) : Option Heap :=
  (list.push_back (list.init_fake_for_empty (fun _ => {}) ⟨0⟩) ⟨0⟩ a).bind fun h1 =>
    list.push_back h1 ⟨0⟩ b

end intrusive

namespace signals

open intrusive

/-- The state after the commands `cs`, each run with `fuel`; a command without
result is skipped. -/
def run_cmds (fuel : Nat) : State → List Cmd → State
  | s, [] => s
  | s, c :: cs =>
    match c.run fuel s with
    | some s1 => run_cmds fuel s1 cs
    | none => run_cmds fuel s cs

/-- A reachable state used as an instance: three connections at addresses 1, 2
and 3, and one pass in progress whose cursor stands on the first. -/
def move_demo : State :=
  iteration_token.ctor
    (run_cmds 0 (State.init fun _ => {}) [.connect 1 11, .connect 2 12, .connect 3 13])

end signals

namespace signals

open intrusive

/-- Every pass in progress runs to its end, innermost first: the loop of the
innermost pass, then its token is popped, and so on for the enclosing passes
(whose callbacks do nothing more). -/
def finish (prog : Program) : Nat → State → Option State
  | 0, _ => none
  | fuel + 1, s =>
    match s.tokens with
    | [] => some s
    | _ :: _ =>
      match loop prog fuel s with
      | none => none
      | some s1 => finish prog fuel (iteration_token.dtor s1)

/-- A reachable state used as an instance: three connections and two nested
passes in progress. -/
def nested_demo : State :=
  iteration_token.ctor (iteration_token.ctor
    (run_cmds 0 (State.init fun _ => {}) [.connect 1 11, .connect 2 12, .connect 3 13]))

end signals

namespace signals

open intrusive

/-- The program in which function 12 connects function 13 at address 3 and all
other functions do nothing. -/
def connecting_prog : Program :=
  fun f _ => if f = 12 then [Cmd.connect 3 13] else []

end signals

namespace signals

open intrusive

/-- The connections a pass has still to visit: the part of the connection list
`l` from the cursor `it` on (nothing when the cursor is on the sentinel). -/
def signal.rest (l : List Nat) (it : Option Nat) : List Nat :=
  match it with
  | none => []
  | some c => l.dropWhile (· != c)

/-- The log entry of an invocation of connection `c` in state `s`: the
connection and the function it holds (0 for an empty function). -/
def signal.entry (s : State) (c : Nat) : Nat × Nat :=
  (c, (s.m_callback c).getD 0)

end signals

namespace intrusive

/-- The two pointer members of a `node`. -/
inductive Field where
  | next
  | prev
  deriving DecidableEq, Repr

/-- A reference `node *&`: the member `field` of the node at address `node`. -/
structure Ref where
  node : Nat
  field : Field
  deriving DecidableEq, Repr

/-- Reading through a reference. -/
def Ref.get (h : Heap) (r : Ref) : Option Nat :=
  match r.field with
  | .next => (h r.node).next
  | .prev => (h r.node).prev

/-- Writing through a reference. -/
def Ref.set (h : Heap) (r : Ref) (v : Option Nat) : Heap :=
  match r.field with
  | .next => setNext h r.node v
  | .prev => setPrev h r.node v

/-- The function `node::three_swap` (intrusive_list.cpp:49-55): the three
references are bound by the caller, the four assignments run in order, so that
references to the same member see each other's writes. -/
def node.three_swap (h : Heap) (a b c : Ref) : Heap :=
  -- node* tmp = a;
  let tmp := a.get h
  -- a = b;
  let h1 := a.set h (b.get h)
  -- b = c;
  let h2 := b.set h1 (c.get h1)
  -- c = tmp;
  c.set h2 tmp

/-- The function `node::splice` (intrusive_list.cpp:41-47).  The references of
the first exchange are `prev->next`, `first->prev->next`, `last->prev->next`,
those of the second `prev`, `last->prev`, `first->prev`. -/
def node.splice (h : Heap) (self first last : Nat) : Option Heap :=
  if first = last then some h
  else
    match (h self).prev, (h first).prev, (h last).prev with
    | some p, some fp, some lp =>
      let h1 := node.three_swap h ⟨p, .next⟩ ⟨fp, .next⟩ ⟨lp, .next⟩
      some (node.three_swap h1 ⟨self, .prev⟩ ⟨last, .prev⟩ ⟨first, .prev⟩)
    | _, _, _ => none

/-- The function `list::splice(pos, list &, first, last)`:
`pos.p->splice(first.p, last.p)`. -/
def list.splice (h : Heap) (_l : list) (pos : Nat) (_other : list) (first last : Nat) :
    Option Heap :=
  node.splice h pos first last

/-- The constructor `list::list()`: the member `fake` is default-initialised,
then `init_fake_for_empty()` runs. -/
def list.ctor (h : Heap) (l : list) : Heap :=
  l.init_fake_for_empty (fresh h l.fake)

/-- The move assignment `list::operator=(list &&)` (intrusive_list.h:145-153);
the fuel is that of `clear`. -/
def list.move_assign (fuel : Nat) (h : Heap) (self other : list) : Option Heap :=
  match list.clear fuel h self with
  | none => none
  | some h1 =>
    if !other.empty h1 then
      -- fake = std::move(other.fake);
      match node.move_assign h1 self.fake other.fake with
      | none => none
      | some h2 => some (other.init_fake_for_empty h2)
    else some h1

/-- The move constructor `list::list(list &&)` (intrusive_list.h:136-140):
`list()`, then the move assignment. -/
def list.move_construct (fuel : Nat) (h : Heap) (self other : list) : Option Heap :=
  list.move_assign fuel (list.ctor h self) self other

/-- The list `l` constructed in memory `h` and filled by `push_back` of the
elements `xs` in order; a step that faults leaves the memory as it is. -/
def list.build (h : Heap) (l : list) (xs : List Nat) : Heap :=
  xs.foldl (fun h x => (l.push_back h x).getD h) (list.ctor h l)

end intrusive

namespace signals

open intrusive

/-- The states `s` and `s'` have the same token chain: the same tokens in the
same order with the same `m_signal` and `previous` members (cursors may
differ), the same `last_token`, and the signal is alive in both or in neither. -/
structure SameTokens (s s' : State) : Prop where
  alive : s'.alive = s.alive
  last_token : s'.last_token = s.last_token
  previous : s'.tokens.map (fun t => t.previous) = s.tokens.map (fun t => t.previous)
  m_signal : s'.tokens.map (fun t => t.m_signal) = s.tokens.map (fun t => t.m_signal)

/-- What a piece of code that starts in `s` and ends in `s'` keeps of the token
chain: the token objects and their `previous` members; a destroyed signal stays
destroyed; if the signal is alive at the end, `last_token` and the `m_signal`
members are as at the start. -/
structure Frame (s s' : State) : Prop where
  previous : s'.tokens.map (fun t => t.previous) = s.tokens.map (fun t => t.previous)
  dead : s.alive = false → s'.alive = false
  top : s'.alive = true → s'.last_token = s.last_token
  live : s'.alive = true →
    s'.tokens.map (fun t => t.m_signal) = s.tokens.map (fun t => t.m_signal)

/-- The chain `top, top->previous, ...` runs through exactly the tokens `ts`,
innermost first, each one registered with the signal; the address of a token is
the number of tokens below it. -/
def Chain : List iteration_token → Option Nat → Prop
  | [], top => top = none
  | t :: ts, top => top = some ts.length ∧ t.m_signal = some this_signal ∧ Chain ts t.previous

/-- The signal destroyed by the function of its only connection: the program
of the callback with id 11. -/
def destroying_prog : Program := fun f _ => if f = 11 then [Cmd.destroy_signal] else []

end signals

namespace signals

open intrusive

/-- A reachable state used as an instance: one connection at address 1, a pass
that has advanced its cursor past it, to `end()`, and is invoking its function,
and inside that invocation a nested pass whose cursor stands on connection 1. -/
def end_demo : State :=
  iteration_token.ctor ((signal.advance cursor_demo).get (by decide)).1

end signals

namespace signals

open intrusive

/-- The program in which function 12 disconnects connection 2 and then connects
function 13 at address 3, and all other functions do nothing. -/
def cancel_then_connect_prog : Program :=
  fun f _ => if f = 12 then [Cmd.disconnect 2, Cmd.connect 3 13] else []

end signals

/-! # Theorems -/

namespace intrusive

@[simp] theorem setNext_next (h : Heap) (p : Nat) (v : Option Nat) (a : Nat) :
    (setNext h p v a).next = if a = p then v else (h a).next := by
  unfold setNext; split <;> rfl

@[simp] theorem setNext_prev (h : Heap) (p : Nat) (v : Option Nat) (a : Nat) :
    (setNext h p v a).prev = (h a).prev := by
  unfold setNext; split <;> simp_all

@[simp] theorem setPrev_prev (h : Heap) (p : Nat) (v : Option Nat) (a : Nat) :
    (setPrev h p v a).prev = if a = p then v else (h a).prev := by
  unfold setPrev; split <;> rfl

@[simp] theorem setPrev_next (h : Heap) (p : Nat) (v : Option Nat) (a : Nat) :
    (setPrev h p v a).next = (h a).next := by
  unfold setPrev; split <;> simp_all

@[simp] theorem fresh_next (h : Heap) (p a : Nat) :
    (fresh h p a).next = if a = p then none else (h a).next := by
  unfold fresh; split <;> rfl

@[simp] theorem fresh_prev (h : Heap) (p a : Nat) :
    (fresh h p a).prev = if a = p then none else (h a).prev := by
  unfold fresh; split <;> rfl

theorem node_ext {x y : node} (hn : x.next = y.next) (hp : x.prev = y.prev) : x = y := by
  cases x; cases y; simp_all

theorem seg_append (h : Heap) (l1 : List Nat) (c : Nat) (l2 : List Nat) (a b : Nat) :
    Seg h a (l1 ++ c :: l2) b ↔ Seg h a l1 c ∧ Seg h c l2 b := by
  induction l1 generalizing a with
  | nil => cases l2 <;> simp [Seg, and_assoc]
  | cons x xs ih => simp [Seg, ih, and_assoc]

theorem seg_congr {h h' : Heap} {l : List Nat} {a b : Nat} (hs : Seg h a l b)
    (hn : ∀ u ∈ a :: l, (h' u).next = (h u).next)
    (hp : ∀ v ∈ l ++ [b], (h' v).prev = (h v).prev) : Seg h' a l b := by
  induction l generalizing a with
  | nil =>
    simp only [Seg] at hs ⊢
    rw [hn a (by simp), hp b (by simp)]; exact hs
  | cons x xs ih =>
    simp only [Seg] at hs ⊢
    refine ⟨by rw [hn a (by simp)]; exact hs.1, by rw [hp x (by simp)]; exact hs.2.1, ?_⟩
    exact ih hs.2.2 (fun u hu => hn u (by simp at hu ⊢; tauto))
      (fun v hv => hp v (by simp at hv ⊢; tauto))

theorem seg_next_head {h : Heap} {l : List Nat} {a b : Nat} (hs : Seg h a l b) :
    (h a).next = some (l.headD b) := by
  cases l <;> simp_all [Seg]

theorem seg_prev_last {h : Heap} {l : List Nat} {a b : Nat} (hs : Seg h a l b) :
    (h b).prev = some (l.getLastD a) := by
  induction l generalizing a with
  | nil => simp_all [Seg]
  | cons x xs ih =>
    rw [List.getLastD_cons]
    exact ih hs.2.2


/-- The memory after `x` is taken out from between `p` and `n`. -/
theorem unlink_eq {h : Heap} {x p n : Nat} (hn : (h x).next = some n) (hp : (h x).prev = some p)
    (hxn : x ≠ n) :
    node.unlink h x = some (setNext (setPrev (setNext (setPrev h n (some p)) p (some n)) x none) x none) := by
  simp [node.unlink, hn, hp, hxn]

theorem seg_unlink {h h' : Heap} {l1 l2 : List Nat} {a b c : Nat}
    (h1 : Seg h a l1 c) (h2 : Seg h c l2 b)
    (hnd : (a :: l1 ++ c :: l2).Nodup) (hb : b ∉ l1 ++ c :: l2)
    (hn : ∀ u, (h' u).next = if u = c then none else if u = l1.getLastD a then some (l2.headD b)
      else (h u).next)
    (hp : ∀ u, (h' u).prev = if u = c then none else if u = l2.headD b then some (l1.getLastD a)
      else (h u).prev) :
    Seg h' a (l1 ++ l2) b := by
  rcases List.eq_nil_or_concat l1 with rfl | ⟨l1', p, rfl⟩
  · cases l2 with
    | nil =>
      simp at hnd hb hn hp
      simp only [Seg, List.nil_append]
      exact ⟨by rw [hn]; simp [hnd], by rw [hp]; simp [hb]⟩
    | cons n l2' =>
      simp at hnd hb hn hp
      simp only [Seg, List.nil_append] at h2 ⊢
      refine ⟨by rw [hn]; simp [hnd], by rw [hp]; simp; intro e; simp [e] at hnd, ?_⟩
      refine seg_congr h2.2.2 (fun u hu => ?_) (fun v hv => ?_)
      · rw [hn]
        have : u ≠ c := by clear hn hp; rintro rfl; simp_all
        have : u ≠ a := by clear hn hp; rintro rfl; simp_all
        simp [*]
      · rw [hp]
        have : v ≠ c := by clear hn hp; rintro rfl; simp_all
        have : v ≠ n := by clear hn hp; rintro rfl; simp_all
        simp [*]
  · simp only [List.concat_eq_append] at *
    rw [seg_append] at h1
    cases l2 with
    | nil =>
      simp [List.nodup_append] at hnd hb hn hp
      rw [List.append_nil, seg_append]
      simp only [Seg] at h1 ⊢
      refine ⟨seg_congr h1.1 (fun u hu => ?_) (fun v hv => ?_), by rw [hn]; simp; tauto,
        by rw [hp]; simp; tauto⟩
      · rw [hn]
        have : u ≠ c := by clear hn hp; rintro rfl; simp_all
        have : u ≠ p := by clear hn hp; rintro rfl; simp_all
        simp [*]
      · rw [hp]
        have : v ≠ c := by clear hn hp; rintro rfl; simp_all
        have : v ≠ b := by clear hn hp; rintro rfl; simp_all
        simp [*]
    | cons n l2' =>
      simp [List.nodup_append] at hnd hb hn hp
      rw [List.append_assoc, List.singleton_append, seg_append]
      simp only [Seg] at h1 h2 ⊢
      refine ⟨seg_congr h1.1 (fun u hu => ?_) (fun v hv => ?_), by rw [hn]; simp; tauto,
        by rw [hp]; simp; tauto, seg_congr h2.2.2 (fun u hu => ?_) (fun v hv => ?_)⟩
      · rw [hn]
        have : u ≠ c := by clear hn hp; rintro rfl; simp_all
        have : u ≠ p := by clear hn hp; rintro rfl; simp_all
        simp [*]
      · rw [hp]
        have : v ≠ c := by clear hn hp; rintro rfl; simp_all
        have : v ≠ n := by clear hn hp; rintro rfl; simp_all
        simp [*]
      · rw [hn]
        have : u ≠ c := by clear hn hp; rintro rfl; simp_all
        have : u ≠ p := by clear hn hp; rintro rfl; simp_all
        simp [*]
      · rw [hp]
        have : v ≠ c := by clear hn hp; rintro rfl; simp_all
        have : v ≠ n := by clear hn hp; rintro rfl; simp_all
        simp [*]


theorem seg_link {h h' : Heap} {l1 l2 : List Nat} {a b c : Nat}
    (h0 : Seg h a (l1 ++ l2) b)
    (hnd : (a :: l1 ++ c :: l2).Nodup) (hb : b ∉ l1 ++ c :: l2)
    (hn : ∀ u, (h' u).next = if u = c then some (l2.headD b) else if u = l1.getLastD a then some c
      else (h u).next)
    (hp : ∀ u, (h' u).prev = if u = c then some (l1.getLastD a) else if u = l2.headD b then some c
      else (h u).prev) :
    Seg h' a (l1 ++ c :: l2) b := by
  rw [seg_append]
  rcases List.eq_nil_or_concat l1 with rfl | ⟨l1', p, rfl⟩
  · cases l2 with
    | nil =>
      simp at hnd hb hn hp
      simp only [Seg, List.nil_append]
      refine ⟨⟨by rw [hn]; simp [hnd], by rw [hp]; simp⟩, by rw [hn]; simp, by rw [hp]; simp [hb]⟩
    | cons n l2' =>
      simp at hnd hb hn hp
      simp only [Seg, List.nil_append] at h0 ⊢
      refine ⟨⟨by rw [hn]; simp; tauto, by rw [hp]; simp⟩, by rw [hn]; simp, by rw [hp]; simp; tauto, ?_⟩
      refine seg_congr h0.2.2 (fun u hu => ?_) (fun v hv => ?_)
      · rw [hn]
        have : u ≠ c := by clear hn hp; rintro rfl; simp_all
        have : u ≠ a := by clear hn hp; rintro rfl; simp_all
        simp [*]
      · rw [hp]
        have : v ≠ c := by clear hn hp; rintro rfl; simp_all
        have : v ≠ n := by clear hn hp; rintro rfl; simp_all
        simp [*]
  · simp only [List.concat_eq_append] at *
    cases l2 with
    | nil =>
      simp [List.nodup_append] at hnd hb hn hp
      rw [List.append_nil] at h0
      rw [seg_append] at h0 ⊢
      simp only [Seg] at h0 ⊢
      refine ⟨⟨seg_congr h0.1 (fun u hu => ?_) (fun v hv => ?_), by rw [hn]; simp; tauto,
        by rw [hp]; simp⟩, by rw [hn]; simp, by rw [hp]; simp; tauto⟩
      · rw [hn]
        have : u ≠ c := by clear hn hp; rintro rfl; simp_all
        have : u ≠ p := by clear hn hp; rintro rfl; simp_all
        simp [*]
      · rw [hp]
        have : v ≠ c := by clear hn hp; rintro rfl; simp_all
        have : v ≠ b := by clear hn hp; rintro rfl; simp_all
        simp [*]
    | cons n l2' =>
      simp [List.nodup_append] at hnd hb hn hp
      rw [List.append_assoc, List.singleton_append] at h0
      rw [seg_append] at h0 ⊢
      simp only [Seg] at h0 ⊢
      refine ⟨⟨seg_congr h0.1 (fun u hu => ?_) (fun v hv => ?_), by rw [hn]; simp; tauto,
        by rw [hp]; simp⟩, by rw [hn]; simp, by rw [hp]; simp; tauto,
        seg_congr h0.2.2.2 (fun u hu => ?_) (fun v hv => ?_)⟩
      · rw [hn]
        have : u ≠ c := by clear hn hp; rintro rfl; simp_all
        have : u ≠ p := by clear hn hp; rintro rfl; simp_all
        simp [*]
      · rw [hp]
        have : v ≠ c := by clear hn hp; rintro rfl; simp_all
        have : v ≠ n := by clear hn hp; rintro rfl; simp_all
        simp [*]
      · rw [hn]
        have : u ≠ c := by clear hn hp; rintro rfl; simp_all
        have : u ≠ p := by clear hn hp; rintro rfl; simp_all
        simp [*]
      · rw [hp]
        have : v ≠ c := by clear hn hp; rintro rfl; simp_all
        have : v ≠ n := by clear hn hp; rintro rfl; simp_all
        simp [*]

theorem isList_next {h : Heap} {f c : Nat} {l1 l2 : List Nat} (hl : IsList h f (l1 ++ c :: l2)) :
    (h c).next = some (l2.headD f) :=
  seg_next_head ((seg_append h l1 c l2 f f).1 hl.1).2

theorem isList_prev {h : Heap} {f c : Nat} {l1 l2 : List Nat} (hl : IsList h f (l1 ++ c :: l2)) :
    (h c).prev = some (l1.getLastD f) :=
  seg_prev_last ((seg_append h l1 c l2 f f).1 hl.1).1

theorem isList_fake_next {h : Heap} {f : Nat} {l : List Nat} (hl : IsList h f l) :
    (h f).next = some (l.headD f) :=
  seg_next_head hl.1

theorem isList_fake_prev {h : Heap} {f : Nat} {l : List Nat} (hl : IsList h f l) :
    (h f).prev = some (l.getLastD f) :=
  seg_prev_last hl.1

theorem headD_mem_or {l : List Nat} {f : Nat} : l.headD f = f ∨ l.headD f ∈ l := by
  cases l <;> simp

theorem getLastD_mem_or {l : List Nat} {f : Nat} : l.getLastD f = f ∨ l.getLastD f ∈ l := by
  rcases List.eq_nil_or_concat l with rfl | ⟨l', p, rfl⟩ <;> simp

/-- Unlinking a node of a well-formed list: the node leaves the ring, its
pointers are null, nothing outside the ring changes. -/
theorem isList_unlink {h : Heap} {f c : Nat} {l1 l2 : List Nat}
    (hl : IsList h f (l1 ++ c :: l2)) :
    ∃ h', node.unlink h c = some h' ∧ IsList h' f (l1 ++ l2) ∧
      h' c = {} ∧ ∀ y, y ∉ f :: (l1 ++ c :: l2) → h' y = h y := by
  have hn := isList_next hl
  have hp := isList_prev hl
  have hnd := hl.2
  have hcn : c ≠ l2.headD f := by
    intro e
    simp [List.nodup_append] at hnd
    rcases @headD_mem_or l2 f with h1 | h1 <;> rw [← e] at h1
    · exact hnd.1.2.1 h1.symm
    · exact hnd.2.2.1.1 h1
  have hcp : c ≠ l1.getLastD f := by
    intro e
    simp [List.nodup_append] at hnd
    rcases @getLastD_mem_or l1 f with h1 | h1 <;> rw [← e] at h1
    · exact hnd.1.2.1 h1.symm
    · exact hnd.2.2.2.1 h1
  have hs := (seg_append h l1 c l2 f f).1 hl.1
  have hb : f ∉ l1 ++ c :: l2 := by simp [List.nodup_append] at hnd ⊢; tauto
  have hfr : ∀ y, y ∉ f :: (l1 ++ c :: l2) → y ≠ l2.headD f ∧ y ≠ l1.getLastD f := by
    intro y hy
    simp at hy
    constructor
    · rcases @headD_mem_or l2 f with h1 | h1 <;> intro e <;> rw [← e] at h1 <;> tauto
    · rcases @getLastD_mem_or l1 f with h1 | h1 <;> intro e <;> rw [← e] at h1 <;> tauto
  have hseg := fun h' => @seg_unlink h h' l1 l2 f f c hs.1 hs.2 hnd hb
  generalize l1.getLastD f = p at *
  generalize l2.headD f = n at *
  refine ⟨_, unlink_eq hn hp hcn, ⟨?_, ?_⟩, ?_, ?_⟩
  · refine hseg _ ?_ ?_
    · intro u; simp
    · intro u; simp
  · simp [List.nodup_append] at hnd ⊢; tauto
  · apply node_ext <;> simp
  · intro y hy
    have := hfr y hy
    simp at hy
    apply node_ext <;> simp [hy.2.2.1, this.1, this.2]


/-- The memory after the unlinked node `x` is put between `p` and `n`. -/
theorem link_eq {h : Heap} {x p n : Nat} (hx : (h x).next = none) :
    node.link h x (some p) (some n) =
      some (setPrev (setNext (setNext (setPrev h x (some p)) x (some n)) p (some x)) n (some x)) := by
  simp [node.link, node.unlink, hx]

theorem isList_prev_headD {h : Heap} {f : Nat} {l1 l2 : List Nat} (hl : IsList h f (l1 ++ l2)) :
    (h (l2.headD f)).prev = some (l1.getLastD f) := by
  cases l2 with
  | nil => simpa using isList_fake_prev hl
  | cons y ys => simpa using isList_prev hl

/-- Linking an unlinked node into a well-formed list, between two neighbours:
the node enters the ring at that place, nothing outside the ring changes. -/
theorem isList_link {h : Heap} {f c : Nat} {l1 l2 : List Nat}
    (hl : IsList h f (l1 ++ l2)) (hc : c ∉ f :: (l1 ++ l2)) (hx : (h c).next = none) :
    ∃ h', node.link h c (some (l1.getLastD f)) (some (l2.headD f)) = some h' ∧
      IsList h' f (l1 ++ c :: l2) ∧ ∀ y, y ∉ f :: (l1 ++ c :: l2) → h' y = h y := by
  have hnd : (f :: (l1 ++ c :: l2)).Nodup := by
    have := hl.2
    simp [List.nodup_append] at this hc ⊢
    tauto
  have hb : f ∉ l1 ++ c :: l2 := by simp [List.nodup_append] at hnd ⊢; tauto
  have hcn : c ≠ l2.headD f := by
    intro e
    simp [List.nodup_append] at hnd
    rcases @headD_mem_or l2 f with h1 | h1 <;> rw [← e] at h1
    · exact hnd.1.2.1 h1.symm
    · exact hnd.2.2.1.1 h1
  have hcp : c ≠ l1.getLastD f := by
    intro e
    simp [List.nodup_append] at hnd
    rcases @getLastD_mem_or l1 f with h1 | h1 <;> rw [← e] at h1
    · exact hnd.1.2.1 h1.symm
    · exact hnd.2.2.2.1 h1
  have hfr : ∀ y, y ∉ f :: (l1 ++ c :: l2) → y ≠ l2.headD f ∧ y ≠ l1.getLastD f := by
    intro y hy
    simp at hy
    constructor
    · rcases @headD_mem_or l2 f with h1 | h1 <;> intro e <;> rw [← e] at h1 <;> tauto
    · rcases @getLastD_mem_or l1 f with h1 | h1 <;> intro e <;> rw [← e] at h1 <;> tauto
  have hseg := fun h' => @seg_link h h' l1 l2 f f c hl.1 hnd hb
  generalize l1.getLastD f = p at *
  generalize l2.headD f = n at *
  refine ⟨_, link_eq hx, ⟨?_, hnd⟩, ?_⟩
  · refine hseg _ ?_ ?_
    · intro u; simp; split_ifs <;> simp_all
    · intro u; simp; split_ifs <;> simp_all
  · intro y hy
    have := hfr y hy
    simp at hy
    apply node_ext <;> simp [hy.2.2.1, this.1, this.2]

/-- The function `list::insert` on a well-formed list, before the position that
splits the list into `l1` and `l2`. -/
theorem isList_insert {h : Heap} {f c : Nat} {l1 l2 : List Nat}
    (hl : IsList h f (l1 ++ l2)) (hc : c ∉ f :: (l1 ++ l2)) (hx : (h c).next = none) :
    ∃ h', list.insert h ⟨f⟩ (l2.headD f) c = some h' ∧
      IsList h' f (l1 ++ c :: l2) ∧ ∀ y, y ∉ f :: (l1 ++ c :: l2) → h' y = h y := by
  unfold list.insert
  rw [isList_prev_headD hl]
  exact isList_link hl hc hx


theorem isList_next_getLastD {h : Heap} {f : Nat} {l1 l2 : List Nat} (hl : IsList h f (l1 ++ l2)) :
    (h (l1.getLastD f)).next = some (l2.headD f) := by
  rcases List.eq_nil_or_concat l1 with rfl | ⟨l1', p, rfl⟩
  · simpa using isList_fake_next hl
  · simp only [List.concat_eq_append, List.append_assoc, List.singleton_append] at hl
    simpa using isList_next hl

theorem seg_traverse {h : Heap} {f : Nat} {l : List Nat} {a : Nat} {fuel : Nat}
    (hs : Seg h a l f) (hf : f ∉ l) (hfuel : l.length + 1 ≤ fuel) :
    list.traverse_from h ⟨f⟩ fuel (h a).next = some l := by
  induction l generalizing a fuel with
  | nil =>
    obtain ⟨k, rfl⟩ : ∃ k, fuel = k + 1 := ⟨fuel - 1, by simp at hfuel; omega⟩
    simp [Seg] at hs
    simp [hs.1, list.traverse_from, list.end_]
  | cons x xs ih =>
    obtain ⟨k, rfl⟩ : ∃ k, fuel = k + 1 := ⟨fuel - 1, by simp at hfuel; omega⟩
    simp only [Seg] at hs
    simp only [List.mem_cons, not_or] at hf
    have hxf : x ≠ f := fun e => hf.1 e.symm
    simp only [List.length_cons, Nat.add_le_add_iff_right] at hfuel
    simp [hs.1, list.traverse_from, list.end_, hxf, ih hs.2.2 hf.2 hfuel]

theorem seg_traverse_back {h : Heap} {f : Nat} {l : List Nat} {b : Nat} {fuel : Nat}
    (hs : Seg h f l b) (hf : f ∉ l) (hfuel : l.length + 1 ≤ fuel) :
    list.traverse_back h ⟨f⟩ fuel (h b).prev = some l.reverse := by
  induction l using List.reverseRecOn generalizing b fuel with
  | nil =>
    obtain ⟨k, rfl⟩ : ∃ k, fuel = k + 1 := ⟨fuel - 1, by simp at hfuel; omega⟩
    simp [Seg] at hs
    simp [hs.2, list.traverse_back, list.end_]
  | append_singleton xs x ih =>
    obtain ⟨k, rfl⟩ : ∃ k, fuel = k + 1 := ⟨fuel - 1, by simp at hfuel; omega⟩
    rw [seg_append] at hs
    simp only [Seg] at hs
    simp only [List.mem_append, List.mem_singleton, not_or] at hf
    have hxf : x ≠ f := fun e => hf.2 e.symm
    simp only [List.length_append, List.length_singleton, Nat.add_le_add_iff_right] at hfuel
    simp [hs.2.2, list.traverse_back, list.end_, hxf, ih hs.1 hf.1 hfuel]

/-- Forward traversal of a well-formed list yields its nodes in order. -/
theorem isList_forward {h : Heap} {f : Nat} {l : List Nat} (hl : IsList h f l) {fuel : Nat}
    (hfuel : l.length + 1 ≤ fuel) : list.forward h ⟨f⟩ fuel = some l :=
  seg_traverse hl.1 (List.nodup_cons.1 hl.2).1 hfuel

/-- Backward traversal of a well-formed list yields its nodes in reverse order. -/
theorem isList_backward {h : Heap} {f : Nat} {l : List Nat} (hl : IsList h f l) {fuel : Nat}
    (hfuel : l.length + 1 ≤ fuel) : list.backward h ⟨f⟩ fuel = some l.reverse :=
  seg_traverse_back hl.1 (List.nodup_cons.1 hl.2).1 hfuel

/-- In a well-formed list every node of the ring, the sentinel included, is the
successor of its predecessor and the predecessor of its successor. -/
theorem isList_neighbours {h : Heap} {f : Nat} {l : List Nat} (hl : IsList h f l) {n : Nat}
    (hn : n ∈ f :: l) :
    ∃ p q, (h n).prev = some p ∧ (h p).next = some n ∧ (h n).next = some q ∧
      (h q).prev = some n := by
  rcases List.mem_cons.1 hn with rfl | hn
  · refine ⟨l.getLastD n, l.headD n, isList_fake_prev hl, ?_, isList_fake_next hl, ?_⟩
    · have := @isList_next_getLastD h n l [] (by simpa using hl)
      simpa using this
    · have := @isList_prev_headD h n [] l (by simpa using hl)
      simpa using this
  · obtain ⟨l1, l2, rfl⟩ := List.append_of_mem hn
    refine ⟨l1.getLastD f, l2.headD f, isList_prev hl, ?_, isList_next hl, ?_⟩
    · have := @isList_next_getLastD h f l1 (n :: l2) hl
      simpa using this
    · have := @isList_prev_headD h f (l1 ++ [n]) l2 (by simpa using hl)
      simpa using this

theorem isList_empty {h : Heap} {f : Nat} {l : List Nat} (hl : IsList h f l) :
    list.empty h ⟨f⟩ = true ↔ l = [] := by
  unfold list.empty
  rw [isList_fake_next hl]
  have := hl.2
  cases l with
  | nil => simp
  | cons x xs =>
    simp at this ⊢
    intro e; exact this.1.1 e.symm

theorem isList_init (h : Heap) (f : Nat) : IsList (list.init_fake_for_empty h ⟨f⟩) f [] := by
  simp [IsList, Seg, list.init_fake_for_empty]

end intrusive

namespace signals

open intrusive

@[simp] theorem upd_apply {α : Type} (m : Nat → α) (a : Nat) (v : α) (x : Nat) :
    upd m a v x = if x = a then v else m x := rfl

@[simp] theorem fake_eq : m_connections.fake = 0 := rfl

@[simp] theorem end_eq : m_connections.end_ = 0 := rfl

end signals

namespace intrusive

theorem isList_congr {h h' : Heap} {f : Nat} {l : List Nat} (hl : IsList h f l)
    (he : ∀ y ∈ f :: l, h' y = h y) : IsList h' f l :=
  ⟨seg_congr hl.1 (fun u hu => by rw [he u hu])
    (fun v hv => by rw [he v (by simp at hv ⊢; tauto)]), hl.2⟩

theorem isList_push_back {h : Heap} {f c : Nat} {l : List Nat}
    (hl : IsList h f l) (hc : c ∉ f :: l) (hx : (h c).next = none) :
    ∃ h', list.push_back h ⟨f⟩ c = some h' ∧
      IsList h' f (l ++ [c]) ∧ ∀ y, y ∉ f :: (l ++ [c]) → h' y = h y := by
  have := @isList_insert h f c l [] (by simpa using hl) (by simpa using hc) hx
  simpa [list.push_back, list.end_] using this

theorem isList_push_front {h : Heap} {f c : Nat} {l : List Nat}
    (hl : IsList h f l) (hc : c ∉ f :: l) (hx : (h c).next = none) :
    ∃ h', list.push_front h ⟨f⟩ c = some h' ∧
      IsList h' f (c :: l) ∧ ∀ y, y ∉ f :: c :: l → h' y = h y := by
  have := @isList_insert h f c [] l (by simpa using hl) (by simpa using hc) hx
  simp only [list.push_front, list.begin, isList_fake_next hl]
  simpa using this

end intrusive

namespace signals

open intrusive

theorem rep_mem_ne_fake {s : State} {l : List Nat} (hr : Rep s l) {c : Nat} (hc : c ∈ s.objects) :
    c ≠ 0 := by
  rintro rfl; exact hr.fake_free hc

theorem rep_not_mem_ring {s : State} {l : List Nat} (hr : Rep s l) {c : Nat}
    (hc : c ∈ s.objects) (hs : s.m_signal c = none) : c ∉ (0 : Nat) :: l := by
  simp only [List.mem_cons, not_or]
  exact ⟨rep_mem_ne_fake hr hc, fun hm => (hr.linked c hm).1 hs⟩

theorem rep_free_not_mem_ring {s : State} {l : List Nat} (hr : Rep s l) {c : Nat}
    (hc : s.free c) : c ∉ (0 : Nat) :: l := by
  simp only [List.mem_cons, not_or]
  exact ⟨hc.2, fun hm => hc.1 (hr.sub c hm)⟩

/-- The connecting constructor on a well-formed state: the new connection is
appended to the list. -/
theorem ctor_spec {s : State} {l : List Nat} (hr : Rep s l) {c : Nat} (hc : s.free c) (g : Nat) :
    ∃ h', connection.ctor s c g = some { s with
        heap := h'
        m_callback := upd s.m_callback c (some g)
        m_signal := upd s.m_signal c (some this_signal)
        objects := c :: s.objects } ∧
      Rep { s with
        heap := h'
        m_callback := upd s.m_callback c (some g)
        m_signal := upd s.m_signal c (some this_signal)
        objects := c :: s.objects } (l ++ [c]) := by
  have hcr := rep_free_not_mem_ring hr hc
  have hl0 : IsList (fresh s.heap c) 0 l := by
    refine isList_congr hr.isList (fun y hy => ?_)
    have : y ≠ c := by rintro rfl; exact hcr hy
    simp [fresh, this]
  obtain ⟨h', e, hl', hfr⟩ := isList_push_back hl0 hcr (by simp)
  refine ⟨h', by simp [connection.ctor, m_connections, e], ?_⟩
  constructor
  · exact hl'
  · simp; exact ⟨fun e => hc.2 e.symm, hr.fake_free⟩
  · intro x hx; simp at hx ⊢; rcases hx with hx | rfl
    · exact Or.inr (hr.sub x hx)
    · exact Or.inl rfl
  · intro x hx hs
    simp at hx hs ⊢
    by_cases hxc : x = c
    · exact Or.inr hxc
    · simp [hxc] at hs hx; exact Or.inl (hr.attached x hx hs)
  · intro x hx
    simp at hx ⊢
    by_cases hxc : x = c
    · simp [hxc]
    · have hx' : x ∈ l := by tauto
      simpa [hxc] using hr.linked x hx'
  · intro x hx hs
    simp at hx hs ⊢
    by_cases hxc : x = c
    · simp [hxc] at hs
    · simp [hxc] at hs hx ⊢
      have hxr := rep_not_mem_ring hr hx hs
      have := hr.detached x hx hs
      rw [hfr x (by simp at hxr ⊢; tauto)]
      simpa [fresh, hxc] using this
  · intro t ht hs
    rcases hr.cursor t ht hs with h1 | ⟨x, hx, h1⟩
    · exact Or.inl h1
    · exact Or.inr ⟨x, by simp [hx], h1⟩

theorem disconnect_noop {s : State} {c : Nat} (hs : s.m_signal c = none) :
    connection.disconnect s c = some s := by
  simp [connection.disconnect, hs]

theorem mem_retarget {ts : List iteration_token} {a : Nat} {b : Option Nat} {t : iteration_token}
    (ht : t ∈ retarget ts a b) :
    ∃ t0 ∈ ts, t.m_signal = t0.m_signal ∧
      ((t0.iterator = some a ∧ t.iterator = b) ∨ (t0.iterator ≠ some a ∧ t.iterator = t0.iterator)) := by
  simp only [retarget, List.mem_map] at ht
  obtain ⟨t0, h0, rfl⟩ := ht
  refine ⟨t0, h0, ?_⟩
  by_cases h : t0.iterator = some a <;> simp [h]

theorem retarget_none_on {ts : List iteration_token} {a : Nat} {b : Option Nat}
    (h : ∀ t ∈ ts, t.iterator ≠ some a) : retarget ts a b = ts := by
  unfold retarget
  conv_rhs => rw [← List.map_id ts]
  apply List.map_congr_left
  intro t ht
  simp [h t ht]

/-- Disconnecting an attached connection of a well-formed state: every cursor on
it moves to its successor, the connection leaves the list and is cleared. -/
theorem disconnect_spec {s : State} {l1 l2 : List Nat} {c : Nat} (hr : Rep s (l1 ++ c :: l2)) :
    ∃ h', connection.disconnect s c = some { s with
        heap := h'
        tokens := retarget s.tokens c (some (l2.headD 0))
        m_signal := upd s.m_signal c none
        m_callback := upd s.m_callback c none } ∧
      Rep { s with
        heap := h'
        tokens := retarget s.tokens c (some (l2.headD 0))
        m_signal := upd s.m_signal c none
        m_callback := upd s.m_callback c none } (l1 ++ l2) ∧
      h' c = {} := by
  obtain ⟨h', e, hl', hc', hfr⟩ := isList_unlink hr.isList
  have hnd := hr.isList.2
  have hcl : c ∉ l1 ++ l2 := by
    simp [List.nodup_append] at hnd ⊢; tauto
  have hms : s.m_signal c ≠ none := (hr.linked c (by simp)).1
  obtain ⟨sg, hsg⟩ := Option.ne_none_iff_exists'.1 hms
  refine ⟨h', ?_, ?_, hc'⟩
  · have hn := isList_next hr.isList
    simp only [fake_eq] at hn e
    simp [connection.disconnect, hsg, e, hn, retarget]
  constructor
  · exact hl'
  · exact hr.fake_free
  · intro x hx; exact hr.sub x (by simp at hx ⊢; tauto)
  · intro x hx hs
    by_cases hxc : x = c
    · simp [hxc] at hs
    · simp [hxc] at hs
      have := hr.attached x hx hs
      simp at this ⊢; tauto
  · intro x hx
    have hxc : x ≠ c := by rintro rfl; exact hcl hx
    simpa [hxc] using hr.linked x (by simp at hx ⊢; tauto)
  · intro x hx hs
    by_cases hxc : x = c
    · simp [hxc, hc']
    · simp [hxc] at hs ⊢
      have hxr := rep_not_mem_ring hr hx hs
      rw [hfr x (by simpa using hxr)]
      exact hr.detached x hx hs
  · intro t ht hs
    obtain ⟨t0, h0, hm, hcase⟩ := mem_retarget ht
    rw [hm] at hs
    rcases hcase with ⟨_, h2⟩ | ⟨h1, h2⟩
    · rw [h2]
      rcases @headD_mem_or l2 0 with h3 | h3
      · left; rw [h3]; rfl
      · right; exact ⟨_, List.mem_append_right _ h3, rfl⟩
    · rw [h2]
      rcases hr.cursor t0 h0 hs with h3 | ⟨x, hx, h3⟩
      · exact Or.inl h3
      · right
        refine ⟨x, ?_, h3⟩
        have : x ≠ c := by rintro rfl; exact h1 h3
        simp at hx ⊢; tauto

theorem move_assign_eq {s : State} {d x : Nat} (hne : d ≠ x) :
    connection.move_assign s d x =
      (connection.disconnect s d).bind fun s1 => connection.replace (connection.take s1 d x) d x := by
  simp only [connection.move_assign, hne, ne_eq, not_false_eq_true, if_true]
  cases connection.disconnect s d <;> rfl

theorem move_construct_eq {s : State} {d x : Nat} (hne : x ≠ d) :
    connection.move_construct s d x =
      connection.replace (connection.take (connection.ctor_default s d) d x) d x := by
  unfold connection.move_construct connection.take connection.ctor_default
  congr 2
  · funext y; by_cases h1 : y = x <;> by_cases h2 : y = d <;> simp_all
  · funext y; by_cases h2 : y = d <;> simp_all

theorem ctor_default_spec {s : State} {l : List Nat} (hr : Rep s l) {c : Nat} (hc : s.free c) :
    Rep (connection.ctor_default s c) l := by
  have hcr := rep_free_not_mem_ring hr hc
  simp only [List.mem_cons, not_or] at hcr
  unfold connection.ctor_default
  constructor
  · refine isList_congr hr.isList (fun y hy => ?_)
    have : y ≠ c := by rintro rfl; simp at hy; tauto
    simp [fresh, this]
  · simp; exact ⟨fun e => hc.2 e.symm, hr.fake_free⟩
  · intro x hx; simp; exact Or.inr (hr.sub x hx)
  · intro x hx hs
    by_cases hxc : x = c
    · simp [hxc] at hs
    · simp [hxc] at hs hx; exact hr.attached x hx hs
  · intro x hx
    have hxc : x ≠ c := by rintro rfl; exact hcr.2 hx
    simpa [hxc] using hr.linked x hx
  · intro x hx hs
    by_cases hxc : x = c
    · simp [hxc, fresh]
    · simp [hxc] at hs hx ⊢
      simpa [fresh, hxc] using hr.detached x hx hs
  · exact hr.cursor

/-- The function `replace` when both connections hold a signal, `other` is in
the list and `self` is an unlinked node outside it: `self` takes the place of
`other`, the cursors on `other` move to `self`, `other` is cleared. -/
theorem replace_attached {s : State} {l1 l2 : List Nat} {d x : Nat}
    (hl : IsList s.heap 0 (l1 ++ x :: l2)) (hd : d ∉ (0 : Nat) :: (l1 ++ x :: l2))
    (hdn : (s.heap d).next = none) (hsd : s.m_signal d ≠ none) (hsx : s.m_signal x ≠ none) :
    ∃ h', connection.replace s d x = some { s with
        heap := h'
        tokens := retarget s.tokens x (some d)
        m_signal := upd s.m_signal x none
        m_callback := upd s.m_callback x none } ∧
      IsList h' 0 (l1 ++ d :: l2) ∧ h' x = {} ∧
      ∀ y, y ∉ (0 : Nat) :: (l1 ++ d :: x :: l2) → h' y = s.heap y := by
  obtain ⟨sd, hsd⟩ := Option.ne_none_iff_exists'.1 hsd
  obtain ⟨sx, hsx⟩ := Option.ne_none_iff_exists'.1 hsx
  obtain ⟨h1, e1, hl1, hf1⟩ := @isList_insert s.heap 0 d l1 (x :: l2) hl hd hdn
  have hl1' : IsList h1 0 ((l1 ++ [d]) ++ x :: l2) := by simpa using hl1
  obtain ⟨h2, e2, hl2, hx2, hf2⟩ := isList_unlink hl1'
  have hdx : d ≠ x := by rintro rfl; simp at hd
  have hT : ∀ t ∈ retarget s.tokens x (some d), t.iterator ≠ some x := by
    intro t ht
    obtain ⟨t0, _, _, hc⟩ := mem_retarget ht
    rcases hc with ⟨_, h2⟩ | ⟨h1, h2⟩
    · rw [h2]; simpa using hdx
    · rw [h2]; exact h1
  refine ⟨h2, ?_, by simpa using hl2, hx2, ?_⟩
  · simp only [List.headD_cons] at e1
    have := retarget_none_on (b := (h1 x).next) hT
    unfold retarget at this
    simp only [connection.replace, hsd, m_connections, e1, connection.disconnect, hsx, e2]
    simp only [retarget, this]
  · intro y hy
    rw [hf2 y (by simp at hy ⊢; tauto), hf1 y (by simp at hy ⊢; tauto)]

/-- A move from a connection that is not attached leaves a well-formed state
as it is. -/
theorem take_replace_unattached {s : State} {l : List Nat} (hr : Rep s l) {d x : Nat}
    (hd : d ∈ s.objects) (hsd : s.m_signal d = none) (hx : x ∈ s.objects)
    (hsx : s.m_signal x = none) :
    connection.replace (connection.take s d x) d x = some (connection.take s d x) ∧
      Rep (connection.take s d x) l ∧
      (connection.take s d x).m_signal = s.m_signal ∧
      (connection.take s d x).m_callback = s.m_callback := by
  have hcd := (hr.detached d hd hsd).2
  have hcx := (hr.detached x hx hsx).2
  have e1 : (connection.take s d x).m_signal = s.m_signal := by
    funext y; by_cases h : y = d <;> simp [connection.take, h, hsx, hsd]
  have e2 : (connection.take s d x).m_callback = s.m_callback := by
    funext y; by_cases h : y = d <;> by_cases h' : y = x <;> simp_all [connection.take]
  refine ⟨?_, ?_, e1, e2⟩
  · have h1 : (connection.take s d x).m_signal d = none := by rw [e1]; exact hsd
    have h2 : (connection.take s d x).m_signal x = none := by rw [e1]; exact hsx
    simp [connection.replace, h1, connection.disconnect, h2]
  · constructor
    · exact hr.isList
    · exact hr.fake_free
    · exact hr.sub
    · intro y hy; rw [e1]; exact hr.attached y hy
    · intro y hy; rw [e1, e2]; exact hr.linked y hy
    · intro y hy; rw [e1, e2]; exact hr.detached y hy
    · exact hr.cursor

/-- A move from an attached connection `x` into a live unattached connection
`d`: `d` takes the place of `x` in the list with the function and signal of `x`,
the cursors on `x` move to `d`, and `x` is cleared. -/
theorem take_replace_attached {s : State} {l1 l2 : List Nat} {d x : Nat}
    (hr : Rep s (l1 ++ x :: l2)) (hd : d ∈ s.objects) (hsd : s.m_signal d = none) :
    ∃ s', connection.replace (connection.take s d x) d x = some s' ∧
      Rep s' (l1 ++ d :: l2) ∧
      s'.tokens = retarget s.tokens x (some d) ∧
      s'.m_callback d = s.m_callback x ∧ s'.m_signal d = s.m_signal x ∧
      s'.m_signal x = none ∧ s'.m_callback x = none ∧ s'.heap x = {} ∧
      s'.objects = s.objects ∧ s'.log = s.log ∧ s'.alive = s.alive ∧
      ∀ y, y ≠ d → y ≠ x → s'.m_callback y = s.m_callback y ∧ s'.m_signal y = s.m_signal y := by
  have hdr := rep_not_mem_ring hr hd hsd
  have hxl := hr.linked x (by simp)
  have hdx : d ≠ x := by rintro rfl; simp at hdr
  have hnd := hr.isList.2
  have hxn : x ∉ l1 ∧ x ∉ l2 := by
    simp [List.nodup_append] at hnd; tauto
  obtain ⟨h', e, hl', hx', hfr⟩ := @replace_attached (connection.take s d x) l1 l2 d x hr.isList hdr
    (by simpa [connection.take] using congrArg node.next (hr.detached d hd hsd).1)
    (by simpa [connection.take] using hxl.1)
    (by simpa [connection.take, hdx.symm] using hxl.1)
  refine ⟨_, e, ?_, rfl, by simp [connection.take, hdx], by simp [connection.take, hdx],
    by simp, by simp, hx', rfl, rfl, rfl, ?_⟩
  · constructor
    · exact hl'
    · exact hr.fake_free
    · intro y hy
      simp at hy
      rcases hy with hy | rfl | hy
      · exact hr.sub y (by simp [hy])
      · exact hd
      · exact hr.sub y (by simp [hy])
    · intro y hy hs
      by_cases hyx : y = x
      · simp [hyx] at hs
      · by_cases hyd : y = d
        · simp [hyd]
        · simp [connection.take, hyx, hyd] at hs
          have := hr.attached y hy hs
          simp at this ⊢; tauto
    · intro y hy
      by_cases hyd : y = d
      · subst hyd
        simpa [connection.take, hdx] using hxl
      · have hyx : y ≠ x := by rintro rfl; simp at hy; tauto
        simpa [connection.take, hyx, hyd] using hr.linked y (by simp at hy ⊢; tauto)
    · intro y hy hs
      by_cases hyx : y = x
      · simp [hyx, hx']
      · by_cases hyd : y = d
        · subst hyd
          simp [connection.take, hdx] at hs
          exact absurd hs hxl.1
        · simp [connection.take, hyx, hyd] at hs ⊢
          have hyr := rep_not_mem_ring hr hy hs
          rw [hfr y (by simp at hyr ⊢; tauto)]
          exact hr.detached y hy hs
    · intro t ht hs
      obtain ⟨t0, h0, hm, hcase⟩ := mem_retarget ht
      rw [hm] at hs
      rcases hcase with ⟨_, h2⟩ | ⟨h1, h2⟩
      · right; exact ⟨d, by simp, h2⟩
      · rw [h2]
        rcases hr.cursor t0 h0 hs with h3 | ⟨y, hy, h3⟩
        · exact Or.inl h3
        · right
          refine ⟨y, ?_, h3⟩
          have : y ≠ x := by rintro rfl; exact h1 h3
          simp at hy ⊢; tauto
  · intro y hyd hyx
    simp [connection.take, hyd, hyx]

theorem unlink_noop {h : Heap} {c : Nat} (hc : (h c).next = none) : node.unlink h c = some h := by
  simp [node.unlink, hc]

theorem rep_erase {s : State} {l : List Nat} (hr : Rep s l) {c : Nat} (hc : c ∉ l) :
    Rep { s with objects := s.objects.erase c } l := by
  constructor
  · exact hr.isList
  · exact fun h => hr.fake_free (List.mem_of_mem_erase h)
  · intro y hy
    have : y ≠ c := by rintro rfl; exact hc hy
    exact (List.mem_erase_of_ne this).2 (hr.sub y hy)
  · intro y hy; exact hr.attached y (List.mem_of_mem_erase hy)
  · exact hr.linked
  · intro y hy; exact hr.detached y (List.mem_of_mem_erase hy)
  · exact hr.cursor

/-- Membership splits a list without repetition around the member. -/
theorem split_of_mem {l : List Nat} {c : Nat} (hc : c ∈ l) : ∃ l1 l2, l = l1 ++ c :: l2 :=
  List.append_of_mem hc

/-- The destructor of a connection keeps the state well-formed; the connection
is no longer in the list. -/
theorem dtor_spec {s : State} {l : List Nat} (hr : Rep s l) {c : Nat} (hc : c ∈ s.objects) :
    ∃ s', connection.dtor s c = some s' ∧ Rep s' (l.erase c) ∧ s'.alive = s.alive ∧
      s'.log = s.log := by
  by_cases hs : s.m_signal c = none
  · have hcl : c ∉ l := fun hm => (hr.linked c hm).1 hs
    have hh := (hr.detached c hc hs).1
    refine ⟨{ s with objects := s.objects.erase c }, ?_, ?_, rfl, rfl⟩
    · simp [connection.dtor, disconnect_noop hs, unlink_noop (congrArg node.next hh)]
    · rw [List.erase_of_not_mem hcl]; exact rep_erase hr hcl
  · obtain ⟨l1, l2, rfl⟩ := split_of_mem (hr.attached c hc hs)
    obtain ⟨h', e, hr', hc'⟩ := disconnect_spec hr
    have hnd := hr.isList.2
    have hcl : c ∉ l1 ∧ c ∉ l2 := by simp [List.nodup_append] at hnd; tauto
    have he : (l1 ++ c :: l2).erase c = l1 ++ l2 := by
      rw [List.erase_append_right _ hcl.1]; simp
    refine ⟨{ s with
        heap := h'
        tokens := retarget s.tokens c (some (l2.headD 0))
        m_signal := upd s.m_signal c none
        m_callback := upd s.m_callback c none
        objects := s.objects.erase c }, ?_, ?_, rfl, rfl⟩
    · simp only [connection.dtor, e]
      rw [unlink_noop (by simp [hc'])]
    · rw [he]
      exact rep_erase hr' (by simp; tauto)

theorem push_spec {s : State} {l : List Nat} (hr : Rep s l) : Rep (iteration_token.ctor s) l := by
  refine ⟨hr.isList, hr.fake_free, hr.sub, hr.attached, hr.linked, hr.detached, ?_⟩
  intro t ht hs
  simp only [iteration_token.ctor, List.mem_cons] at ht
  rcases ht with rfl | ht
  · simp only [list.begin]
    rw [isList_fake_next hr.isList]
    rcases @headD_mem_or l 0 with h | h
    · left; exact congrArg some h
    · right; exact ⟨_, h, rfl⟩
  · exact hr.cursor t ht hs

theorem pop_spec {s : State} {l : List Nat} (hr : Rep s l) : Rep (iteration_token.dtor s) l := by
  refine ⟨hr.isList, hr.fake_free, hr.sub, hr.attached, hr.linked, hr.detached, ?_⟩
  intro t ht hs
  exact hr.cursor t (List.mem_of_mem_tail ht) hs

/-- One dispatch step of the innermost pass of a well-formed state: the cursor
stood on a connection of the list, moves to its successor, and the function of
that connection is logged. -/
theorem advance_spec {s : State} {l : List Nat} (hr : Rep s l) {t : iteration_token}
    {ts : List iteration_token} (ht : s.tokens = t :: ts) (hp : signal.pending t = true) :
    ∃ l1 c l2 g, l = l1 ++ c :: l2 ∧ t.iterator = some c ∧ s.m_callback c = some g ∧
      signal.advance s = some ({ s with
        tokens := { t with iterator := some (l2.headD 0) } :: ts
        log := s.log ++ [(c, g)] }, g) ∧
      Rep { s with
        tokens := { t with iterator := some (l2.headD 0) } :: ts
        log := s.log ++ [(c, g)] } l := by
  simp only [signal.pending, Bool.and_eq_true, Option.isSome_iff_exists, bne_iff_ne, ne_eq,
    end_eq] at hp
  obtain ⟨⟨sg, hsg⟩, hne⟩ := hp
  have hcur := hr.cursor t (by simp [ht]) (by simp [hsg])
  rcases hcur with h0 | ⟨c, hc, hit⟩
  · exact absurd h0 hne
  · obtain ⟨l1, l2, rfl⟩ := split_of_mem hc
    obtain ⟨g, hg⟩ := Option.ne_none_iff_exists'.1 (hr.linked c hc).2
    have hn := isList_next hr.isList
    simp only [fake_eq] at hn
    refine ⟨l1, c, l2, g, rfl, hit, hg, by simp [signal.advance, ht, hit, hg, hn], ?_⟩
    refine ⟨hr.isList, hr.fake_free, hr.sub, hr.attached, hr.linked, hr.detached, ?_⟩
    intro t' ht' hs'
    simp only [List.mem_cons] at ht'
    rcases ht' with rfl | ht'
    · rcases @headD_mem_or l2 0 with h | h
      · left; exact congrArg some h
      · right; exact ⟨_, List.mem_append_right _ (List.mem_cons_of_mem _ h), rfl⟩
    · exact hr.cursor t' (by simp [ht, ht']) hs'

end signals

namespace signals

open intrusive

theorem rep_nil_unattached {s : State} (hr : Rep s []) {c : Nat} (hc : c ∈ s.objects) :
    s.m_signal c = none ∧ s.heap c = {} ∧ s.m_callback c = none := by
  have hs : s.m_signal c = none := by
    by_contra h
    exact absurd (hr.attached c hc h) (by simp)
  exact ⟨hs, hr.detached c hc hs⟩

/-- The loop of `~signal` on a well-formed state with list `l`: it needs more
than `l.length` units of fuel, and then empties the list. -/
theorem disconnect_all_spec (fuel : Nat) : ∀ (s : State) (l : List Nat), Rep s l →
    (fuel ≤ l.length → signal.disconnect_all fuel s = none) ∧
    (l.length < fuel → ∃ s', signal.disconnect_all fuel s = some s' ∧ Rep s' [] ∧
      s'.log = s.log ∧ s'.objects = s.objects ∧ s'.alive = s.alive ∧
      s'.tokens.length = s.tokens.length ∧
      ∀ t ∈ s'.tokens, ∃ t0 ∈ s.tokens, t.m_signal = t0.m_signal) := by
  induction fuel with
  | zero =>
    intro s l _
    exact ⟨fun _ => rfl, fun h => absurd h (Nat.not_lt_zero _)⟩
  | succ n ih =>
    intro s l hr
    have hemp := isList_empty hr.isList
    rcases List.eq_nil_or_concat l with rfl | ⟨l', c, rfl⟩
    · have he : m_connections.empty s.heap = true := hemp.2 rfl
      refine ⟨fun h => absurd h (by simp), fun _ => ⟨s, ?_, hr, rfl, rfl, rfl, rfl, ?_⟩⟩
      · simp [signal.disconnect_all, he]
      · intro t ht; exact ⟨t, ht, rfl⟩
    · simp only [List.concat_eq_append] at hr hemp ⊢
      have he : m_connections.empty s.heap = false := by
        cases h : m_connections.empty s.heap
        · rfl
        · exact absurd (hemp.1 h) (by simp)
      have hb : m_connections.back s.heap = some c := by
        have := isList_fake_prev hr.isList
        simpa [list.back, list.end_] using this
      obtain ⟨h', e, hr', _⟩ := disconnect_spec hr
      rw [List.append_nil] at hr'
      simp only [List.headD_nil] at e hr'
      obtain ⟨ih1, ih2⟩ := ih _ l' hr'
      constructor
      · intro hle
        simp only [List.length_append, List.length_singleton, Nat.add_le_add_iff_right] at hle
        simp [signal.disconnect_all, he, hb, e, ih1 hle]
      · intro hlt
        simp only [List.length_append, List.length_singleton, Nat.add_lt_add_iff_right] at hlt
        obtain ⟨s', e', hr'', h1, h2, h3, h4, h5⟩ := ih2 hlt
        refine ⟨s', ?_, hr'', h1, h2, h3, ?_, ?_⟩
        · simp [signal.disconnect_all, he, hb, e, e']
        · rw [h4]; simp [retarget]
        · intro t ht
          obtain ⟨t1, ht1, hm⟩ := h5 t ht
          obtain ⟨t0, ht0, hm0, _⟩ := mem_retarget ht1
          exact ⟨t0, ht0, hm.trans hm0⟩

theorem unlink_self {h : Heap} {f : Nat} (hn : (h f).next = some f) (hp : (h f).prev = some f) :
    ∃ h', node.unlink h f = some h' ∧ h' f = {} ∧ ∀ y, y ≠ f → h' y = h y := by
  refine ⟨_, by simp [node.unlink, hn, hp]; rfl, ?_, ?_⟩
  · apply node_ext <;> simp
  · intro y hy
    apply node_ext <;> simp [hy]

/-- The destructor of the signal on a well-formed state with list `l`: it needs
more than `l.length` units of fuel, and then leaves a dead state. -/
theorem signal_dtor_spec (fuel : Nat) (s : State) (l : List Nat) (hr : Rep s l) :
    (fuel ≤ l.length → signal.dtor fuel s = none) ∧
    (l.length < fuel → ∃ s', signal.dtor fuel s = some s' ∧ Dead s' ∧
      s'.log = s.log ∧ s'.objects = s.objects ∧ s'.tokens.length = s.tokens.length) := by
  have hr1 : Rep { s with tokens := s.tokens.map fun token => { token with m_signal := none } } l := by
    refine ⟨hr.isList, hr.fake_free, hr.sub, hr.attached, hr.linked, hr.detached, ?_⟩
    intro t ht hs
    simp only [List.mem_map] at ht
    obtain ⟨t0, _, rfl⟩ := ht
    simp at hs
  obtain ⟨h1, h2⟩ := disconnect_all_spec fuel _ l hr1
  constructor
  · intro hle
    simp [signal.dtor, h1 hle]
  · intro hlt
    obtain ⟨s2, e2, hr2, hlog, hobj, _, hlen, htok⟩ := h2 hlt
    obtain ⟨k, rfl⟩ : ∃ k, fuel = k + 1 := ⟨fuel - 1, by omega⟩
    have hemp : m_connections.empty s2.heap = true := (isList_empty hr2.isList).2 rfl
    have hclear : m_connections.clear (k + 1) s2.heap = some s2.heap := by
      simp [list.clear, hemp]
    have hn := isList_fake_next hr2.isList
    have hp := isList_fake_prev hr2.isList
    simp only [List.headD_nil, List.getLastD_nil, fake_eq] at hn hp
    obtain ⟨h4, e4, hf4, hfr4⟩ := unlink_self hn hp
    refine ⟨{ s2 with heap := h4, alive := false }, ?_, ?_, hlog, hobj, ?_⟩
    · simp [signal.dtor, e2, hclear, e4]
    · constructor
      · rfl
      · intro t ht
        obtain ⟨t0, ht0, hm⟩ := htok t ht
        simp only [List.mem_map] at ht0
        obtain ⟨t1, _, rfl⟩ := ht0
        simpa using hm
      · intro c hc
        have := rep_nil_unattached hr2 hc
        have hc0 : c ≠ 0 := rep_mem_ne_fake hr2 hc
        refine ⟨this.1, ?_, this.2.2⟩
        show h4 c = {}
        rw [hfr4 c hc0]; exact this.2.1
    · simpa using hlen

/-- The function `disconnect` on any live connection of a well-formed state. -/
theorem disconnect_total {s : State} {l : List Nat} (hr : Rep s l) {c : Nat}
    (hc : c ∈ s.objects) :
    ∃ s', connection.disconnect s c = some s' ∧ Rep s' (l.erase c) ∧ s'.m_signal c = none ∧
      s'.objects = s.objects ∧ s'.alive = s.alive ∧ s'.log = s.log ∧
      s'.tokens = (if s.m_signal c = none then s.tokens
        else retarget s.tokens c (s.heap c).next) ∧
      ∀ y, y ≠ c → s'.m_signal y = s.m_signal y ∧ s'.m_callback y = s.m_callback y := by
  by_cases hs : s.m_signal c = none
  · have hcl : c ∉ l := fun hm => (hr.linked c hm).1 hs
    refine ⟨s, disconnect_noop hs, ?_, hs, rfl, rfl, rfl, by simp [hs], fun y _ => ⟨rfl, rfl⟩⟩
    rw [List.erase_of_not_mem hcl]; exact hr
  · obtain ⟨l1, l2, rfl⟩ := split_of_mem (hr.attached c hc hs)
    obtain ⟨h', e, hr', _⟩ := disconnect_spec hr
    have hnd := hr.isList.2
    have hcl : c ∉ l1 ∧ c ∉ l2 := by simp [List.nodup_append] at hnd; tauto
    have he : (l1 ++ c :: l2).erase c = l1 ++ l2 := by
      rw [List.erase_append_right _ hcl.1]; simp
    have hn := isList_next hr.isList
    simp only [fake_eq] at hn
    refine ⟨_, e, by rw [he]; exact hr', by simp, rfl, rfl, rfl, by simp [hs, hn], ?_⟩
    intro y hy
    simp [hy]

theorem rep_run {s s' : State} {l : List Nat} (hr : Rep s l) (ha : s.alive = true)
    {fuel : Nat} {c : Cmd} (hrun : c.run fuel s = some s') :
    (s'.alive = true ∧ ∃ l', Rep s' l') ∨ Dead s' := by
  cases c with
  | emit => simp [Cmd.run] at hrun
  | connect c f =>
    simp only [Cmd.run] at hrun
    split at hrun
    · rename_i hc
      obtain ⟨h', e, hr'⟩ := ctor_spec hr hc.2 f
      rw [e] at hrun
      cases hrun
      exact Or.inl ⟨ha, _, hr'⟩
    · cases hrun
  | construct c =>
    simp only [Cmd.run] at hrun
    split at hrun
    · rename_i hc
      cases hrun
      exact Or.inl ⟨ha, _, ctor_default_spec hr hc⟩
    · cases hrun
  | disconnect c =>
    simp only [Cmd.run] at hrun
    split at hrun
    · rename_i hc
      obtain ⟨s1, e, hr', _, _, hal, _⟩ := disconnect_total hr hc
      rw [e] at hrun
      cases hrun
      exact Or.inl ⟨hal.trans ha, _, hr'⟩
    · cases hrun
  | move_construct d x =>
    simp only [Cmd.run] at hrun
    split at hrun
    · rename_i hc
      have hxd : x ≠ d := by rintro rfl; exact hc.1.1 hc.2
      rw [move_construct_eq hxd] at hrun
      have hr0 := ctor_default_spec hr hc.1
      have hd0 : d ∈ (connection.ctor_default s d).objects := by simp [connection.ctor_default]
      have hx0 : x ∈ (connection.ctor_default s d).objects := by
        simp [connection.ctor_default, hc.2]
      have hsd0 : (connection.ctor_default s d).m_signal d = none := by
        simp [connection.ctor_default]
      by_cases hsx : (connection.ctor_default s d).m_signal x = none
      · obtain ⟨e, hr', _⟩ := take_replace_unattached hr0 hd0 hsd0 hx0 hsx
        rw [e] at hrun
        cases hrun
        exact Or.inl ⟨ha, _, hr'⟩
      · obtain ⟨l1, l2, rfl⟩ := split_of_mem (hr0.attached x hx0 hsx)
        obtain ⟨s1, e, hr', _, _, _, _, _, _, _, _, hal, _⟩ := take_replace_attached hr0 hd0 hsd0
        rw [e] at hrun
        cases hrun
        exact Or.inl ⟨hal.trans ha, _, hr'⟩
    · cases hrun
  | move_assign d x =>
    simp only [Cmd.run] at hrun
    split at hrun
    · rename_i hc
      by_cases hdx : d = x
      · simp [connection.move_assign, hdx] at hrun
        cases hrun
        exact Or.inl ⟨ha, _, hr⟩
      · rw [move_assign_eq hdx] at hrun
        obtain ⟨s1, e, hr1, hsd1, hobj1, hal1, _, _, hoth⟩ := disconnect_total hr hc.1
        rw [e] at hrun
        simp only [Option.bind] at hrun
        have hd1 : d ∈ s1.objects := by rw [hobj1]; exact hc.1
        have hx1 : x ∈ s1.objects := by rw [hobj1]; exact hc.2
        by_cases hsx : s1.m_signal x = none
        · obtain ⟨e', hr', _⟩ := take_replace_unattached hr1 hd1 hsd1 hx1 hsx
          rw [e'] at hrun
          cases hrun
          exact Or.inl ⟨hal1.trans ha, _, hr'⟩
        · obtain ⟨l1, l2, hl⟩ := split_of_mem (hr1.attached x hx1 hsx)
          rw [hl] at hr1
          obtain ⟨s2, e', hr', _, _, _, _, _, _, _, _, hal, _⟩ := take_replace_attached hr1 hd1 hsd1
          rw [e'] at hrun
          cases hrun
          exact Or.inl ⟨hal.trans (hal1.trans ha), _, hr'⟩
    · cases hrun
  | destroy c =>
    simp only [Cmd.run] at hrun
    split at hrun
    · rename_i hc
      obtain ⟨s1, e, hr', hal, _⟩ := dtor_spec hr hc
      rw [e] at hrun
      cases hrun
      exact Or.inl ⟨hal.trans ha, _, hr'⟩
    · cases hrun
  | destroy_signal =>
    simp only [Cmd.run, ha, if_true] at hrun
    obtain ⟨h1, h2⟩ := signal_dtor_spec fuel s l hr
    by_cases hf : fuel ≤ l.length
    · rw [h1 hf] at hrun; cases hrun
    · obtain ⟨s1, e, hd, _⟩ := h2 (by omega)
      rw [e] at hrun
      cases hrun
      exact Or.inr hd

theorem dead_take_replace {s : State} (hd : Dead s) {d x : Nat} (hdo : d ∈ s.objects)
    (hxo : x ∈ s.objects) :
    connection.replace (connection.take s d x) d x = some (connection.take s d x) ∧
      Dead (connection.take s d x) := by
  have h1 := hd.objects d hdo
  have h2 := hd.objects x hxo
  have e1 : (connection.take s d x).m_signal = s.m_signal := by
    funext y; by_cases h : y = d <;> simp [connection.take, h, h1.1, h2.1]
  have e2 : (connection.take s d x).m_callback = s.m_callback := by
    funext y; by_cases h : y = d <;> by_cases h' : y = x <;> simp_all [connection.take]
  constructor
  · have h3 : (connection.take s d x).m_signal d = none := by rw [e1]; exact h1.1
    have h4 : (connection.take s d x).m_signal x = none := by rw [e1]; exact h2.1
    simp [connection.replace, h3, connection.disconnect, h4]
  · refine ⟨hd.not_alive, hd.tokens, ?_⟩
    intro c hc
    rw [e1, e2]
    exact hd.objects c hc

theorem dead_ctor_default {s : State} (hd : Dead s) (c : Nat) :
    Dead (connection.ctor_default s c) := by
  refine ⟨hd.not_alive, hd.tokens, ?_⟩
  intro y hy
  by_cases hyc : y = c
  · simp [connection.ctor_default, hyc, fresh]
  · simp [connection.ctor_default, hyc] at hy
    simpa [connection.ctor_default, hyc, fresh] using hd.objects y hy

theorem dead_run {s s' : State} (hd : Dead s) {fuel : Nat} {c : Cmd}
    (hrun : c.run fuel s = some s') : Dead s' := by
  have hna := hd.not_alive
  cases c with
  | emit => simp [Cmd.run] at hrun
  | connect c f => simp [Cmd.run, hna] at hrun
  | construct c =>
    simp only [Cmd.run] at hrun
    split at hrun
    · cases hrun; exact dead_ctor_default hd c
    · cases hrun
  | disconnect c =>
    simp only [Cmd.run] at hrun
    split at hrun
    · rename_i hc
      rw [disconnect_noop (hd.objects c hc).1] at hrun
      cases hrun; exact hd
    · cases hrun
  | move_construct d x =>
    simp only [Cmd.run] at hrun
    split at hrun
    · rename_i hc
      have hxd : x ≠ d := by rintro rfl; exact hc.1.1 hc.2
      rw [move_construct_eq hxd] at hrun
      have := dead_take_replace (dead_ctor_default hd d) (d := d) (x := x)
        (by simp [connection.ctor_default]) (by simp [connection.ctor_default, hc.2])
      rw [this.1] at hrun
      cases hrun; exact this.2
    · cases hrun
  | move_assign d x =>
    simp only [Cmd.run] at hrun
    split at hrun
    · rename_i hc
      by_cases hdx : d = x
      · simp [connection.move_assign, hdx] at hrun
        cases hrun; exact hd
      · rw [move_assign_eq hdx, disconnect_noop (hd.objects d hc.1).1] at hrun
        simp only [Option.bind] at hrun
        have := dead_take_replace hd hc.1 hc.2
        rw [this.1] at hrun
        cases hrun; exact this.2
    · cases hrun
  | destroy c =>
    simp only [Cmd.run] at hrun
    split at hrun
    · rename_i hc
      have h1 := hd.objects c hc
      simp only [connection.dtor, disconnect_noop h1.1,
        unlink_noop (congrArg node.next h1.2.1)] at hrun
      cases hrun
      refine ⟨hd.not_alive, hd.tokens, ?_⟩
      intro y hy
      exact hd.objects y (List.mem_of_mem_erase hy)
    · cases hrun
  | destroy_signal => simp [Cmd.run, hna] at hrun

theorem rep_init (h : Heap) : Rep (State.init h) [] := by
  refine ⟨isList_init h 0, by simp [State.init], by simp, by simp [State.init],
    by simp, by simp [State.init], by simp [State.init]⟩

/-- Every reachable state is well-formed around a living signal, or dead. -/
theorem reachable_inv {s : State} (hs : Reachable s) :
    (s.alive = true ∧ ∃ l, Rep s l) ∨ Dead s := by
  induction hs with
  | init h => exact Or.inl ⟨rfl, [], rep_init h⟩
  | run fuel c _ hrun ih =>
    rcases ih with ⟨ha, l, hr⟩ | hd
    · exact rep_run hr ha hrun
    · exact Or.inr (dead_run hd hrun)
  | push _ ha ih =>
    rcases ih with ⟨_, l, hr⟩ | hd
    · exact Or.inl ⟨ha, l, push_spec hr⟩
    · rw [hd.not_alive] at ha; cases ha
  | @step s s' t f _ hh hp hadv ih =>
    obtain ⟨ts, hts⟩ : ∃ ts, s.tokens = t :: ts := by
      cases h : s.tokens with
      | nil => simp [h] at hh
      | cons a b => simp [h] at hh; exact ⟨b, by rw [hh]⟩
    rcases ih with ⟨ha, l, hr⟩ | hd
    · obtain ⟨l1, c, l2, g, _, _, _, e, hr'⟩ := advance_spec hr hts hp
      rw [e] at hadv
      cases hadv
      exact Or.inl ⟨ha, l, hr'⟩
    · have := hd.tokens t (by simp [hts])
      simp [signal.pending, this] at hp
  | pop _ _ _ ih =>
    rcases ih with ⟨ha, l, hr⟩ | hd
    · exact Or.inl ⟨ha, l, pop_spec hr⟩
    · exact Or.inr ⟨hd.not_alive, fun t ht => hd.tokens t (List.mem_of_mem_tail ht), hd.objects⟩

end signals

namespace signals

open intrusive

/-- C3 (cursor invariant): in every reachable state, the cursor of every token
that still has its signal is the end sentinel of the connection list or a
connection that is a live object, attached, and currently linked in the ring of
that list; the ring is well-formed and its forward traversal is the list. -/
theorem cursor_invariant (s : State) (hs : Reachable s) (t : iteration_token)
    (ht : t ∈ s.tokens) (hlive : t.m_signal ≠ none) :
    ∃ l, IsList s.heap m_connections.fake l ∧
      m_connections.forward s.heap (l.length + 1) = some l ∧
      (t.iterator = some m_connections.end_ ∨
        ∃ c ∈ l, t.iterator = some c ∧ c ∈ s.objects ∧ s.m_signal c ≠ none ∧
          (s.heap c).next ≠ none) := by
  rcases reachable_inv hs with ⟨_, l, hr⟩ | hd
  · refine ⟨l, hr.isList, isList_forward hr.isList (le_refl _), ?_⟩
    rcases hr.cursor t ht hlive with h | ⟨c, hc, h⟩
    · exact Or.inl h
    · refine Or.inr ⟨c, hc, h, hr.sub c hc, (hr.linked c hc).1, ?_⟩
      obtain ⟨l1, l2, rfl⟩ := split_of_mem hc
      rw [isList_next hr.isList]
      simp
  · exact absurd (hd.tokens t ht) hlive

theorem cursor_invariant_witness :
    ∃ l, IsList cursor_demo.heap m_connections.fake l ∧
      m_connections.forward cursor_demo.heap (l.length + 1) = some l ∧
      ((⟨some 0, none, some 1⟩ : iteration_token).iterator = some m_connections.end_ ∨
        ∃ c ∈ l, (⟨some 0, none, some 1⟩ : iteration_token).iterator = some c ∧
          c ∈ cursor_demo.objects ∧ cursor_demo.m_signal c ≠ none ∧
          (cursor_demo.heap c).next ≠ none) :=
  cursor_invariant cursor_demo
    (Reachable.push (Reachable.run 0 (Cmd.connect 1 11) (Reachable.init _)
      (Option.some_get _).symm) (by decide))
    ⟨some 0, none, some 1⟩ (by decide) (by decide)

end signals

namespace signals

open intrusive

theorem exec_nil (prog : Program) (fuel : Nat) (s : State) :
    exec prog (fuel + 1) [] s = some s := by
  simp [exec]

theorem exec_emit (prog : Program) (fuel : Nat) (cs : List Cmd) (s : State) :
    exec prog (fuel + 1) (.emit :: cs) s = (call prog fuel s).bind (exec prog fuel cs) := by
  rw [exec]
  cases call prog fuel s <;> rfl

theorem exec_run (prog : Program) (fuel : Nat) (c : Cmd) (cs : List Cmd) (s : State)
    (hc : c ≠ .emit) :
    exec prog (fuel + 1) (c :: cs) s = (c.run fuel s).bind (exec prog fuel cs) := by
  cases c
  case emit => exact absurd rfl hc
  all_goals
    rw [exec]
    · cases Cmd.run fuel s _ <;> rfl
    · intro h; cases h

theorem call_eq (prog : Program) (fuel : Nat) (s : State) (ha : s.alive = true) :
    call prog (fuel + 1) s = (loop prog fuel (iteration_token.ctor s)).map iteration_token.dtor := by
  rw [call]
  simp only [ha, if_true]
  cases loop prog fuel (iteration_token.ctor s) <;> rfl

theorem loop_exit (prog : Program) (fuel : Nat) (s : State) {t : iteration_token}
    {ts : List iteration_token} (ht : s.tokens = t :: ts) (hp : signal.pending t = false) :
    loop prog (fuel + 1) s = some s := by
  rw [loop]
  simp [ht, hp]

theorem loop_step (prog : Program) (fuel : Nat) (s s1 : State) {t : iteration_token}
    {ts : List iteration_token} {f : Nat} (ht : s.tokens = t :: ts)
    (hp : signal.pending t = true) (ha : signal.advance s = some (s1, f)) :
    loop prog (fuel + 1) s = (exec prog fuel (prog f s.log) s1).bind (loop prog fuel) := by
  rw [loop]
  simp only [ht, hp, if_true, ha]
  cases exec prog fuel (prog f s.log) s1 <;> rfl

theorem rep_set_tokens {s : State} {l : List Nat} (hr : Rep s l) (toks : List iteration_token)
    (lg : List (Nat × Nat))
    (h : ∀ t ∈ toks, t.m_signal ≠ none → t.iterator = some m_connections.fake ∨
      ∃ c ∈ l, t.iterator = some c) :
    Rep { s with tokens := toks, log := lg } l :=
  ⟨hr.isList, hr.fake_free, hr.sub, hr.attached, hr.linked, hr.detached, h⟩

theorem headD_valid (l1 l2 : List Nat) :
    (some (l2.headD 0) : Option Nat) = some m_connections.fake ∨
      ∃ c ∈ l1 ++ l2, (some (l2.headD 0) : Option Nat) = some c := by
  rcases @headD_mem_or l2 0 with h | h
  · left; rw [h]; rfl
  · right; exact ⟨_, List.mem_append_right _ h, rfl⟩

/-- The innermost pass runs over a stretch `seg` of connections whose functions
do nothing: each is invoked once, in order, and the cursor ends behind the
stretch; the rest of the state is unchanged. -/
theorem loop_quiet (prog : Program) (seg : List (Nat × Nat)) :
    ∀ (s : State) (l1 l2 : List Nat) (t : iteration_token) (ts : List iteration_token)
      (fuel : Nat),
      Rep s (l1 ++ (seg.map Prod.fst ++ l2)) →
      s.tokens = t :: ts → t.m_signal ≠ none →
      t.iterator = some ((seg.map Prod.fst ++ l2).headD 0) →
      (∀ p ∈ seg, s.m_callback p.1 = some p.2) →
      (∀ p ∈ seg, ∀ extra, prog p.2 (s.log ++ extra) = []) →
      loop prog (fuel + 1 + seg.length) s =
          loop prog (fuel + 1) { s with
            tokens := { t with iterator := some (l2.headD 0) } :: ts
            log := s.log ++ seg } ∧
        Rep { s with
            tokens := { t with iterator := some (l2.headD 0) } :: ts
            log := s.log ++ seg } (l1 ++ (seg.map Prod.fst ++ l2)) := by
  induction seg with
  | nil =>
    intro s l1 l2 t ts fuel hr ht hm hit _ _
    simp only [List.map_nil, List.nil_append, List.length_nil, Nat.add_zero,
      List.append_nil] at hit hr ⊢
    have e : ({ s with tokens := { t with iterator := some (l2.headD 0) } :: ts, log := s.log }
        : State) = s := by
      cases s; cases t; simp_all
    rw [e]
    exact ⟨rfl, hr⟩
  | cons p rest ih =>
    intro s l1 l2 t ts fuel hr ht hm hit hcb hq
    obtain ⟨c, g⟩ := p
    simp only [List.map_cons, List.cons_append, List.headD_cons] at hit hr
    have hc0 : c ≠ 0 := by
      have := hr.isList.2
      simp [List.nodup_append] at this
      intro e; exact this.1.2.1 e.symm
    have hp : signal.pending t = true := by
      obtain ⟨sg, hsg⟩ := Option.ne_none_iff_exists'.1 hm
      simp [signal.pending, hsg, hit, hc0]
    have hg : s.m_callback c = some g := hcb (c, g) (by simp)
    have hn := isList_next hr.isList
    simp only [fake_eq] at hn
    have hadv : signal.advance s = some ({ s with
        tokens := { t with iterator := some ((rest.map Prod.fst ++ l2).headD 0) } :: ts
        log := s.log ++ [(c, g)] }, g) := by
      simp [signal.advance, ht, hit, hg, hn]
    have hr1 : Rep { s with
        tokens := { t with iterator := some ((rest.map Prod.fst ++ l2).headD 0) } :: ts
        log := s.log ++ [(c, g)] } ((l1 ++ [c]) ++ (rest.map Prod.fst ++ l2)) := by
      rw [List.append_assoc, List.singleton_append]
      refine rep_set_tokens hr _ _ ?_
      intro t' ht' hs'
      simp only [List.mem_cons] at ht'
      rcases ht' with rfl | ht'
      · have := headD_valid (l1 ++ [c]) (rest.map Prod.fst ++ l2)
        simpa using this
      · exact hr.cursor t' (by simp [ht, ht']) hs'
    have hq0 : prog g s.log = [] := by simpa using hq (c, g) (by simp) []
    have hfuel : fuel + 1 + (rest.length + 1) = (fuel + 1 + rest.length) + 1 := by omega
    have hfuel2 : fuel + 1 + rest.length = (fuel + rest.length) + 1 := by omega
    obtain ⟨e1, hr2⟩ := ih _ (l1 ++ [c]) l2 _ ts fuel hr1 rfl hm rfl
      (fun p hp => hcb p (by simp [hp]))
      (fun p hp extra => by
        have := hq p (by simp [hp]) ((c, g) :: extra)
        simpa using this)
    constructor
    · simp only [List.length_cons]
      rw [hfuel, loop_step prog _ s _ ht hp hadv, hq0]
      conv_lhs => rw [hfuel2, exec_nil, ← hfuel2]
      simp only [Option.bind]
      rw [e1]
      simp
    · simpa using hr2

theorem connect_each_spec (cs : List (Nat × Nat)) : ∀ (s : State) (l : List Nat),
    Rep s l → s.alive = true → (cs.map Prod.fst).Nodup → (∀ p ∈ cs, s.free p.1) →
    ∃ s', signal.connect_each s cs = some s' ∧ Rep s' (l ++ cs.map Prod.fst) ∧
      s'.alive = true ∧ s'.tokens = s.tokens ∧ s'.log = s.log ∧
      (∀ p ∈ cs, s'.m_callback p.1 = some p.2) ∧
      (∀ y, y ∉ cs.map Prod.fst → s'.m_callback y = s.m_callback y) ∧
      (∀ y, y ∈ s'.objects ↔ y ∈ s.objects ∨ y ∈ cs.map Prod.fst) := by
  induction cs with
  | nil =>
    intro s l hr ha _ _
    exact ⟨s, rfl, by simpa using hr, ha, rfl, rfl, by simp, by simp, by simp⟩
  | cons p rest ih =>
    intro s l hr ha hnd hfree
    obtain ⟨c, g⟩ := p
    simp only [List.map_cons, List.nodup_cons] at hnd
    have hc : s.free c := hfree (c, g) (by simp)
    obtain ⟨h', e, hr'⟩ := ctor_spec hr hc g
    obtain ⟨s', e', hr'', ha', ht', hl', hcb, hoth, hobj⟩ := ih _ (l ++ [c]) hr' ha hnd.2
      (fun p hp => by
        have := hfree p (by simp [hp])
        refine ⟨?_, this.2⟩
        simp only [List.mem_cons, not_or]
        refine ⟨?_, this.1⟩
        rintro rfl
        exact hnd.1 (List.mem_map_of_mem _ hp))
    refine ⟨s', ?_, by simpa using hr'', ha', ht', hl', ?_, ?_, ?_⟩
    · have hrun : (Cmd.connect c g).run 0 s = connection.ctor s c g := by
        simp only [Cmd.run]; rw [if_pos ⟨ha, hc⟩]
      simp only [signal.connect_each, hrun, e]
      exact e'
    · intro p hp
      simp only [List.mem_cons] at hp
      rcases hp with rfl | hp
      · rw [hoth c hnd.1]; simp
      · exact hcb p hp
    · intro y hy
      simp only [List.map_cons, List.mem_cons, not_or] at hy
      rw [hoth y hy.2]; simp [hy.1]
    · intro y
      rw [hobj y]
      simp only [List.mem_cons, List.map_cons]
      tauto

/-- A call of the signal in a well-formed state all of whose connections hold
functions that do nothing: every connection is invoked once, in list order, and
nothing else changes. -/
theorem call_quiet (prog : Program) (cs : List (Nat × Nat)) (s : State)
    (hr : Rep s (cs.map Prod.fst)) (ha : s.alive = true)
    (hcb : ∀ p ∈ cs, s.m_callback p.1 = some p.2)
    (hq : ∀ p ∈ cs, ∀ extra, prog p.2 (s.log ++ extra) = [])
    (fuel : Nat) (hfuel : cs.length + 2 ≤ fuel) :
    call prog fuel s = some { s with log := s.log ++ cs } := by
  obtain ⟨k, rfl⟩ : ∃ k, fuel = (k + 1 + cs.length) + 1 := ⟨fuel - cs.length - 2, by omega⟩
  rw [call_eq prog _ s ha]
  have hr0 : Rep (iteration_token.ctor s) ([] ++ (cs.map Prod.fst ++ [])) := by
    simpa using push_spec hr
  have hb : m_connections.begin s.heap = some ((cs.map Prod.fst ++ []).headD 0) := by
    have := isList_fake_next hr.isList
    simpa [list.begin] using this
  obtain ⟨e, _⟩ := loop_quiet prog cs (iteration_token.ctor s) [] []
    ⟨some this_signal, s.last_token, m_connections.begin s.heap⟩ s.tokens k hr0 rfl (by simp) hb hcb hq
  rw [e, loop_exit prog k _ rfl (by simp [signal.pending])]
  simp [iteration_token.dtor, iteration_token.ctor]

end signals

namespace signals

open intrusive

/-- C1: for connections `cs` created by `connect` in this order on a new signal,
with functions that do nothing to the signal, the connection list is `cs` in
this order, and one call of the signal returns (with `cs.length + 2` units of
fuel or more), invokes exactly the functions of `cs`, each once and in this
order, and changes nothing else in the state, the connection list included.  For
`cs = []` nothing is invoked. -/
theorem dispatch_in_order (h : Heap) (cs : List (Nat × Nat)) (prog : Program)
    (hnd : (cs.map Prod.fst).Nodup) (h0 : ∀ p ∈ cs, p.1 ≠ 0)
    (hq : ∀ p ∈ cs, ∀ hist, prog p.2 hist = []) :
    ∃ s, signal.connect_each (State.init h) cs = some s ∧ s.log = [] ∧
      m_connections.forward s.heap (cs.length + 1) = some (cs.map Prod.fst) ∧
      ∀ fuel, cs.length + 2 ≤ fuel → call prog fuel s = some { s with log := cs } := by
  obtain ⟨s, e, hr, ha, _, hl, hcb, _, _⟩ := connect_each_spec cs (State.init h) [] (rep_init h) rfl
    hnd (fun p hp => ⟨by simp [State.init], h0 p hp⟩)
  simp only [List.nil_append] at hr
  refine ⟨s, e, hl, ?_, ?_⟩
  · have := @isList_forward _ _ _ hr.isList (cs.length + 1) (by simp)
    exact this
  · intro fuel hfuel
    have := call_quiet prog cs s hr ha hcb (fun p hp extra => hq p hp _) fuel hfuel
    rw [this, hl]
    rfl

theorem dispatch_in_order_witness :
    ∃ s, signal.connect_each (State.init fun _ => {}) [(1, 11), (2, 12), (3, 13)] = some s ∧
      s.log = [] ∧
      m_connections.forward s.heap 4 = some [1, 2, 3] ∧
      ∀ fuel, 5 ≤ fuel →
        call (fun _ _ => []) fuel s = some { s with log := [(1, 11), (2, 12), (3, 13)] } :=
  dispatch_in_order (fun _ => {}) [(1, 11), (2, 12), (3, 13)] (fun _ _ => [])
    (by decide) (by decide) (fun _ _ _ => rfl)

end signals

namespace signals

open intrusive

/-- One iteration of the innermost pass whose cursor stands on connection `c`
of a well-formed state: the cursor moves to the successor of `c`, the invocation
is logged, the body of the function runs, and the loop goes on. -/
theorem loop_one (prog : Program) (s : State) (l1 l2 : List Nat) (c g : Nat)
    (t : iteration_token) (ts : List iteration_token) (fuel : Nat)
    (hr : Rep s (l1 ++ c :: l2)) (ht : s.tokens = t :: ts) (hm : t.m_signal ≠ none)
    (hit : t.iterator = some c) (hg : s.m_callback c = some g) :
    loop prog (fuel + 1) s =
        (exec prog fuel (prog g s.log) { s with
          tokens := { t with iterator := some (l2.headD 0) } :: ts
          log := s.log ++ [(c, g)] }).bind (loop prog fuel) ∧
      Rep { s with
          tokens := { t with iterator := some (l2.headD 0) } :: ts
          log := s.log ++ [(c, g)] } (l1 ++ c :: l2) := by
  have hc0 : c ≠ 0 := by
    have := hr.isList.2
    simp [List.nodup_append] at this
    intro e; exact this.1.2.1 e.symm
  have hp : signal.pending t = true := by
    obtain ⟨sg, hsg⟩ := Option.ne_none_iff_exists'.1 hm
    simp [signal.pending, hsg, hit, hc0]
  have hn := isList_next hr.isList
  simp only [fake_eq] at hn
  have hadv : signal.advance s = some ({ s with
      tokens := { t with iterator := some (l2.headD 0) } :: ts
      log := s.log ++ [(c, g)] }, g) := by
    simp [signal.advance, ht, hit, hg, hn]
  refine ⟨loop_step prog fuel s _ ht hp hadv, rep_set_tokens hr _ _ ?_⟩
  intro t' ht' hs'
  simp only [List.mem_cons] at ht'
  rcases ht' with rfl | ht'
  · have := headD_valid (l1 ++ [c]) l2
    simpa using this
  · exact hr.cursor t' (by simp [ht, ht']) hs'

theorem loop_quiet_of_eq (prog : Program) (seg : List (Nat × Nat)) (s : State)
    (l l1 l2 : List Nat) (t : iteration_token) (ts : List iteration_token) (fuel : Nat)
    (hr : Rep s l) (hl : l = l1 ++ (seg.map Prod.fst ++ l2))
    (ht : s.tokens = t :: ts) (hm : t.m_signal ≠ none)
    (hit : t.iterator = some ((seg.map Prod.fst ++ l2).headD 0))
    (hcb : ∀ p ∈ seg, s.m_callback p.1 = some p.2)
    (hq : ∀ p ∈ seg, ∀ extra, prog p.2 (s.log ++ extra) = []) :
    loop prog (fuel + 1 + seg.length) s =
        loop prog (fuel + 1) { s with
          tokens := { t with iterator := some (l2.headD 0) } :: ts
          log := s.log ++ seg } ∧
      Rep { s with
          tokens := { t with iterator := some (l2.headD 0) } :: ts
          log := s.log ++ seg } l := by
  subst hl
  exact loop_quiet prog seg s l1 l2 t ts fuel hr ht hm hit hcb hq

theorem nodup_mid {l1 l2 : List Nat} {c f : Nat} (hnd : (f :: (l1 ++ c :: l2)).Nodup) :
    c ∉ l1 ∧ c ∉ l2 ∧ c ≠ f ∧ l2.headD f ≠ c := by
  simp [List.nodup_append] at hnd
  refine ⟨by tauto, by tauto, fun e => hnd.1.2.1 e.symm, ?_⟩
  intro e
  rcases @headD_mem_or l2 f with h1 | h1 <;> rw [e] at h1
  · exact hnd.1.2.1 h1.symm
  · exact hnd.2.2.1.1 h1

/-- A call of the signal in which exactly the function of `ck` disconnects
`ck` and all other functions do nothing: all connections are invoked once in
order, `ck` included, and `ck` has left the list afterwards. -/
theorem call_self_disconnect (prog : Program) (cs1 cs2 : List (Nat × Nat)) (ck fk : Nat)
    (s : State) (hr : Rep s (cs1.map Prod.fst ++ ck :: cs2.map Prod.fst))
    (ha : s.alive = true)
    (hcb : ∀ p ∈ cs1 ++ (ck, fk) :: cs2, s.m_callback p.1 = some p.2)
    (hq : ∀ p ∈ cs1 ++ cs2, ∀ extra, prog p.2 (s.log ++ extra) = [])
    (hk : prog fk (s.log ++ cs1) = [Cmd.disconnect ck])
    (fuel : Nat) (hfuel : (cs1 ++ (ck, fk) :: cs2).length + 3 ≤ fuel) :
    ∃ s1, call prog fuel s = some s1 ∧ Rep s1 (cs1.map Prod.fst ++ cs2.map Prod.fst) ∧
      s1.log = s.log ++ (cs1 ++ (ck, fk) :: cs2) ∧ s1.alive = true ∧
      s1.tokens = retarget s.tokens ck (some ((cs2.map Prod.fst).headD 0)) ∧
      ∀ y, y ≠ ck → s1.m_callback y = s.m_callback y := by
  simp only [List.length_append, List.length_cons] at hfuel
  obtain ⟨b, rfl⟩ : ∃ b, fuel = (((b + 1 + cs2.length) + 1) + 1 + cs1.length) + 1 :=
    ⟨fuel - cs1.length - cs2.length - 4, by omega⟩
  rw [call_eq prog _ s ha]
  -- the stretch before `ck`
  have hr0 : Rep (iteration_token.ctor s)
      ([] ++ (cs1.map Prod.fst ++ (ck :: cs2.map Prod.fst))) := by
    simpa using push_spec hr
  have hb : m_connections.begin s.heap
      = some ((cs1.map Prod.fst ++ (ck :: cs2.map Prod.fst)).headD 0) := by
    have := isList_fake_next hr.isList
    simpa [list.begin] using this
  obtain ⟨e1, hr1⟩ := loop_quiet prog cs1 (iteration_token.ctor s) [] (ck :: cs2.map Prod.fst)
    ⟨some this_signal, s.last_token, m_connections.begin s.heap⟩ s.tokens ((b + 1 + cs2.length) + 1) hr0 rfl
    (by simp) hb (fun p hp => hcb p (by simp [hp])) (fun p hp => hq p (by simp [hp]))
  dsimp only [iteration_token.ctor, List.nil_append, List.headD_cons] at e1 hr1 ⊢
  rw [e1]
  -- the invocation of `ck`
  obtain ⟨e2, hr2⟩ := loop_one prog _ (cs1.map Prod.fst) (cs2.map Prod.fst) ck fk _ s.tokens
    ((b + 1 + cs2.length) + 1) hr1 rfl (by simp) rfl (hcb (ck, fk) (by simp))
  dsimp only at e2 hr2
  rw [e2, hk, exec_run _ _ _ _ _ (by simp)]
  obtain ⟨h', e3, hr3, _⟩ := disconnect_spec hr2
  have hko : ck ∈ s.objects := hr.sub ck (by simp)
  simp only [Cmd.run, hko, if_true, e3, Option.some_bind]
  rw [show b + 1 + cs2.length = (b + cs2.length) + 1 by omega, exec_nil, Option.some_bind,
    show b + cs2.length + 1 + 1 = (b + 1) + 1 + cs2.length by omega]
  -- the stretch behind `ck`
  have hnd := hr.isList.2
  have hmid := nodup_mid hnd
  have hne : (some ((cs2.map Prod.fst).headD 0) : Option Nat) ≠ some ck := by
    intro e
    simp only [Option.some.injEq] at e
    exact hmid.2.2.2 e
  have hret : retarget ((⟨some this_signal, s.last_token, some ((cs2.map Prod.fst).headD 0)⟩ : iteration_token)
      :: s.tokens) ck (some ((cs2.map Prod.fst).headD 0))
      = (⟨some this_signal, s.last_token, some ((cs2.map Prod.fst).headD 0)⟩ : iteration_token)
        :: retarget s.tokens ck (some ((cs2.map Prod.fst).headD 0)) := by
    simp [retarget, hne]
  rw [hret] at hr3 ⊢
  obtain ⟨e4, _⟩ := loop_quiet_of_eq prog cs2 _ _ (cs1.map Prod.fst) [] _ _ (b + 1) hr3
    (by simp) rfl (by simp) (by simp)
    (fun p hp => by
      have hpk : p.1 ≠ ck := by
        intro e
        exact hmid.2.1 (e ▸ List.mem_map_of_mem Prod.fst hp)
      simpa [hpk] using hcb p (by simp [hp]))
    (fun p hp extra => by
      have := hq p (by simp [hp]) (cs1 ++ (ck, fk) :: extra)
      simpa using this)
  dsimp only [List.headD_nil] at e4
  rw [e4, loop_exit prog (b + 1) _ rfl (by simp [signal.pending])]
  refine ⟨_, rfl, ?_, ?_, ha, ?_, ?_⟩
  · refine ⟨hr3.isList, hr3.fake_free, hr3.sub, hr3.attached, hr3.linked, hr3.detached, ?_⟩
    intro t ht hs
    exact hr3.cursor t (by simp only [List.mem_cons]; exact Or.inr ht) hs
  · simp [iteration_token.dtor]
  · simp [iteration_token.dtor]
  · intro y hy
    simp [iteration_token.dtor, hy]

end signals

namespace signals

open intrusive

/-- C2 (self-disconnect during dispatch): connections are created in the order
`cs1`, `(ck, fk)`, `cs2` on a new signal; the function `fk` disconnects `ck`
when invoked and the other functions do nothing to the signal.  Then the first
call invokes all of them once, in order, `ck` included; afterwards the list is
`cs1`, `cs2`; and a second call invokes exactly `cs1`, `cs2`, in order. -/
theorem self_disconnect (h : Heap) (cs1 cs2 : List (Nat × Nat)) (ck fk : Nat) (prog : Program)
    (hnd : ((cs1 ++ (ck, fk) :: cs2).map Prod.fst).Nodup)
    (h0 : ∀ p ∈ cs1 ++ (ck, fk) :: cs2, p.1 ≠ 0)
    (hq : ∀ p ∈ cs1 ++ cs2, ∀ hist, prog p.2 hist = [])
    (hk : ∀ hist, prog fk hist = [Cmd.disconnect ck]) :
    ∃ s, signal.connect_each (State.init h) (cs1 ++ (ck, fk) :: cs2) = some s ∧ s.log = [] ∧
      ∀ fuel, (cs1 ++ (ck, fk) :: cs2).length + 3 ≤ fuel →
        ∃ s1, call prog fuel s = some s1 ∧ s1.log = cs1 ++ (ck, fk) :: cs2 ∧
          m_connections.forward s1.heap ((cs1 ++ cs2).length + 1)
            = some ((cs1 ++ cs2).map Prod.fst) ∧
          ∃ s2, call prog fuel s1 = some s2 ∧ s2.log = s1.log ++ (cs1 ++ cs2) := by
  obtain ⟨s, e, hr, ha, _, hl, hcb, _, _⟩ := connect_each_spec (cs1 ++ (ck, fk) :: cs2)
    (State.init h) [] (rep_init h) rfl hnd (fun p hp => ⟨by simp [State.init], h0 p hp⟩)
  simp only [List.nil_append, List.map_append, List.map_cons] at hr
  refine ⟨s, e, hl, ?_⟩
  intro fuel hfuel
  obtain ⟨s1, e1, hr1, hl1, ha1, _, hcb1⟩ := call_self_disconnect prog cs1 cs2 ck fk s hr ha hcb
    (fun p hp extra => hq p hp _) (hk _) fuel hfuel
  have hr1' : Rep s1 ((cs1 ++ cs2).map Prod.fst) := by simpa using hr1
  have hmid := nodup_mid hr.isList.2
  have hcb' : ∀ p ∈ cs1 ++ cs2, s1.m_callback p.1 = some p.2 := by
    intro p hp
    have hpk : p.1 ≠ ck := by
      intro e
      simp only [List.mem_append] at hp
      rcases hp with hp | hp
      · exact hmid.1 (e ▸ List.mem_map_of_mem Prod.fst hp)
      · exact hmid.2.1 (e ▸ List.mem_map_of_mem Prod.fst hp)
    rw [hcb1 _ hpk]
    exact hcb p (by simp only [List.mem_append, List.mem_cons] at hp ⊢; tauto)
  refine ⟨s1, e1, by rw [hl1, hl]; rfl, ?_, ?_⟩
  · have := @isList_forward _ _ _ hr1'.isList ((cs1 ++ cs2).length + 1) (by simp)
    exact this
  · refine ⟨_, call_quiet prog (cs1 ++ cs2) s1 hr1' ha1 hcb' (fun p hp extra => hq p hp _) fuel
      (by simp only [List.length_append, List.length_cons] at hfuel ⊢; omega), rfl⟩

theorem self_disconnect_witness :
    ∃ s, signal.connect_each (State.init fun _ => {}) ([(1, 11)] ++ (2, 12) :: [(3, 13)]) = some s ∧
      s.log = [] ∧
      ∀ fuel, ([(1, 11)] ++ (2, 12) :: [(3, 13)]).length + 3 ≤ fuel →
        ∃ s1, call (fun f _ => if f = 12 then [Cmd.disconnect 2] else []) fuel s = some s1 ∧
          s1.log = [(1, 11)] ++ (2, 12) :: [(3, 13)] ∧
          m_connections.forward s1.heap (([(1, 11)] ++ [(3, 13)]).length + 1)
            = some (([(1, 11)] ++ [(3, 13)]).map Prod.fst) ∧
          ∃ s2, call (fun f _ => if f = 12 then [Cmd.disconnect 2] else []) fuel s1 = some s2 ∧
            s2.log = s1.log ++ ([(1, 11)] ++ [(3, 13)]) :=
  self_disconnect (fun _ => {}) [(1, 11)] [(3, 13)] 2 12
    (fun f _ => if f = 12 then [Cmd.disconnect 2] else [])
    (by decide) (by decide)
    (by intro p hp hist; simp at hp; rcases hp with rfl | rfl <;> rfl)
    (fun _ => rfl)

end signals

namespace intrusive

/-- The function `list::erase` at an element of a well-formed list: the element
leaves the list and is unlinked, and the returned iterator is on the element
that followed it, or on the sentinel. -/
theorem isList_erase {h : Heap} {f c : Nat} {l1 l2 : List Nat}
    (hl : IsList h f (l1 ++ c :: l2)) :
    ∃ h', list.erase h ⟨f⟩ c = some (h', some (l2.headD f)) ∧ IsList h' f (l1 ++ l2) ∧
      h' c = {} ∧ ∀ y, y ∉ f :: (l1 ++ c :: l2) → h' y = h y := by
  obtain ⟨h', e, hl', hc, hfr⟩ := isList_unlink hl
  refine ⟨h', ?_, hl', hc, hfr⟩
  simp only [list.erase, e, isList_prev hl, isList_next_getLastD hl']

theorem refines_step {h : Heap} {f : Nat} {xs ys : List Nat} (hr : Refines h f xs)
    (op : ListOp) (hm : op.model f xs = some ys) :
    ∃ h', op.run h ⟨f⟩ = some h' ∧ Refines h' f ys := by
  obtain ⟨hl, hout⟩ := hr
  cases op with
  | push_back x =>
    simp only [ListOp.model] at hm
    split at hm
    · rename_i hx
      cases hm
      have hx' : x ∉ f :: xs := by simp; tauto
      obtain ⟨h', e, hl', hfr⟩ := isList_push_back hl hx' (hout x hx')
      refine ⟨h', e, hl', fun y hy => ?_⟩
      rw [hfr y hy]
      exact hout y (by simp at hy ⊢; tauto)
    · cases hm
  | push_front x =>
    simp only [ListOp.model] at hm
    split at hm
    · rename_i hx
      cases hm
      have hx' : x ∉ f :: xs := by simp; tauto
      obtain ⟨h', e, hl', hfr⟩ := isList_push_front hl hx' (hout x hx')
      refine ⟨h', e, hl', fun y hy => ?_⟩
      rw [hfr y hy]
      exact hout y (by simp at hy ⊢; tauto)
    · cases hm
  | pop_back =>
    simp only [ListOp.model] at hm
    split at hm
    · rename_i hx
      cases hm
      rcases List.eq_nil_or_concat xs with rfl | ⟨l', c, rfl⟩
      · exact absurd rfl hx
      · simp only [List.concat_eq_append] at hl hout ⊢
        obtain ⟨h', e, hl', hc, hfr⟩ := isList_erase hl
        have hb := isList_fake_prev hl
        simp only [List.getLastD_concat] at hb
        refine ⟨h', by simp [ListOp.run, list.pop_back, list.end_, hb, e], by simpa using hl', ?_⟩
        intro y hy
        by_cases hyc : y = c
        · simp [hyc, hc]
        · rw [hfr y (by simp at hy ⊢; tauto)]
          exact hout y (by simp at hy ⊢; tauto)
    · cases hm
  | pop_front =>
    simp only [ListOp.model] at hm
    split at hm
    · rename_i hx
      cases hm
      cases xs with
      | nil => exact absurd rfl hx
      | cons c l' =>
        obtain ⟨h', e, hl', hc, hfr⟩ := @isList_erase h f c [] l' hl
        have hb := isList_fake_next hl
        simp only [List.headD_cons] at hb
        refine ⟨h', by simp [ListOp.run, list.pop_front, list.begin, hb, e], by simpa using hl', ?_⟩
        intro y hy
        by_cases hyc : y = c
        · simp [hyc, hc]
        · rw [hfr y (by simp at hy ⊢; tauto)]
          exact hout y (by simp at hy ⊢; tauto)
    · cases hm
  | erase x =>
    simp only [ListOp.model] at hm
    split at hm
    · rename_i hx
      cases hm
      obtain ⟨l1, l2, rfl⟩ := List.append_of_mem hx
      obtain ⟨h', e, hl', hc, hfr⟩ := isList_erase hl
      have hnd := hl.2
      have hxl : x ∉ l1 := by simp [List.nodup_append] at hnd; tauto
      have he : (l1 ++ x :: l2).erase x = l1 ++ l2 := by
        rw [List.erase_append_right _ hxl]; simp
      refine ⟨h', by simp [ListOp.run, e], by rw [he]; exact hl', ?_⟩
      intro y hy
      rw [he] at hy
      by_cases hyc : y = x
      · simp [hyc, hc]
      · rw [hfr y (by simp at hy ⊢; tauto)]
        exact hout y (by simp at hy ⊢; tauto)
    · cases hm

theorem refines_ops {f : Nat} (ops : List ListOp) : ∀ {h : Heap} {xs ys : List Nat},
    Refines h f xs → ListOp.model_ops f xs ops = some ys →
    ∃ h', list.run_ops ⟨f⟩ h ops = some h' ∧ Refines h' f ys := by
  induction ops with
  | nil =>
    intro h xs ys hr hm
    simp only [ListOp.model_ops, Option.some.injEq] at hm
    subst hm
    exact ⟨h, rfl, hr⟩
  | cons op ops ih =>
    intro h xs ys hr hm
    simp only [ListOp.model_ops] at hm
    cases hop : op.model f xs with
    | none => simp [hop] at hm
    | some zs =>
      simp only [hop] at hm
      obtain ⟨h1, e1, hr1⟩ := refines_step hr op hop
      obtain ⟨h2, e2, hr2⟩ := ih hr1 hm
      exact ⟨h2, by simp [list.run_ops, e1, e2], hr2⟩

end intrusive

namespace intrusive

/-- C9 (the list refines an abstract sequence): on a list that starts empty,
among nodes that start unlinked, every sequence of `push_back`, `push_front` (of
elements not linked), `pop_back`, `pop_front` (on a non-empty list) and `erase`
(of a contained element) runs without fault; afterwards the forward traversal
from `begin()` to `end()` is the expected sequence `xs`, the backward traversal
is its reverse, and every linked node `n` has `n.prev.next == n` and
`n.next.prev == n`. -/
theorem list_refines_sequence (h0 : Heap) (l : list) (ops : List ListOp) (xs : List Nat)
    (hfresh : ∀ x, x ≠ l.fake → (h0 x).next = none)
    (hm : ListOp.model_ops l.fake [] ops = some xs) :
    ∃ h, l.run_ops (l.init_fake_for_empty h0) ops = some h ∧
      l.forward h (xs.length + 1) = some xs ∧
      l.backward h (xs.length + 1) = some xs.reverse ∧
      ∀ n, (h n).next ≠ none →
        ∃ p q, (h n).prev = some p ∧ (h p).next = some n ∧
          (h n).next = some q ∧ (h q).prev = some n := by
  obtain ⟨f⟩ := l
  have hr0 : Refines (list.init_fake_for_empty h0 ⟨f⟩) f [] := by
    refine ⟨isList_init h0 f, fun y hy => ?_⟩
    have hyf : y ≠ f := by simpa using hy
    simpa [list.init_fake_for_empty, hyf] using hfresh y hyf
  obtain ⟨h, e, hl, hout⟩ := refines_ops ops hr0 hm
  refine ⟨h, e, isList_forward hl (le_refl _), isList_backward hl (le_refl _), ?_⟩
  intro n hn
  have hmem : n ∈ f :: xs := by
    by_contra hc
    exact hn (hout n hc)
  exact isList_neighbours hl hmem

theorem list_refines_sequence_witness :
    ∃ h, list.run_ops ⟨0⟩ (list.init_fake_for_empty (fun _ => {}) ⟨0⟩)
        [.push_back 1, .push_back 2, .push_front 3, .erase 1, .pop_back, .push_back 4,
          .pop_front, .push_front 1] = some h ∧
      list.forward h ⟨0⟩ ([1, 4].length + 1) = some [1, 4] ∧
      list.backward h ⟨0⟩ ([1, 4].length + 1) = some [1, 4].reverse ∧
      ∀ n, (h n).next ≠ none →
        ∃ p q, (h n).prev = some p ∧ (h p).next = some n ∧
          (h n).next = some q ∧ (h q).prev = some n :=
  list_refines_sequence (fun _ => {}) ⟨0⟩
    [.push_back 1, .push_back 2, .push_front 3, .erase 1, .pop_back, .push_back 4,
      .pop_front, .push_front 1] [1, 4] (fun _ _ => rfl) (by decide)

end intrusive

namespace intrusive

/-- C10 (moving a node next to its source): in the well-formed list `[1, 2]`,
`node 1 = std::move(node 2)` leaves the sentinel pointing forward to node 2,
which is unlinked, and node 1 pointing to itself in both directions; in the
well-formed list `[2, 1]` the same assignment leaves the sentinel pointing back
to node 2 and node 1 pointing to itself.  In neither case does node 1 take the
place of node 2, and the ring is broken. -/
theorem node_move_assign_adjacent :
    ((two_nodes 1 2).bind fun h => list.forward h ⟨0⟩ 3) = some [1, 2] ∧
    (((two_nodes 1 2).bind fun h => node.move_assign h 1 2).map fun h => (h 0, h 1, h 2))
      = some (⟨some 2, some 1⟩, ⟨some 1, some 1⟩, ⟨none, none⟩) ∧
    (((two_nodes 1 2).bind fun h => node.move_assign h 1 2).bind fun h => list.forward h ⟨0⟩ 3)
      = none ∧
    ((two_nodes 2 1).bind fun h => list.forward h ⟨0⟩ 3) = some [2, 1] ∧
    (((two_nodes 2 1).bind fun h => node.move_assign h 1 2).map fun h => (h 0, h 1, h 2))
      = some (⟨some 1, some 2⟩, ⟨some 1, some 1⟩, ⟨none, none⟩) := by
  decide

end intrusive

namespace signals

open intrusive

theorem reachable_run_cmds (fuel : Nat) (cs : List Cmd) : ∀ {s : State}, Reachable s →
    Reachable (run_cmds fuel s cs) := by
  induction cs with
  | nil => intro s hs; exact hs
  | cons c cs ih =>
    intro s hs
    simp only [run_cmds]
    cases h : c.run fuel s with
    | none => exact ih hs
    | some s1 => exact ih (Reachable.run fuel c hs h)

theorem map_replace {l1 l2 : List Nat} {X Y : Nat} (h1 : X ∉ l1) (h2 : X ∉ l2) :
    (l1 ++ X :: l2).map (fun c => if c = X then Y else c) = l1 ++ Y :: l2 := by
  have hid : ∀ l : List Nat, X ∉ l → l.map (fun c => if c = X then Y else c) = l := by
    intro l hl
    conv_rhs => rw [← List.map_id l]
    apply List.map_congr_left
    intro c hc
    have : c ≠ X := by rintro rfl; exact hl hc
    simp [this]
  simp [hid l1 h1, hid l2 h2]

theorem retarget_eq_map (ts : List iteration_token) (a : Nat) (b : Option Nat) :
    retarget ts a b = ts.map fun t => if t.iterator = some a then { t with iterator := b } else t :=
  rfl

theorem retarget_twice_spec (X Y : Nat) (n : Option Nat) (hne : Y ≠ X) (t : iteration_token) :
    ((fun t : iteration_token => if t.iterator = some X then { t with iterator := some Y } else t)
      ((fun t : iteration_token => if t.iterator = some Y then { t with iterator := n } else t)
        t)).m_signal = t.m_signal ∧
    (t.iterator = some X →
      ((fun t : iteration_token => if t.iterator = some X then { t with iterator := some Y } else t)
        ((fun t : iteration_token => if t.iterator = some Y then { t with iterator := n } else t)
          t)).iterator = some Y) := by
  obtain ⟨ms, pv, it⟩ := t
  dsimp only
  constructor
  · split_ifs <;> rfl
  · intro h
    have h' : ¬ it = some Y := by rw [h]; simpa using hne.symm
    rw [if_neg h', if_pos h]

/-- C7 (relocation keeps the subscription and its position): in a reachable
state let `X` be an attached connection and `Y` another connection, either new
storage (move construction) or a live connection, attached or not (move
assignment).  The move returns; with `l` the connection list before, the list
afterwards is `l` without the former occurrence of `Y` and with `Y` in the place
of `X` (ring well-formed, forward traversal in this order); `Y` holds the
function and signal `X` had; `X` is unattached, unlinked and without function;
and every token whose cursor was on `X` has its cursor on `Y`. -/
theorem move_keeps_position (s : State) (hs : Reachable s) (X Y : Nat)
    (hX : X ∈ s.objects) (hXa : s.m_signal X ≠ none) (hne : Y ≠ X) (cmd : Cmd)
    (hcmd : (cmd = .move_construct Y X ∧ s.free Y) ∨ (cmd = .move_assign Y X ∧ Y ∈ s.objects))
    (fuel : Nat) :
    ∃ l s', IsList s.heap m_connections.fake l ∧ X ∈ l ∧
      cmd.run fuel s = some s' ∧
      IsList s'.heap m_connections.fake ((l.erase Y).map fun c => if c = X then Y else c) ∧
      m_connections.forward s'.heap (l.length + 1)
        = some ((l.erase Y).map fun c => if c = X then Y else c) ∧
      s'.m_callback Y = s.m_callback X ∧ s'.m_signal Y = s.m_signal X ∧
      s'.m_signal X = none ∧ s'.m_callback X = none ∧ s'.heap X = {} ∧
      ∃ F : iteration_token → iteration_token, s'.tokens = s.tokens.map F ∧
        ∀ t, (F t).m_signal = t.m_signal ∧ (t.iterator = some X → (F t).iterator = some Y) := by
  rcases reachable_inv hs with ⟨_, l, hr⟩ | hd
  swap
  · exact absurd (hd.objects X hX).1 hXa
  have hXl : X ∈ l := hr.attached X hX hXa
  refine ⟨l, ?_⟩
  -- both moves are: make `Y` an unattached live object, then take and replace
  have key : ∀ (s1 : State), Rep s1 (l.erase Y) → Y ∈ s1.objects → s1.m_signal Y = none →
      s1.m_callback X = s.m_callback X → s1.m_signal X = s.m_signal X →
      ∃ s', connection.replace (connection.take s1 Y X) Y X = some s' ∧
        IsList s'.heap m_connections.fake ((l.erase Y).map fun c => if c = X then Y else c) ∧
        m_connections.forward s'.heap (l.length + 1)
          = some ((l.erase Y).map fun c => if c = X then Y else c) ∧
        s'.m_callback Y = s.m_callback X ∧ s'.m_signal Y = s.m_signal X ∧
        s'.m_signal X = none ∧ s'.m_callback X = none ∧ s'.heap X = {} ∧
        s'.tokens = retarget s1.tokens X (some Y) := by
    intro s1 hr1 hY1 hsY1 hcb1 hsg1
    have hXe : X ∈ l.erase Y := (List.mem_erase_of_ne hne.symm).2 hXl
    obtain ⟨m1, m2, hm⟩ := split_of_mem hXe
    rw [hm] at hr1 ⊢
    obtain ⟨s', e, hr', htok, h1, h2, h3, h4, h5, _⟩ := take_replace_attached hr1 hY1 hsY1
    have hmid := nodup_mid hr1.isList.2
    have hlen : (m1 ++ Y :: m2).length + 1 ≤ l.length + 1 := by
      have h1 : (l.erase Y).length ≤ l.length := List.length_erase_le Y l
      rw [hm] at h1
      simpa using h1
    rw [map_replace hmid.1 hmid.2.1]
    exact ⟨s', e, hr'.isList, isList_forward hr'.isList hlen, h1.trans hcb1, h2.trans hsg1,
      h3, h4, h5, htok⟩
  rcases hcmd with ⟨rfl, hfree⟩ | ⟨rfl, hY⟩
  · -- move construction
    have hYl : Y ∉ l := fun h => hfree.1 (hr.sub Y h)
    have hr0 := ctor_default_spec hr hfree
    rw [← List.erase_of_not_mem hYl] at hr0
    obtain ⟨s', e, h1, h2, h3, h4, h5, h6, h7, h8⟩ := key (connection.ctor_default s Y) hr0
      (by simp [connection.ctor_default]) (by simp [connection.ctor_default])
      (by simp [connection.ctor_default, hne.symm]) (by simp [connection.ctor_default, hne.symm])
    refine ⟨s', hr.isList, hXl, ?_, h1, h2, h3, h4, h5, h6, h7, ?_⟩
    · simp only [Cmd.run]
      rw [if_pos ⟨hfree, hX⟩, move_construct_eq hne.symm]
      exact e
    · refine ⟨_, h8.trans (retarget_eq_map _ _ _), fun t => ?_⟩
      by_cases ht : t.iterator = some X <;> simp [ht]
  · -- move assignment
    obtain ⟨s1, e1, hr1, hsY1, hobj1, _, _, htok1, hoth⟩ := disconnect_total hr hY
    obtain ⟨s', e, h1, h2, h3, h4, h5, h6, h7, h8⟩ := key s1 hr1 (by rw [hobj1]; exact hY) hsY1
      (hoth X hne.symm).2 (hoth X hne.symm).1
    refine ⟨s', hr.isList, hXl, ?_, h1, h2, h3, h4, h5, h6, h7, ?_⟩
    · simp only [Cmd.run]
      rw [if_pos ⟨hY, hX⟩, move_assign_eq hne, e1]
      exact e
    · rw [h8, htok1]
      by_cases hsY : s.m_signal Y = none
      · simp only [hsY, if_true]
        refine ⟨_, retarget_eq_map _ _ _, fun t => ?_⟩
        by_cases ht : t.iterator = some X <;> simp [ht]
      · simp only [hsY, if_false, retarget_eq_map, List.map_map]
        exact ⟨_, rfl, fun t => retarget_twice_spec X Y _ hne t⟩

theorem move_keeps_position_witness :
    ∃ l s', IsList move_demo.heap m_connections.fake l ∧ 1 ∈ l ∧
      (Cmd.move_assign 3 1).run 0 move_demo = some s' ∧
      IsList s'.heap m_connections.fake ((l.erase 3).map fun c => if c = 1 then 3 else c) ∧
      m_connections.forward s'.heap (l.length + 1)
        = some ((l.erase 3).map fun c => if c = 1 then 3 else c) ∧
      s'.m_callback 3 = move_demo.m_callback 1 ∧ s'.m_signal 3 = move_demo.m_signal 1 ∧
      s'.m_signal 1 = none ∧ s'.m_callback 1 = none ∧ s'.heap 1 = {} ∧
      ∃ F : iteration_token → iteration_token, s'.tokens = move_demo.tokens.map F ∧
        ∀ t, (F t).m_signal = t.m_signal ∧ (t.iterator = some 1 → (F t).iterator = some 3) :=
  move_keeps_position move_demo
    (Reachable.push (reachable_run_cmds 0 _ (Reachable.init _)) (by decide))
    1 3 (by decide) (by decide) (by decide) (.move_assign 3 1)
    (Or.inr ⟨rfl, by decide⟩) 0

end signals

namespace signals

open intrusive

theorem finish_cons (prog : Program) (fuel : Nat) (s : State) {t : iteration_token}
    {ts : List iteration_token} (hts : s.tokens = t :: ts) :
    finish prog (fuel + 1) s =
      (loop prog fuel s).bind fun s1 => finish prog fuel (iteration_token.dtor s1) := by
  rw [finish]
  simp only [hts]
  cases loop prog fuel s <;> rfl

theorem finish_nil (prog : Program) (fuel : Nat) (s : State) (hts : s.tokens = []) :
    finish prog (fuel + 1) s = some s := by
  rw [finish]
  simp only [hts]

theorem finish_dead (prog : Program) : ∀ (ts : List iteration_token) (s : State) (fuel : Nat),
    s.tokens = ts → (∀ t ∈ ts, t.m_signal = none) → ts.length < fuel →
    finish prog fuel s = some { s with tokens := [] } := by
  intro ts
  induction ts with
  | nil =>
    intro s fuel hts _ hf
    obtain ⟨k, rfl⟩ : ∃ k, fuel = k + 1 := ⟨fuel - 1, by omega⟩
    rw [finish_nil prog k s hts]
    congr 1
    cases s
    simp_all
  | cons t ts ih =>
    intro s fuel hts hn hf
    simp only [List.length_cons] at hf
    obtain ⟨k, rfl⟩ : ∃ k, fuel = (k + 1) + 1 := ⟨fuel - 2, by omega⟩
    have hp : signal.pending t = false := by
      simp [signal.pending, hn t (by simp)]
    rw [finish_cons prog (k + 1) s hts, loop_exit prog k s hts hp, Option.some_bind]
    have := ih (iteration_token.dtor s) (k + 1) (by simp [iteration_token.dtor, hts])
      (fun t' ht' => hn t' (by simp [ht'])) (by omega)
    rw [this]
    simp [iteration_token.dtor, hts, hn t (by simp)]

/-- C6 (the signal is destroyed inside a callback): in a reachable state with a
living signal and any number of passes in progress, the destructor returns (with
more fuel than the list has connections); afterwards every token has a null
signal, so the loop condition of every pass is false whatever the memory holds;
every live connection is unattached, unlinked and without function; the log is
unchanged; and when the passes in progress then run to their end, innermost
first, nothing more is invoked. -/
theorem destroy_in_callback (s : State) (hs : Reachable s) (ha : s.alive = true) :
    ∃ l, m_connections.forward s.heap (l.length + 1) = some l ∧
      ∀ fuel, l.length < fuel →
        ∃ s', Cmd.destroy_signal.run fuel s = some s' ∧ s'.alive = false ∧
          s'.log = s.log ∧ s'.objects = s.objects ∧ s'.tokens.length = s.tokens.length ∧
          (∀ t ∈ s'.tokens, t.m_signal = none ∧ signal.pending t = false) ∧
          (∀ c ∈ s'.objects,
            s'.m_signal c = none ∧ s'.heap c = {} ∧ s'.m_callback c = none) ∧
          ∀ (prog : Program) (fuel' : Nat), s'.tokens.length < fuel' →
            finish prog fuel' s' = some { s' with tokens := [] } := by
  rcases reachable_inv hs with ⟨_, l, hr⟩ | hd
  swap
  · rw [hd.not_alive] at ha; cases ha
  refine ⟨l, isList_forward hr.isList (le_refl _), fun fuel hf => ?_⟩
  obtain ⟨s', e, hd, hlog, hobj, hlen⟩ := (signal_dtor_spec fuel s l hr).2 hf
  refine ⟨s', by simp [Cmd.run, ha, e], hd.not_alive, hlog, hobj, hlen, ?_, hd.objects, ?_⟩
  · intro t ht
    have := hd.tokens t ht
    exact ⟨this, by simp [signal.pending, this]⟩
  · intro prog fuel' hf'
    exact finish_dead prog s'.tokens s' fuel' rfl hd.tokens hf'

theorem destroy_in_callback_witness :
    ∃ l, m_connections.forward nested_demo.heap (l.length + 1) = some l ∧
      ∀ fuel, l.length < fuel →
        ∃ s', Cmd.destroy_signal.run fuel nested_demo = some s' ∧ s'.alive = false ∧
          s'.log = nested_demo.log ∧ s'.objects = nested_demo.objects ∧
          s'.tokens.length = nested_demo.tokens.length ∧
          (∀ t ∈ s'.tokens, t.m_signal = none ∧ signal.pending t = false) ∧
          (∀ c ∈ s'.objects,
            s'.m_signal c = none ∧ s'.heap c = {} ∧ s'.m_callback c = none) ∧
          ∀ (prog : Program) (fuel' : Nat), s'.tokens.length < fuel' →
            finish prog fuel' s' = some { s' with tokens := [] } :=
  destroy_in_callback nested_demo
    (Reachable.push (Reachable.push (reachable_run_cmds 0 _ (Reachable.init _)) (by decide))
      (by decide))
    (by decide)

end signals

namespace signals

open intrusive

/-- C5 (reentrant emission): connections are created in the order `cs1`,
`(ck, fk)`, `cs2` on a new signal; the function `fk` calls the signal once, on
its first invocation, and no function changes the connection list.  Then one
call returns and the invocations are: `cs1`, then `ck`, then by the nested pass
all of `cs1`, `ck`, `cs2` in order, then by the resumed outer pass `cs2` in
order; the state is otherwise unchanged. -/
theorem reentrant_emission (h : Heap) (cs1 cs2 : List (Nat × Nat)) (ck fk : Nat) (prog : Program)
    (hnd : ((cs1 ++ (ck, fk) :: cs2).map Prod.fst).Nodup)
    (h0 : ∀ p ∈ cs1 ++ (ck, fk) :: cs2, p.1 ≠ 0)
    (hq : ∀ p ∈ cs1 ++ cs2, ∀ hist, prog p.2 hist = [])
    (hk : ∀ hist, prog fk hist = if fk ∈ hist.map Prod.snd then [] else [Cmd.emit]) :
    ∃ s, signal.connect_each (State.init h) (cs1 ++ (ck, fk) :: cs2) = some s ∧ s.log = [] ∧
      ∀ fuel, 2 * (cs1 ++ (ck, fk) :: cs2).length + 5 ≤ fuel →
        call prog fuel s = some { s with
          log := cs1 ++ [(ck, fk)] ++ (cs1 ++ (ck, fk) :: cs2) ++ cs2 } := by
  obtain ⟨s, e, hr, ha, htok, hl, hcb, _, _⟩ := connect_each_spec (cs1 ++ (ck, fk) :: cs2)
    (State.init h) [] (rep_init h) rfl hnd (fun p hp => ⟨by simp [State.init], h0 p hp⟩)
  simp only [List.nil_append, List.map_append, List.map_cons] at hr
  replace hl : s.log = [] := hl
  refine ⟨s, e, hl, ?_⟩
  intro fuel hfuel
  have hfk : ∀ p ∈ cs1 ++ cs2, p.2 ≠ fk := by
    intro p hp e
    have h1 := hq p hp []
    rw [e, hk] at h1
    simp at h1
  simp only [List.length_append, List.length_cons] at hfuel
  obtain ⟨b, rfl⟩ : ∃ b, fuel = ((b + 1 + cs2.length) + 1 + cs1.length) + 1 :=
    ⟨fuel - cs1.length - cs2.length - 3, by omega⟩
  rw [call_eq prog _ s ha]
  -- the outer pass up to `ck`
  obtain ⟨e1, hr1⟩ := loop_quiet_of_eq prog cs1 (iteration_token.ctor s) _ []
    (ck :: cs2.map Prod.fst) ⟨some this_signal, s.last_token, m_connections.begin s.heap⟩ s.tokens
    (b + 1 + cs2.length) (push_spec hr) (by simp) rfl (by simp)
    (by
      have := isList_fake_next hr.isList
      simpa [list.begin] using this)
    (fun p hp => hcb p (by simp [hp])) (fun p hp extra => hq p (by simp [hp]) _)
  dsimp only [iteration_token.ctor, List.headD_cons] at e1 hr1 ⊢
  rw [e1]
  obtain ⟨e2, hr2⟩ := loop_one prog _ (cs1.map Prod.fst) (cs2.map Prod.fst) ck fk _ s.tokens
    (b + 1 + cs2.length) hr1 rfl (by simp) rfl (hcb (ck, fk) (by simp))
  dsimp only at e2 hr2
  rw [e2, hk]
  have hnot : fk ∉ (s.log ++ cs1).map Prod.snd := by
    rw [hl]
    intro hmem
    simp only [List.nil_append, List.mem_map] at hmem
    obtain ⟨p, hp, hp2⟩ := hmem
    exact hfk p (List.mem_append_left _ hp) hp2
  rw [if_neg hnot]
  -- the nested pass
  rw [show b + 1 + cs2.length = (b + cs2.length) + 1 by omega, exec_emit]
  have hr2' := hr2
  rw [show cs1.map Prod.fst ++ ck :: cs2.map Prod.fst = (cs1 ++ (ck, fk) :: cs2).map Prod.fst by simp] at hr2'
  have hnested := call_quiet prog (cs1 ++ (ck, fk) :: cs2) _ hr2' ha hcb
    (fun p hp extra => by
      simp only [List.mem_append, List.mem_cons] at hp
      rcases hp with hp | rfl | hp
      · exact hq p (by simp [hp]) _
      · dsimp only
        rw [hk, if_pos (by simp)]
      · exact hq p (by simp [hp]) _)
    (b + cs2.length) (by simp only [List.length_append, List.length_cons]; omega)
  rw [hnested, Option.some_bind]
  -- the outer pass resumes
  obtain ⟨k, hk'⟩ : ∃ k, b + cs2.length = k + 1 := ⟨b + cs2.length - 1, by omega⟩
  rw [hk', exec_nil, Option.some_bind, ← hk',
    show b + cs2.length + 1 = b + 1 + cs2.length by omega]
  obtain ⟨e3, _⟩ := loop_quiet_of_eq prog cs2 _ _ (cs1.map Prod.fst ++ [ck]) [] _ _ b
    (rep_set_tokens hr2 _ (s.log ++ cs1 ++ [(ck, fk)] ++ (cs1 ++ (ck, fk) :: cs2)) hr2.cursor)
    (by simp) rfl (by simp) (by simp)
    (fun p hp => hcb p (by simp [hp])) (fun p hp extra => hq p (by simp [hp]) _)
  dsimp only [List.headD_nil] at e3
  rw [e3, loop_exit prog b _ rfl (by simp [signal.pending])]
  simp only [Option.map_some', iteration_token.dtor, List.tail_cons, hl, List.nil_append,
    Option.some.injEq, List.head?_cons, Option.isSome_some, if_true]

theorem reentrant_emission_witness :
    ∃ s, signal.connect_each (State.init fun _ => {}) ([] ++ (1, 11) :: [(2, 12), (3, 13)])
        = some s ∧ s.log = [] ∧
      ∀ fuel, 2 * ([] ++ (1, 11) :: [(2, 12), (3, 13)]).length + 5 ≤ fuel →
        call (fun f hist => if f = 11 then
              (if 11 ∈ hist.map Prod.snd then [] else [Cmd.emit]) else []) fuel s
          = some { s with
            log := [] ++ [(1, 11)] ++ ([] ++ (1, 11) :: [(2, 12), (3, 13)])
              ++ [(2, 12), (3, 13)] } :=
  reentrant_emission (fun _ => {}) [] [(2, 12), (3, 13)] 1 11
    (fun f hist => if f = 11 then (if 11 ∈ hist.map Prod.snd then [] else [Cmd.emit]) else [])
    (by decide) (by decide)
    (by intro p hp hist; simp at hp; rcases hp with rfl | rfl <;> rfl)
    (fun _ => rfl)

end signals

namespace signals

open intrusive

/-- C8, as stated, fails when the connecting callback belongs to the last
connection of the list: with connections 1 and 2, where the function of 2
connects a new connection 3, one call invokes 1 and 2 only, although 3 is in the
list when the call returns. -/
theorem connect_in_last_callback_not_invoked :
    (((signal.connect_each (State.init fun _ => {}) [(1, 11), (2, 12)]).bind fun s =>
        call connecting_prog 6 s).map fun s1 => s1.log) = some [(1, 11), (2, 12)] ∧
    (((signal.connect_each (State.init fun _ => {}) [(1, 11), (2, 12)]).bind fun s =>
        call connecting_prog 6 s).bind fun s1 => m_connections.forward s1.heap 4)
      = some [1, 2, 3] := by
  decide

theorem run_connect (fuel : Nat) {s : State} {c : Nat} (f : Nat) (hfree : s.free c)
    (ha : s.alive = true) : (Cmd.connect c f).run fuel s = connection.ctor s c f := by
  simp only [Cmd.run]
  rw [if_pos ⟨ha, hfree⟩]

/-- A whole call in which one callback connects: connections are created in the
order `cs1`, `(ck, fk)`, `cs2` on a new signal, `ck` is not the last one (`cs2`
is not empty), the function `fk` connects a new connection `c` with function
`f`, and the other functions, `f` included, do nothing to the signal.  Then one
call invokes `cs1`, `ck`, `cs2` in order and after them, in the same pass, the
new connection `c`; the list is then `cs1`, `ck`, `cs2`, `c`. -/
theorem connect_during_dispatch (h : Heap) (cs1 cs2 : List (Nat × Nat)) (ck fk c f : Nat)
    (prog : Program)
    (hnd : ((cs1 ++ (ck, fk) :: cs2 ++ [(c, f)]).map Prod.fst).Nodup)
    (h0 : ∀ p ∈ cs1 ++ (ck, fk) :: cs2 ++ [(c, f)], p.1 ≠ 0)
    (hlast : cs2 ≠ [])
    (hq : ∀ p ∈ cs1 ++ cs2 ++ [(c, f)], ∀ hist, prog p.2 hist = [])
    (hk : ∀ hist, prog fk hist = [Cmd.connect c f]) :
    ∃ s, signal.connect_each (State.init h) (cs1 ++ (ck, fk) :: cs2) = some s ∧ s.log = [] ∧
      ∀ fuel, (cs1 ++ (ck, fk) :: cs2).length + 4 ≤ fuel →
        ∃ s1, call prog fuel s = some s1 ∧
          s1.log = cs1 ++ (ck, fk) :: cs2 ++ [(c, f)] ∧
          m_connections.forward s1.heap ((cs1 ++ (ck, fk) :: cs2 ++ [(c, f)]).length + 1)
            = some ((cs1 ++ (ck, fk) :: cs2 ++ [(c, f)]).map Prod.fst) := by
  have hnd2 : ((cs1 ++ (ck, fk) :: cs2).map Prod.fst ++ [c]).Nodup := by
    simpa using hnd
  rw [List.nodup_append] at hnd2
  have hnd' : ((cs1 ++ (ck, fk) :: cs2).map Prod.fst).Nodup := hnd2.1
  have hc_new : c ∉ (cs1 ++ (ck, fk) :: cs2).map Prod.fst :=
    fun hmem => hnd2.2.2 hmem (by simp)
  obtain ⟨s, e, hr, ha, htok, hl, hcb, _, hobj⟩ := connect_each_spec (cs1 ++ (ck, fk) :: cs2)
    (State.init h) [] (rep_init h) rfl hnd'
    (fun p hp => ⟨by simp [State.init], h0 p (by simp at hp ⊢; tauto)⟩)
  simp only [List.nil_append, List.map_append, List.map_cons] at hr
  replace hl : s.log = [] := hl
  refine ⟨s, e, hl, ?_⟩
  intro fuel hfuel
  simp only [List.length_append, List.length_cons] at hfuel
  obtain ⟨b, rfl⟩ : ∃ b, fuel = (((b + 1 + (cs2.length + 1)) + 1) + 1 + cs1.length) + 1 :=
    ⟨fuel - cs1.length - cs2.length - 5, by omega⟩
  rw [call_eq prog _ s ha]
  -- the stretch before `ck`
  obtain ⟨e1, hr1⟩ := loop_quiet_of_eq prog cs1 (iteration_token.ctor s) _ []
    (ck :: cs2.map Prod.fst) ⟨some this_signal, s.last_token, m_connections.begin s.heap⟩ s.tokens
    ((b + 1 + (cs2.length + 1)) + 1) (push_spec hr) (by simp) rfl (by simp)
    (by
      have := isList_fake_next hr.isList
      simpa [list.begin] using this)
    (fun p hp => hcb p (by simp [hp])) (fun p hp extra => hq p (by simp [hp]) _)
  dsimp only [iteration_token.ctor, List.headD_cons] at e1 hr1 ⊢
  rw [e1]
  -- the invocation of `ck`
  obtain ⟨e2, hr2⟩ := loop_one prog _ (cs1.map Prod.fst) (cs2.map Prod.fst) ck fk _ s.tokens
    ((b + 1 + (cs2.length + 1)) + 1) hr1 rfl (by simp) rfl (hcb (ck, fk) (by simp))
  dsimp only at e2 hr2
  rw [e2, hk, exec_run _ _ _ _ _ (by simp)]
  have hfree : State.free { s with
      tokens := (⟨some this_signal, s.last_token, some ((cs2.map Prod.fst).headD 0)⟩ : iteration_token)
        :: s.tokens
      log := s.log ++ cs1 ++ [(ck, fk)]
      last_token := some s.tokens.length } c := by
    refine ⟨?_, h0 (c, f) (by simp)⟩
    show c ∉ s.objects
    rw [hobj c]
    simp only [State.init, List.not_mem_nil, false_or]
    exact hc_new
  obtain ⟨h', e3, hr3⟩ := ctor_spec hr2 hfree f
  rw [run_connect _ f hfree ha, e3, Option.some_bind,
    show b + 1 + (cs2.length + 1) = (b + cs2.length + 1) + 1 by omega, exec_nil,
    Option.some_bind,
    show b + cs2.length + 1 + 1 + 1 = (b + 1) + 1 + (cs2 ++ [(c, f)]).length by simp; omega]
  -- the stretch behind `ck`, the new connection included
  have hhead : (cs2.map Prod.fst).headD 0
      = (((cs2 ++ [(c, f)]).map Prod.fst) ++ []).headD 0 := by
    cases cs2 with
    | nil => exact absurd rfl hlast
    | cons p rest => simp
  have hmid := nodup_mid hr.isList.2
  obtain ⟨e4, hr4⟩ := loop_quiet_of_eq prog (cs2 ++ [(c, f)]) _ _ (cs1.map Prod.fst ++ [ck]) []
    _ _ (b + 1) hr3 (by simp) rfl (by simp) (by rw [hhead])
    (fun p hp => by
      simp only [List.mem_append, List.mem_singleton] at hp
      rcases hp with hp | rfl
      · have hpc : p.1 ≠ c := by
          intro e
          exact hc_new (by rw [← e]; exact List.mem_map_of_mem Prod.fst (by simp [hp]))
        simpa [hpc] using hcb p (by simp [hp])
      · simp)
    (fun p hp extra => hq p (by simp only [List.mem_append] at hp ⊢; tauto) _)
  dsimp only [List.headD_nil] at e4 hr4
  rw [e4, loop_exit prog (b + 1) _ rfl (by simp [signal.pending])]
  refine ⟨_, rfl, by simp [iteration_token.dtor, hl], ?_⟩
  have hl4 := hr4.isList
  have := @isList_forward _ _ _ hl4 ((cs1 ++ (ck, fk) :: cs2 ++ [(c, f)]).length + 1) (by simp)
  simpa [iteration_token.dtor] using this

theorem connect_during_dispatch_witness :
    ∃ s, signal.connect_each (State.init fun _ => {}) ([] ++ (1, 12) :: [(2, 11)]) = some s ∧
      s.log = [] ∧
      ∀ fuel, ([] ++ (1, 12) :: [(2, 11)]).length + 4 ≤ fuel →
        ∃ s1, call connecting_prog fuel s = some s1 ∧
          s1.log = [] ++ (1, 12) :: [(2, 11)] ++ [(3, 13)] ∧
          m_connections.forward s1.heap (([] ++ (1, 12) :: [(2, 11)] ++ [(3, 13)]).length + 1)
            = some (([] ++ (1, 12) :: [(2, 11)] ++ [(3, 13)]).map Prod.fst) :=
  connect_during_dispatch (fun _ => {}) [] [(2, 11)] 1 12 3 13 connecting_prog
    (by decide) (by decide) (by decide)
    (by intro p hp hist; simp at hp; rcases hp with rfl | rfl <;> rfl)
    (fun _ => rfl)

end signals

namespace signals

open intrusive

theorem dropWhile_split {l1 l2 : List Nat} {c : Nat} (hc : c ∉ l1) :
    (l1 ++ c :: l2).dropWhile (· != c) = c :: l2 := by
  induction l1 with
  | nil => simp [List.dropWhile]
  | cons x xs ih =>
    simp only [List.mem_cons, not_or] at hc
    have hx : (x != c) = true := by simp [bne_iff_ne]; exact fun e => hc.1 e.symm
    simp only [List.cons_append, List.dropWhile, hx]
    exact ih hc.2

theorem dropWhile_none {l : List Nat} {c : Nat} (hc : c ∉ l) :
    l.dropWhile (· != c) = [] := by
  induction l with
  | nil => rfl
  | cons x xs ih =>
    simp only [List.mem_cons, not_or] at hc
    have hx : (x != c) = true := by simp [bne_iff_ne]; exact fun e => hc.1 e.symm
    simp only [List.dropWhile, hx]
    exact ih hc.2

theorem rest_headD {a b : List Nat} (hnd : ((0 : Nat) :: (a ++ b)).Nodup) :
    signal.rest (a ++ b) (some (b.headD 0)) = b := by
  simp only [List.nodup_cons, List.mem_append, not_or, List.nodup_append] at hnd
  cases b with
  | nil =>
    simp only [signal.rest, List.headD_nil, List.append_nil]
    exact dropWhile_none hnd.1.1
  | cons y ys =>
    simp only [signal.rest, List.headD_cons]
    exact dropWhile_split (fun h => hnd.2.2.2 h (by simp))

theorem mem_rest {l : List Nat} {it : Option Nat} {x : Nat} (hx : x ∈ signal.rest l it) :
    x ∈ l := by
  cases it with
  | none => simp [signal.rest] at hx
  | some c => exact (List.dropWhile_sublist _).subset hx

theorem cursor_split {s : State} {l : List Nat} (hr : Rep s l) {t : iteration_token}
    (ht : t ∈ s.tokens) (hm : t.m_signal ≠ none) :
    ∃ l1 l2, l = l1 ++ l2 ∧ t.iterator = some (l2.headD 0) ∧ signal.rest l t.iterator = l2 := by
  have hnd := hr.isList.2
  simp only [fake_eq] at hnd
  rcases hr.cursor t ht hm with h | ⟨c, hc, h⟩
  · refine ⟨l, [], by simp, h, ?_⟩
    rw [h]
    have := @rest_headD l [] (by simpa using hnd)
    simpa using this
  · obtain ⟨l1, l2, rfl⟩ := split_of_mem hc
    refine ⟨l1, c :: l2, rfl, h, ?_⟩
    rw [h]
    exact @rest_headD l1 (c :: l2) hnd

/-- All passes in progress run to their end over connections whose functions do
nothing: each pass invokes the connections from its cursor to the end of the
list, once each and in order, innermost pass first; `last_token` ends as the
`previous` of the outermost token. -/
theorem finish_quiet (prog : Program) : ∀ (ts : List iteration_token) (s : State) (l : List Nat),
    Rep s l → s.tokens = ts → (∀ t ∈ ts, t.m_signal ≠ none) →
    (∀ c ∈ l, ∀ extra, prog ((s.m_callback c).getD 0) (s.log ++ extra) = []) →
    ∀ fuel, ts.length + l.length + 2 ≤ fuel →
      finish prog fuel s = some { s with
        tokens := []
        log := s.log ++ ts.flatMap fun t => (signal.rest l t.iterator).map (signal.entry s)
        last_token :=
          match ts.getLast? with
          | some t => t.previous
          | none => s.last_token } := by
  intro ts
  induction ts with
  | nil =>
    intro s l _ hts _ _ fuel hf
    obtain ⟨k, rfl⟩ : ∃ k, fuel = k + 1 := ⟨fuel - 1, by omega⟩
    rw [finish_nil prog k s hts]
    congr 1
    cases s
    simp_all
  | cons t ts ih =>
    intro s l hr hts hlive hq fuel hf
    simp only [List.length_cons] at hf
    obtain ⟨l1, l2, hl, hit, hrest⟩ := cursor_split hr (by simp [hts]) (hlive t (by simp))
    have hlen : l2.length ≤ l.length := by rw [hl]; simp
    obtain ⟨k, rfl⟩ : ∃ k, fuel = (k + 1 + (l2.map (signal.entry s)).length) + 1 :=
      ⟨fuel - l2.length - 2, by simp only [List.length_map]; omega⟩
    have hfst : (l2.map (signal.entry s)).map Prod.fst = l2 := by
      rw [List.map_map]
      conv_rhs => rw [← List.map_id l2]
      rfl
    obtain ⟨e1, hr1⟩ := loop_quiet_of_eq prog (l2.map (signal.entry s)) s l l1 [] t ts k hr
      (by rw [hfst, List.append_nil]; exact hl) hts (hlive t (by simp))
      (by rw [hfst, List.append_nil]; exact hit)
      (fun p hp => by
        simp only [List.mem_map] at hp
        obtain ⟨c, hc, rfl⟩ := hp
        have hcl : c ∈ l := by rw [hl]; simp [hc]
        obtain ⟨g, hg⟩ := Option.ne_none_iff_exists'.1 (hr.linked c hcl).2
        simp [signal.entry, hg])
      (fun p hp extra => by
        simp only [List.mem_map] at hp
        obtain ⟨c, hc, rfl⟩ := hp
        exact hq c (by rw [hl]; simp [hc]) extra)
    dsimp only [List.headD_nil] at e1 hr1
    rw [finish_cons prog _ s hts, e1, loop_exit prog k _ rfl (by simp [signal.pending]),
      Option.some_bind]
    have hr2 := pop_spec hr1
    have := ih _ l hr2 rfl (fun t' ht' => hlive t' (by simp [ht']))
      (fun c hc extra => by
        have := hq c hc (l2.map (signal.entry s) ++ extra)
        simpa [iteration_token.dtor] using this)
      (k + 1 + (l2.map (signal.entry s)).length)
      (by simp only [List.length_map] at hf ⊢; omega)
    rw [this]
    obtain ⟨sg, hsg⟩ := Option.ne_none_iff_exists'.1 (hlive t (by simp))
    cases ts with
    | nil =>
      simp [iteration_token.dtor, hrest, hsg]
    | cons t' ts' =>
      simp only [iteration_token.dtor, List.tail_cons, List.flatMap_cons, hrest,
        List.append_assoc, List.getLast?_cons_cons]
      rfl

end signals

namespace intrusive

/-- The loop of `clear` on a well-formed list `l`: it needs more than
`l.length` units of fuel, and then leaves the empty ring, every former element
unlinked and the rest of the memory untouched. -/
theorem clear_spec {f : Nat} (fuel : Nat) : ∀ (h : Heap) (l : List Nat), IsList h f l →
    (fuel ≤ l.length → list.clear fuel h ⟨f⟩ = none) ∧
    (l.length < fuel → ∃ h', list.clear fuel h ⟨f⟩ = some h' ∧ IsList h' f [] ∧
      (∀ c ∈ l, h' c = {}) ∧ ∀ y, y ∉ f :: l → h' y = h y) := by
  induction fuel with
  | zero =>
    intro h l _
    exact ⟨fun _ => rfl, fun hlt => absurd hlt (Nat.not_lt_zero _)⟩
  | succ n ih =>
    intro h l hl
    have hemp := isList_empty hl
    rcases List.eq_nil_or_concat l with rfl | ⟨l', c, rfl⟩
    · have he : list.empty h ⟨f⟩ = true := hemp.2 rfl
      refine ⟨fun hle => absurd hle (by simp), fun _ => ⟨h, ?_, hl, ?_, fun _ _ => rfl⟩⟩
      · simp [list.clear, he]
      · intro c hc; simp at hc
    · simp only [List.concat_eq_append] at hl hemp ⊢
      have he : list.empty h ⟨f⟩ = false := by
        cases e : list.empty h ⟨f⟩
        · rfl
        · exact absurd (hemp.1 e) (by simp)
      have hb : (h f).prev = some c := by
        have := isList_fake_prev hl
        simpa using this
      obtain ⟨h1, e1, hl1, hc1, hfr1⟩ := isList_erase hl
      rw [List.append_nil] at hl1
      have hpop : list.pop_back h ⟨f⟩ = some h1 := by
        simp [list.pop_back, list.end_, hb, e1]
      obtain ⟨ih1, ih2⟩ := ih h1 l' hl1
      have hnd := hl.2
      constructor
      · intro hle
        simp only [List.length_append, List.length_singleton, Nat.add_le_add_iff_right] at hle
        simp [list.clear, he, hpop, ih1 hle]
      · intro hlt
        simp only [List.length_append, List.length_singleton, Nat.add_lt_add_iff_right] at hlt
        obtain ⟨h', e', hl', hel, hfr⟩ := ih2 hlt
        refine ⟨h', ?_, hl', ?_, ?_⟩
        · simp [list.clear, he, hpop, e']
        · intro x hx
          rcases List.mem_append.1 hx with hx | hx
          · exact hel x hx
          · have hxc : x = c := by simpa using hx
            subst hxc
            have hx' : x ∉ f :: l' := by
              simp [List.nodup_append] at hnd ⊢
              constructor
              · intro e; exact hnd.1.2 e.symm
              · exact fun hm => hnd.2.2 hm
            rw [hfr x hx', hc1]
        · intro y hy
          have hy1 : y ∉ f :: l' := by simp at hy ⊢; tauto
          rw [hfr y hy1]
          exact hfr1 y (by simpa using hy)

/-- C14 (erase): for a well-formed list and a contained element `c`, with the
elements `l1` before it and `l2` after it, `erase` runs without fault and
returns the pointer to the first element of `l2`, or to the sentinel (`end()`)
when `l2` is empty; afterwards the list is well-formed and holds `l1 ++ l2`
(forward traversal, backward its reverse), `c` has both pointers null, and no
node outside the ring is changed. -/
theorem erase_returns_next (h : Heap) (f c : Nat) (l1 l2 : List Nat)
    (hl : IsList h f (l1 ++ c :: l2)) :
    ∃ h', list.erase h ⟨f⟩ c = some (h', some (l2.headD (list.end_ ⟨f⟩))) ∧
      IsList h' f (l1 ++ l2) ∧
      list.forward h' ⟨f⟩ ((l1 ++ l2).length + 1) = some (l1 ++ l2) ∧
      list.backward h' ⟨f⟩ ((l1 ++ l2).length + 1) = some (l1 ++ l2).reverse ∧
      h' c = {} ∧ ∀ y, y ∉ f :: (l1 ++ c :: l2) → h' y = h y := by
  obtain ⟨h', e, hl', hc, hfr⟩ := isList_erase hl
  exact ⟨h', e, hl', isList_forward hl' (le_refl _), isList_backward hl' (le_refl _), hc, hfr⟩

theorem erase_returns_next_witness :
    IsList (list.build (fun _ => {}) ⟨0⟩ [1, 2, 3]) 0 ([1] ++ 2 :: [3]) ∧
    ∃ h', list.erase (list.build (fun _ => {}) ⟨0⟩ [1, 2, 3]) ⟨0⟩ 2
        = some (h', some ([3].headD (list.end_ ⟨0⟩))) ∧
      IsList h' 0 ([1] ++ [3]) ∧
      list.forward h' ⟨0⟩ (([1] ++ [3]).length + 1) = some ([1] ++ [3]) ∧
      list.backward h' ⟨0⟩ (([1] ++ [3]).length + 1) = some ([1] ++ [3]).reverse ∧
      h' 2 = {} ∧
      ∀ y, y ∉ 0 :: ([1] ++ 2 :: [3]) →
        h' y = list.build (fun _ => {}) ⟨0⟩ [1, 2, 3] y :=
  ⟨by decide, erase_returns_next _ 0 2 [1] [3] (by decide)⟩

/-- C12 (clear): for a well-formed list with `n` elements the loop of `clear`
tests its condition exactly `n + 1` times, that is, it runs `n` times
`pop_back`: with at most `n` units of fuel it has not ended, with more it ends.
Afterwards `empty()` holds, `begin()` is `end()`, the sentinel points to itself
in both directions, every former element has both pointers null, and no node
outside the ring is changed. -/
theorem clear_unlinks_all (h : Heap) (f : Nat) (l : List Nat) (hl : IsList h f l)
    (fuel : Nat) :
    (fuel ≤ l.length → list.clear fuel h ⟨f⟩ = none) ∧
    (l.length < fuel → ∃ h', list.clear fuel h ⟨f⟩ = some h' ∧
      list.empty h' ⟨f⟩ = true ∧ list.begin h' ⟨f⟩ = some (list.end_ ⟨f⟩) ∧
      h' f = ⟨some f, some f⟩ ∧ (∀ c ∈ l, h' c = {}) ∧ ∀ y, y ∉ f :: l → h' y = h y) := by
  obtain ⟨h1, h2⟩ := clear_spec fuel h l hl
  refine ⟨h1, fun hlt => ?_⟩
  obtain ⟨h', e, hl', hel, hfr⟩ := h2 hlt
  have hn := isList_fake_next hl'
  have hp := isList_fake_prev hl'
  simp only [List.headD_nil, List.getLastD_nil] at hn hp
  refine ⟨h', e, ?_, ?_, ?_, hel, hfr⟩
  · simp [list.empty, hn]
  · simp [list.begin, list.end_, hn]
  · exact node_ext hn hp

theorem clear_unlinks_all_witness :
    IsList (list.build (fun _ => {}) ⟨0⟩ [1, 2, 3]) 0 [1, 2, 3] ∧
    ((3 ≤ [1, 2, 3].length →
      list.clear 3 (list.build (fun _ => {}) ⟨0⟩ [1, 2, 3]) ⟨0⟩ = none) ∧
    ([1, 2, 3].length < 4 →
      ∃ h', list.clear 4 (list.build (fun _ => {}) ⟨0⟩ [1, 2, 3]) ⟨0⟩ = some h' ∧
        list.empty h' ⟨0⟩ = true ∧ list.begin h' ⟨0⟩ = some (list.end_ ⟨0⟩) ∧
        h' 0 = ⟨some 0, some 0⟩ ∧ (∀ c ∈ [1, 2, 3], h' c = {}) ∧
        ∀ y, y ∉ 0 :: [1, 2, 3] → h' y = list.build (fun _ => {}) ⟨0⟩ [1, 2, 3] y)) :=
  ⟨by decide,
    (clear_unlinks_all _ 0 [1, 2, 3] (by decide) 3).1,
    (clear_unlinks_all (list.build (fun _ => {}) ⟨0⟩ [1, 2, 3]) 0 [1, 2, 3] (by decide) 4).2⟩

/-- C19 (moving from an unlinked node): when the source has both pointers null,
`node::operator=(node &&)` calls `link(nullptr, nullptr)`, whose statement
`prev->next = this` goes through the null pointer: the move assignment and the
move constructor fault, whether the destination is unlinked or an element of a
list; `unlink` on the same unlinked node returns without touching memory. -/
theorem node_move_from_unlinked :
    (node.move_assign (fun _ => {}) 1 2).isNone = true ∧
    (node.move_construct (fun _ => {}) 1 2).isNone = true ∧
    list.forward (list.build (fun _ => {}) ⟨0⟩ [1]) ⟨0⟩ 2 = some [1] ∧
    (node.move_assign (list.build (fun _ => {}) ⟨0⟩ [1]) 1 2).isNone = true ∧
    (node.link (fun _ => {}) 1 none none).isNone = true ∧
    (node.unlink (fun _ => {}) 2).isSome = true := by
  decide

/-- C17 (re-linking a linked node): in the well-formed list `[1, 2, 3]`,
`insert` of node 1 before node 2, its own successor, leaves node 1 pointing to
itself in both directions and outside the ring (forward traversal `[2, 3]`, the
sentinel still pointing back to node 3 and node 2 back to node 1); `insert` of
node 3 before `end()` leaves node 3 pointing to itself and the forward traversal
`[1, 2]`; `insert` of node 2 before itself leaves its `next` pointing to itself.
An element that is not the predecessor of the position is moved as expected:
`insert` of node 3 before node 2 gives `[1, 3, 2]`. -/
theorem insert_linked_before_pos :
    list.forward (list.build (fun _ => {}) ⟨0⟩ [1, 2, 3]) ⟨0⟩ 4 = some [1, 2, 3] ∧
    ((list.insert (list.build (fun _ => {}) ⟨0⟩ [1, 2, 3]) ⟨0⟩ 2 1).map fun h =>
        ([h 0, h 1, h 2, h 3], list.forward h ⟨0⟩ 4, list.backward h ⟨0⟩ 4))
      = some ([⟨some 2, some 3⟩, ⟨some 1, some 1⟩, ⟨some 3, some 1⟩, ⟨some 0, some 2⟩],
          some [2, 3], none) ∧
    ((list.insert (list.build (fun _ => {}) ⟨0⟩ [1, 2, 3]) ⟨0⟩ (list.end_ ⟨0⟩) 3).map fun h =>
        ([h 0, h 1, h 2, h 3], list.forward h ⟨0⟩ 4))
      = some ([⟨some 1, some 3⟩, ⟨some 2, some 0⟩, ⟨some 0, some 1⟩, ⟨some 3, some 3⟩],
          some [1, 2]) ∧
    ((list.insert (list.build (fun _ => {}) ⟨0⟩ [1, 2, 3]) ⟨0⟩ 2 2).map fun h =>
        (h 2, list.forward h ⟨0⟩ 4))
      = some (⟨some 2, some 2⟩, none) ∧
    ((list.insert (list.build (fun _ => {}) ⟨0⟩ [1, 2, 3]) ⟨0⟩ 2 3).map fun h =>
        (list.forward h ⟨0⟩ 4, list.backward h ⟨0⟩ 4))
      = some (some [1, 3, 2], some [2, 3, 1]) := by
  decide

/-- C11 (splice with `pos == last`): in the well-formed list `[1, 2, 3, 4]`,
`splice(pos, list, first, last)` with `first` at node 1 and `pos` and `last`
both at node 3 keeps the forward traversal, but exchanges the `prev` pointers of
node 1 and node 3: node 3 points back to the sentinel and node 1 to node 2, so
that the backward traversal is `[4, 3]` and not the reverse of the forward one.
With a position different from `last` the same range is moved as expected
(before node 4: `[3, 1, 2, 4]`; into another list before its `end()`), and with
`first == last` nothing changes. -/
theorem splice_pos_eq_last :
    list.forward (list.build (fun _ => {}) ⟨0⟩ [1, 2, 3, 4]) ⟨0⟩ 5 = some [1, 2, 3, 4] ∧
    list.backward (list.build (fun _ => {}) ⟨0⟩ [1, 2, 3, 4]) ⟨0⟩ 5 = some [4, 3, 2, 1] ∧
    ((list.splice (list.build (fun _ => {}) ⟨0⟩ [1, 2, 3, 4]) ⟨0⟩ 3 ⟨0⟩ 1 3).map fun h =>
        ([h 0, h 1, h 2, h 3, h 4], list.forward h ⟨0⟩ 5, list.backward h ⟨0⟩ 5))
      = some ([⟨some 1, some 4⟩, ⟨some 2, some 2⟩, ⟨some 3, some 1⟩, ⟨some 4, some 0⟩,
          ⟨some 0, some 3⟩], some [1, 2, 3, 4], some [4, 3]) ∧
    ((list.splice (list.build (fun _ => {}) ⟨0⟩ [1, 2, 3, 4]) ⟨0⟩ 4 ⟨0⟩ 1 3).map fun h =>
        (list.forward h ⟨0⟩ 5, list.backward h ⟨0⟩ 5))
      = some (some [3, 1, 2, 4], some [4, 2, 1, 3]) ∧
    ((list.splice (list.build (list.build (fun _ => {}) ⟨0⟩ [1, 2, 3, 4]) ⟨10⟩ [11])
          ⟨10⟩ (list.end_ ⟨10⟩) ⟨0⟩ 1 3).map fun h =>
        [list.forward h ⟨0⟩ 5, list.backward h ⟨0⟩ 5, list.forward h ⟨10⟩ 5,
          list.backward h ⟨10⟩ 5])
      = some [some [3, 4], some [4, 3], some [11, 1, 2], some [2, 1, 11]] ∧
    ((list.splice (list.build (fun _ => {}) ⟨0⟩ [1, 2, 3, 4]) ⟨0⟩ 3 ⟨0⟩ 1 1).map fun h =>
        [h 0, h 1, h 2, h 3, h 4])
      = some [⟨some 1, some 4⟩, ⟨some 2, some 0⟩, ⟨some 3, some 1⟩, ⟨some 4, some 2⟩,
          ⟨some 0, some 3⟩] := by
  decide

end intrusive

namespace intrusive

/-- The sentinel `fd` of an empty list takes over the ring of the sentinel `fs`,
whose first node is `x` and last node is `z`: the memory afterwards. -/
theorem move_fake_spec {h : Heap} {fd fs x z : Nat} (hne : fd ≠ fs)
    (hdn : (h fd).next = some fd) (hdp : (h fd).prev = some fd)
    (hsn : (h fs).next = some x) (hsp : (h fs).prev = some z)
    (hx : x ≠ fd ∧ x ≠ fs) (hz : z ≠ fd ∧ z ≠ fs) :
    ∃ h2, node.move_assign h fd fs = some h2 ∧
      list.init_fake_for_empty h2 ⟨fs⟩ fd = ⟨some x, some z⟩ ∧
      list.init_fake_for_empty h2 ⟨fs⟩ fs = ⟨some fs, some fs⟩ ∧
      (list.init_fake_for_empty h2 ⟨fs⟩ x).prev = some fd ∧
      (list.init_fake_for_empty h2 ⟨fs⟩ z).next = some fd ∧
      (∀ y, y ≠ fd → y ≠ fs → y ≠ z → (list.init_fake_for_empty h2 ⟨fs⟩ y).next = (h y).next) ∧
      (∀ y, y ≠ fd → y ≠ fs → y ≠ x → (list.init_fake_for_empty h2 ⟨fs⟩ y).prev = (h y).prev) := by
  obtain ⟨hx1, hx2⟩ := hx
  obtain ⟨hz1, hz2⟩ := hz
  refine ⟨setNext (setPrev (setPrev (setNext (setNext (setPrev
      (setNext (setPrev (setNext (setPrev h fd (some fd)) fd (some fd)) fd none) fd none)
      fd (some z)) fd (some x)) z (some fd)) x (some fd)) fs none) fs none, ?_, ?_, ?_, ?_, ?_, ?_, ?_⟩
  · simp [node.move_assign, node.link, node.unlink, hne, hdn, hdp, hsn, hsp]
  · apply node_ext <;> simp [list.init_fake_for_empty, hne, Ne.symm hx1, Ne.symm hz1]
  · apply node_ext <;> simp [list.init_fake_for_empty]
  · simp [list.init_fake_for_empty, hx2]
  · simp [list.init_fake_for_empty, hz2]
  · intro y h1 h2 h3
    simp [list.init_fake_for_empty, h1, h2, h3]
  · intro y h1 h2 h3
    simp [list.init_fake_for_empty, h1, h2, h3]

/-- C13 (list move assignment): for two well-formed lists without a common
node, the destination with sentinel `fd` and elements `ld`, the source with
sentinel `fs` and elements `ls` (each possibly empty), the move assignment runs
without fault once the fuel exceeds the length of the destination.  Afterwards
the destination is well-formed and holds `ls` (forward traversal `ls`, backward
its reverse, the first element pointing back and the last one forward to the
sentinel `fd`), the source is empty with its sentinel pointing to itself, every
former element of the destination has both pointers null, and no node outside
the two rings is changed. -/
theorem list_move_assign (h : Heap) (fd fs : Nat) (ld ls : List Nat)
    (hd : IsList h fd ld) (hs : IsList h fs ls)
    (hdis : ∀ y ∈ fd :: ld, y ∉ fs :: ls) (fuel : Nat) (hfuel : ld.length < fuel) :
    ∃ h', list.move_assign fuel h ⟨fd⟩ ⟨fs⟩ = some h' ∧
      IsList h' fd ls ∧
      list.forward h' ⟨fd⟩ (ls.length + 1) = some ls ∧
      list.backward h' ⟨fd⟩ (ls.length + 1) = some ls.reverse ∧
      (h' (ls.headD fd)).prev = some fd ∧ (h' (ls.getLastD fd)).next = some fd ∧
      list.empty h' ⟨fs⟩ = true ∧ h' fs = ⟨some fs, some fs⟩ ∧
      (∀ c ∈ ld, h' c = {}) ∧
      ∀ y, y ∉ fd :: ld → y ∉ fs :: ls → h' y = h y := by
  obtain ⟨h1, e1, hl1, hel, hfr⟩ := (clear_spec fuel h ld hd).2 hfuel
  have hs1 : IsList h1 fs ls :=
    isList_congr hs (fun y hy => hfr y (fun hm => hdis y hm hy))
  have hne : fd ≠ fs := fun e => hdis fd (by simp) (by simp [e])
  have hdn := isList_fake_next hl1
  have hdp := isList_fake_prev hl1
  simp only [List.headD_nil, List.getLastD_nil] at hdn hdp
  have key : ∃ h', list.move_assign fuel h ⟨fd⟩ ⟨fs⟩ = some h' ∧ IsList h' fd ls ∧
      h' fs = ⟨some fs, some fs⟩ ∧ (∀ c ∈ ld, h' c = {}) ∧
      ∀ y, y ∉ fd :: ld → y ∉ fs :: ls → h' y = h y := by
    have hemp := isList_empty hs1
    rcases List.eq_nil_or_concat ls with rfl | ⟨m0, z, rfl⟩
    · have he : list.empty h1 ⟨fs⟩ = true := hemp.2 rfl
      refine ⟨h1, ?_, hl1, ?_, hel, fun y hy _ => hfr y hy⟩
      · simp [list.move_assign, e1, he]
      · have hn := isList_fake_next hs1
        have hp := isList_fake_prev hs1
        exact node_ext hn hp
    · simp only [List.concat_eq_append] at hs1 hemp hdis hs ⊢
      have he : list.empty h1 ⟨fs⟩ = false := by
        cases e : list.empty h1 ⟨fs⟩
        · rfl
        · exact absurd (hemp.1 e) (by simp)
      have hsn := isList_fake_next hs1
      have hsp : (h1 fs).prev = some z := by
        have := isList_fake_prev hs1
        simpa using this
      have hmem : ∀ y ∈ m0 ++ [z], y ≠ fd ∧ y ≠ fs := by
        intro y hy
        constructor
        · intro e
          exact hdis fd (by simp) (by rw [← e]; exact List.mem_cons_of_mem _ hy)
        · intro e
          have := hs1.2
          rw [← e] at this
          exact (List.nodup_cons.1 this).1 hy
      have hx := hmem ((m0 ++ [z]).headD fs) (by
        rcases @headD_mem_or (m0 ++ [z]) fs with e | e
        · cases m0 <;> simp at e
          · exact absurd e (hmem z (by simp)).2
          · rename_i a as
            exact absurd e (hmem a (by simp)).2
        · exact e)
      have hz := hmem z (by simp)
      obtain ⟨h2, e2, g1, g2, g3, g4, g5, g6⟩ := move_fake_spec hne hdn hdp hsn hsp hx hz
      refine ⟨list.init_fake_for_empty h2 ⟨fs⟩, ?_, ⟨?_, ?_⟩, g2, ?_, ?_⟩
      · simp [list.move_assign, e1, he, e2]
      · -- the ring of the source, now through the sentinel of the destination
        have hnd := hs1.2
        cases m0 with
        | nil =>
          simp only [List.nil_append, List.headD_cons] at g3 g1 ⊢
          simp only [Seg]
          rw [g1]
          exact ⟨rfl, g3, g4, rfl⟩
        | cons x m =>
          simp only [List.cons_append, List.headD_cons] at g3 g1 hnd hmem ⊢
          have hseg := hs1.1
          rw [show x :: m ++ [z] = (x :: m) ++ z :: [] from rfl, seg_append] at hseg
          rw [show x :: (m ++ [z]) = (x :: m) ++ z :: [] from rfl, seg_append]
          simp only [Seg] at hseg ⊢
          refine ⟨⟨by rw [g1], g3, ?_⟩, ?_⟩
          · refine seg_congr hseg.1.2.2 ?_ ?_
            · intro u hu
              have hu' : u ∈ x :: (m ++ [z]) := by simp at hu ⊢; tauto
              have := hmem u hu'
              refine g5 u this.1 this.2 ?_
              intro e
              subst e
              simp [List.nodup_append] at hnd hu
              rcases hu with rfl | hu
              · exact hnd.2.1.2 rfl
              · exact hnd.2.2.2 hu
            · intro v hv
              have hv' : v ∈ x :: (m ++ [z]) := by simp at hv ⊢; tauto
              have := hmem v hv'
              refine g6 v this.1 this.2 ?_
              intro e
              subst e
              simp [List.nodup_append] at hnd hv
              rcases hv with hv | rfl
              · exact hnd.2.1.1 hv
              · exact hnd.2.1.2 rfl
          · rw [g1]
            exact ⟨g4, rfl⟩
      · rw [List.nodup_cons]
        refine ⟨fun hm => (hmem fd hm).1 rfl, (List.nodup_cons.1 hs1.2).2⟩
      · intro c hc
        have hc1 : c ≠ fd := by
          intro e; subst e
          exact (List.nodup_cons.1 hd.2).1 hc
        have hc2 : c ∉ fs :: (m0 ++ [z]) := hdis c (List.mem_cons_of_mem _ hc)
        have hc3 : c ≠ fs := by intro e; exact hc2 (by simp [e])
        have hc4 : c ≠ z := by intro e; exact hc2 (by simp [e])
        have hc5 : c ≠ (m0 ++ [z]).headD fs := by
          intro e
          rcases @headD_mem_or (m0 ++ [z]) fs with e' | e'
          · exact hc3 (e.trans e')
          · exact hc2 (List.mem_cons_of_mem _ (e ▸ e'))
        have := hel c hc
        apply node_ext
        · rw [g5 c hc1 hc3 hc4, this]
        · rw [g6 c hc1 hc3 hc5, this]
      · intro y hy1 hy2
        have hyd : y ≠ fd := by intro e; exact hy1 (by simp [e])
        have hys : y ≠ fs := by intro e; exact hy2 (by simp [e])
        have hyz : y ≠ z := by intro e; exact hy2 (by simp [e])
        have hyx : y ≠ (m0 ++ [z]).headD fs := by
          intro e
          rcases @headD_mem_or (m0 ++ [z]) fs with e' | e'
          · exact hys (e.trans e')
          · exact hy2 (List.mem_cons_of_mem _ (e ▸ e'))
        rw [← hfr y hy1]
        apply node_ext
        · exact g5 y hyd hys hyz
        · exact g6 y hyd hys hyx
  obtain ⟨h', e, hl', hfs, helts, hframe⟩ := key
  refine ⟨h', e, hl', isList_forward hl' (le_refl _), isList_backward hl' (le_refl _),
    ?_, ?_, ?_, hfs, helts, hframe⟩
  · have := @isList_prev_headD h' fd [] ls (by simpa using hl')
    simpa using this
  · have := @isList_next_getLastD h' fd ls [] (by simpa using hl')
    simpa using this
  · simp [list.empty, hfs]

theorem list_move_assign_witness :
    IsList (list.build (list.build (fun _ => {}) ⟨0⟩ [1, 2]) ⟨10⟩ [11, 12, 13]) 0 [1, 2] ∧
    IsList (list.build (list.build (fun _ => {}) ⟨0⟩ [1, 2]) ⟨10⟩ [11, 12, 13]) 10
      [11, 12, 13] ∧
    ∃ h', list.move_assign 3 (list.build (list.build (fun _ => {}) ⟨0⟩ [1, 2]) ⟨10⟩
        [11, 12, 13]) ⟨0⟩ ⟨10⟩ = some h' ∧
      IsList h' 0 [11, 12, 13] ∧
      list.forward h' ⟨0⟩ ([11, 12, 13].length + 1) = some [11, 12, 13] ∧
      list.backward h' ⟨0⟩ ([11, 12, 13].length + 1) = some [11, 12, 13].reverse ∧
      (h' ([11, 12, 13].headD 0)).prev = some 0 ∧
      (h' ([11, 12, 13].getLastD 0)).next = some 0 ∧
      list.empty h' ⟨10⟩ = true ∧ h' 10 = ⟨some 10, some 10⟩ ∧
      (∀ c ∈ [1, 2], h' c = {}) ∧
      ∀ y, y ∉ 0 :: [1, 2] → y ∉ 10 :: [11, 12, 13] →
        h' y = list.build (list.build (fun _ => {}) ⟨0⟩ [1, 2]) ⟨10⟩ [11, 12, 13] y :=
  ⟨by decide, by decide,
    list_move_assign _ 0 10 [1, 2] [11, 12, 13] (by decide) (by decide) (by decide) 3
      (by decide)⟩

end intrusive

namespace signals

open intrusive

theorem sameTokens_refl (s : State) : SameTokens s s := ⟨rfl, rfl, rfl, rfl⟩

theorem sameTokens_trans {s1 s2 s3 : State} (h1 : SameTokens s1 s2) (h2 : SameTokens s2 s3) :
    SameTokens s1 s3 :=
  ⟨h2.alive.trans h1.alive, h2.last_token.trans h1.last_token,
    h2.previous.trans h1.previous, h2.m_signal.trans h1.m_signal⟩

theorem frame_of_same {s s' : State} (h : SameTokens s s') : Frame s s' :=
  ⟨h.previous, fun ha => h.alive.trans ha, fun _ => h.last_token, fun _ => h.m_signal⟩

theorem frame_refl (s : State) : Frame s s := frame_of_same (sameTokens_refl s)

theorem frame_trans {s1 s2 s3 : State} (h1 : Frame s1 s2) (h2 : Frame s2 s3) : Frame s1 s3 := by
  have hal : s3.alive = true → s2.alive = true := by
    intro h3
    by_contra h
    have := h2.dead (by simpa using h)
    simp [this] at h3
  exact ⟨h2.previous.trans h1.previous, fun ha => h2.dead (h1.dead ha),
    fun ha => (h2.top ha).trans (h1.top (hal ha)),
    fun ha => (h2.live ha).trans (h1.live (hal ha))⟩

theorem retarget_previous (ts : List iteration_token) (a : Nat) (b : Option Nat) :
    (retarget ts a b).map (fun t => t.previous) = ts.map (fun t => t.previous) := by
  induction ts with
  | nil => rfl
  | cons t ts ih =>
    simp only [retarget, List.map_cons] at ih ⊢
    rw [ih]
    split <;> rfl

theorem retarget_m_signal (ts : List iteration_token) (a : Nat) (b : Option Nat) :
    (retarget ts a b).map (fun t => t.m_signal) = ts.map (fun t => t.m_signal) := by
  induction ts with
  | nil => rfl
  | cons t ts ih =>
    simp only [retarget, List.map_cons] at ih ⊢
    rw [ih]
    split <;> rfl

theorem same_set_tokens (s : State) (s' : State) (a : Nat) (b : Option Nat)
    (hal : s'.alive = s.alive) (hlt : s'.last_token = s.last_token)
    (hts : s'.tokens = retarget s.tokens a b) : SameTokens s s' :=
  ⟨hal, hlt, by rw [hts, retarget_previous], by rw [hts, retarget_m_signal]⟩

theorem disconnect_same {s s' : State} {c : Nat} (h : connection.disconnect s c = some s') :
    SameTokens s s' := by
  unfold connection.disconnect at h
  split at h
  · cases h; exact sameTokens_refl s
  · split at h
    · cases h
    · cases h
      exact same_set_tokens s _ c _ rfl rfl rfl

theorem replace_same {s s' : State} {d x : Nat} (h : connection.replace s d x = some s') :
    SameTokens s s' := by
  unfold connection.replace at h
  split at h
  · exact disconnect_same h
  · split at h
    · cases h
    · dsimp only at h
      have h2 := disconnect_same h
      refine sameTokens_trans ?_ h2
      exact same_set_tokens s _ x (some d) rfl rfl rfl

theorem move_construct_same {s s' : State} {d x : Nat}
    (h : connection.move_construct s d x = some s') : SameTokens s s' := by
  unfold connection.move_construct at h
  have h2 := replace_same h
  refine sameTokens_trans ?_ h2
  exact ⟨rfl, rfl, rfl, rfl⟩

theorem move_assign_same {s s' : State} {d x : Nat}
    (h : connection.move_assign s d x = some s') : SameTokens s s' := by
  unfold connection.move_assign at h
  split at h
  · split at h
    · cases h
    · rename_i s1 e
      have h2 := replace_same h
      refine sameTokens_trans (disconnect_same e) (sameTokens_trans ?_ h2)
      exact ⟨rfl, rfl, rfl, rfl⟩
  · cases h; exact sameTokens_refl s

theorem connection_dtor_same {s s' : State} {c : Nat} (h : connection.dtor s c = some s') :
    SameTokens s s' := by
  unfold connection.dtor at h
  split at h
  · cases h
  · rename_i s1 e
    split at h
    · cases h
    · cases h
      exact sameTokens_trans (disconnect_same e) ⟨rfl, rfl, rfl, rfl⟩

theorem connection_ctor_same {s s' : State} {c f : Nat} (h : connection.ctor s c f = some s') :
    SameTokens s s' := by
  unfold connection.ctor at h
  split at h
  · cases h
  · cases h; exact ⟨rfl, rfl, rfl, rfl⟩

theorem disconnect_all_same (fuel : Nat) : ∀ {s s' : State},
    signal.disconnect_all fuel s = some s' → SameTokens s s' := by
  induction fuel with
  | zero => intro s s' h; cases h
  | succ n ih =>
    intro s s' h
    unfold signal.disconnect_all at h
    split at h
    · cases h; exact sameTokens_refl s
    · split at h
      · cases h
      · split at h
        · cases h
        · rename_i s1 e
          exact sameTokens_trans (disconnect_same e) (ih h)

/-- The destructor of the signal keeps the token objects and their `previous`
members, does not write `last_token`, and leaves the signal destroyed. -/
theorem signal_dtor_frame {fuel : Nat} {s s' : State} (h : signal.dtor fuel s = some s') :
    s'.alive = false ∧ s'.last_token = s.last_token ∧
    s'.tokens.map (fun t => t.previous) = s.tokens.map (fun t => t.previous) := by
  unfold signal.dtor at h
  dsimp only at h
  split at h
  · cases h
  · rename_i s2 e
    have hs := disconnect_all_same fuel e
    split at h
    · cases h
    · split at h
      · cases h
      · cases h
        refine ⟨rfl, hs.last_token, ?_⟩
        have := hs.previous
        simp only [List.map_map] at this
        exact this

/-- A command other than `emit` keeps the token chain, or destroys the signal. -/
theorem cmd_same {fuel : Nat} {c : Cmd} {s s' : State} (h : c.run fuel s = some s') :
    SameTokens s s' ∨ (s'.alive = false ∧ s'.last_token = s.last_token ∧
      s'.tokens.map (fun t => t.previous) = s.tokens.map (fun t => t.previous)) := by
  cases c with
  | emit => simp [Cmd.run] at h
  | connect c f =>
    simp only [Cmd.run] at h
    split at h
    · exact Or.inl (connection_ctor_same h)
    · cases h
  | construct c =>
    simp only [Cmd.run] at h
    split at h
    · cases h; exact Or.inl ⟨rfl, rfl, rfl, rfl⟩
    · cases h
  | disconnect c =>
    simp only [Cmd.run] at h
    split at h
    · exact Or.inl (disconnect_same h)
    · cases h
  | move_construct d x =>
    simp only [Cmd.run] at h
    split at h
    · exact Or.inl (move_construct_same h)
    · cases h
  | move_assign d x =>
    simp only [Cmd.run] at h
    split at h
    · exact Or.inl (move_assign_same h)
    · cases h
  | destroy c =>
    simp only [Cmd.run] at h
    split at h
    · exact Or.inl (connection_dtor_same h)
    · cases h
  | destroy_signal =>
    simp only [Cmd.run] at h
    split at h
    · exact Or.inr (signal_dtor_frame h)
    · cases h

theorem cmd_frame {fuel : Nat} {c : Cmd} {s s' : State} (h : c.run fuel s = some s') :
    Frame s s' := by
  rcases cmd_same h with hs | ⟨h1, _, h3⟩
  · exact frame_of_same hs
  · exact ⟨h3, fun _ => h1, fun ha => by simp [h1] at ha, fun ha => by simp [h1] at ha⟩

theorem advance_same {s s' : State} {f : Nat} (h : signal.advance s = some (s', f)) :
    SameTokens s s' := by
  unfold signal.advance at h
  split at h
  · cases h
  · rename_i t ts hts
    split at h
    · cases h
    · split at h
      · cases h
      · cases h
        exact ⟨rfl, rfl, by simp [hts], by simp [hts]⟩

/-- A pass, from the push of its token to the pop. -/
theorem call_frame_of_loop {s s1 : State} (hf : Frame (iteration_token.ctor s) s1) :
    Frame s (iteration_token.dtor s1) := by
  have hp := hf.previous
  simp only [iteration_token.ctor, List.map_cons] at hp
  cases hts : s1.tokens with
  | nil => simp [hts] at hp
  | cons t ts =>
    rw [hts, List.map_cons, List.cons.injEq] at hp
    refine ⟨?_, ?_, ?_, ?_⟩
    · simp [iteration_token.dtor, hts, hp.2]
    · intro ha
      have := hf.dead (by simpa [iteration_token.ctor] using ha)
      simpa [iteration_token.dtor] using this
    · intro ha
      have ha1 : s1.alive = true := by simpa [iteration_token.dtor] using ha
      have hl := hf.live ha1
      have ht := hf.top ha1
      simp only [iteration_token.ctor, hts, List.map_cons, List.cons.injEq] at hl
      simp [iteration_token.dtor, hts, hl.1, hp.1]
    · intro ha
      have ha1 : s1.alive = true := by simpa [iteration_token.dtor] using ha
      have hl := hf.live ha1
      simp only [iteration_token.ctor, hts, List.map_cons, List.cons.injEq] at hl
      simp [iteration_token.dtor, hts, hl.2]

/-- Every function body, loop and call keeps the token chain in the sense of
`Frame`. -/
theorem interp_frame (prog : Program) (fuel : Nat) :
    (∀ cs s s', exec prog fuel cs s = some s' → Frame s s') ∧
    (∀ s s', loop prog fuel s = some s' → Frame s s') ∧
    (∀ s s', call prog fuel s = some s' → Frame s s') := by
  induction fuel with
  | zero =>
    refine ⟨?_, ?_, ?_⟩
    · intro cs s s' h; simp [exec] at h
    · intro s s' h; simp [loop] at h
    · intro s s' h; simp [call] at h
  | succ n ih =>
    obtain ⟨ihe, ihl, ihc⟩ := ih
    refine ⟨?_, ?_, ?_⟩
    · intro cs s s' h
      cases cs with
      | nil =>
        simp only [exec] at h
        cases h
        exact frame_refl s
      | cons c cs =>
        by_cases hc : c = Cmd.emit
        · subst hc
          simp only [exec] at h
          split at h
          · cases h
          · rename_i s1 e
            exact frame_trans (ihc _ _ e) (ihe _ _ _ h)
        · rw [exec_run prog n c cs s hc] at h
          cases e : Cmd.run n s c with
          | none => simp [e] at h
          | some s1 =>
            rw [e] at h
            change exec prog n cs s1 = some s' at h
            exact frame_trans (cmd_frame e) (ihe _ _ _ h)
    · intro s s' h
      simp only [loop] at h
      split at h
      · cases h
      · split at h
        · split at h
          · cases h
          · rename_i s1 f e
            split at h
            · cases h
            · rename_i s2 e2
              exact frame_trans (frame_of_same (advance_same e))
                (frame_trans (ihe _ _ _ e2) (ihl _ _ h))
        · cases h
          exact frame_refl s
    · intro s s' h
      simp only [call] at h
      split at h
      · split at h
        · cases h
        · rename_i s1 e
          cases h
          exact call_frame_of_loop (ihl _ _ e)
      · cases h

end signals

namespace signals

open intrusive

theorem chain_congr : ∀ {ts ts' : List iteration_token} {top : Option Nat},
    ts'.map (fun t => t.previous) = ts.map (fun t => t.previous) →
    ts'.map (fun t => t.m_signal) = ts.map (fun t => t.m_signal) →
    Chain ts top → Chain ts' top := by
  intro ts
  induction ts with
  | nil =>
    intro ts' top hp _ hc
    cases ts' with
    | nil => exact hc
    | cons t' ts' => simp at hp
  | cons t ts ih =>
    intro ts' top hp hm hc
    cases ts' with
    | nil => simp at hp
    | cons t' ts' =>
      simp only [List.map_cons, List.cons.injEq] at hp hm
      obtain ⟨h1, h2, h3⟩ := hc
      have hlen : ts'.length = ts.length := by
        have := congrArg List.length hp.2
        simpa using this
      refine ⟨by rw [hlen]; exact h1, hm.1.trans h2, ?_⟩
      rw [hp.1]
      exact ih hp.2 hm.2 h3

/-- In every reachable state with a living signal the chain that starts at
`last_token` runs through exactly the tokens of the passes in progress,
innermost first. -/
theorem reachable_chain {s : State} (hs : Reachable s) :
    s.alive = true → Chain s.tokens s.last_token := by
  induction hs with
  | init h => intro _; rfl
  | run fuel c _ hrun ih =>
    intro ha
    rcases cmd_same hrun with hsame | ⟨hd, _⟩
    · have := ih (hsame.alive ▸ ha)
      rw [hsame.last_token]
      exact chain_congr hsame.previous hsame.m_signal this
    · simp [hd] at ha
  | push _ ha ih =>
    intro _
    exact ⟨rfl, rfl, ih ha⟩
  | step _ _ _ hadv ih =>
    intro ha
    have hsame := advance_same hadv
    have := ih (hsame.alive ▸ ha)
    rw [hsame.last_token]
    exact chain_congr hsame.previous hsame.m_signal this
  | @pop s t _ ht _ ih =>
    intro ha
    have ha' : s.alive = true := by simpa [iteration_token.dtor] using ha
    have hch := ih ha'
    cases hts : s.tokens with
    | nil => simp [hts] at ht
    | cons t' ts =>
      rw [hts] at hch
      obtain ⟨_, hm, hrest⟩ := hch
      simp [iteration_token.dtor, hts, hm, hrest]

theorem chain_live : ∀ {ts : List iteration_token} {top : Option Nat}, Chain ts top →
    ∀ t ∈ ts, t.m_signal = some this_signal := by
  intro ts
  induction ts with
  | nil => intro _ _ t ht; simp at ht
  | cons t0 ts ih =>
    intro top hc t ht
    rcases List.mem_cons.1 ht with rfl | ht
    · exact hc.2.1
    · exact ih hc.2.2 t ht

/-- C18, as stated, fails when the signal is destroyed during the pass: the
signal has one connection, whose function destroys the signal.  Before the call
`last_token` is null; when the call returns, its token is gone (no token is
left) but `last_token` still holds the address of that token. -/
theorem destroyed_signal_keeps_last_token :
    ((signal.connect_each (State.init fun _ => {}) [(1, 11)]).map fun s =>
        (s.alive, s.last_token, s.tokens.length)) = some (true, none, 0) ∧
    (((signal.connect_each (State.init fun _ => {}) [(1, 11)]).bind fun s =>
        call destroying_prog 6 s).map fun s1 => (s1.alive, s1.last_token, s1.tokens.length))
      = some (false, some 0, 0) := by
  decide

/-- C18 (token stack discipline), amended: for every call of `operator()` that
returns, from any state and whatever the functions do, the tokens in existence
when the call returns are those from before the call, with their `previous`
members unchanged (the token of the call and those of the nested calls are
gone, in LIFO order); and if the signal is still alive when the call returns,
`last_token` is again what it was when the call started and every remaining
token is still registered as before. -/
theorem token_stack_restored (prog : Program) (fuel : Nat) (s s' : State)
    (h : call prog fuel s = some s') :
    s'.tokens.length = s.tokens.length ∧
    s'.tokens.map (fun t => t.previous) = s.tokens.map (fun t => t.previous) ∧
    (s'.alive = true → s'.last_token = s.last_token ∧
      s'.tokens.map (fun t => t.m_signal) = s.tokens.map (fun t => t.m_signal)) := by
  have hf := (interp_frame prog fuel).2.2 s s' h
  refine ⟨?_, hf.previous, fun ha => ⟨hf.top ha, hf.live ha⟩⟩
  have := congrArg List.length hf.previous
  simpa using this

theorem token_stack_restored_witness :
    call (fun _ _ => []) 6 nested_demo
        = some ((call (fun _ _ => []) 6 nested_demo).get (by decide)) ∧
    ((call (fun _ _ => []) 6 nested_demo).get (by decide)).alive = true ∧
    ((call (fun _ _ => []) 6 nested_demo).get (by decide)).tokens.length
      = nested_demo.tokens.length ∧
    ((call (fun _ _ => []) 6 nested_demo).get (by decide)).tokens.map (fun t => t.previous)
      = nested_demo.tokens.map (fun t => t.previous) ∧
    (((call (fun _ _ => []) 6 nested_demo).get (by decide)).alive = true →
      ((call (fun _ _ => []) 6 nested_demo).get (by decide)).last_token
        = nested_demo.last_token ∧
      ((call (fun _ _ => []) 6 nested_demo).get (by decide)).tokens.map (fun t => t.m_signal)
        = nested_demo.tokens.map (fun t => t.m_signal)) :=
  ⟨by simp, by decide,
    token_stack_restored (fun _ _ => []) 6 nested_demo _ (Option.some_get _).symm⟩

end signals

namespace intrusive

/-- Two memories in which the same sentinel holds the same list agree on every
node of the ring. -/
theorem isList_determines {h h' : Heap} {f : Nat} {l : List Nat} (hl : IsList h f l)
    (hl' : IsList h' f l) : ∀ y ∈ f :: l, h' y = h y := by
  intro y hy
  rcases List.mem_cons.1 hy with rfl | hy
  · exact node_ext ((isList_fake_next hl').trans (isList_fake_next hl).symm)
      ((isList_fake_prev hl').trans (isList_fake_prev hl).symm)
  · obtain ⟨l1, l2, rfl⟩ := List.append_of_mem hy
    exact node_ext ((isList_next hl').trans (isList_next hl).symm)
      ((isList_prev hl').trans (isList_prev hl).symm)

end intrusive

namespace signals

open intrusive

/-- C15 (disconnect is idempotent): on a connection whose signal reference is
null, `disconnect` returns the state it was given, unchanged in every component;
and in every reachable state, for every live connection, `disconnect` runs
without fault, leaves the signal reference null, and a second `disconnect`
returns exactly the state the first one left. -/
theorem disconnect_idempotent (s : State) (hs : Reachable s) (c : Nat) (hc : c ∈ s.objects) :
    (s.m_signal c = none → connection.disconnect s c = some s) ∧
    ∃ s1, connection.disconnect s c = some s1 ∧ s1.m_signal c = none ∧
      connection.disconnect s1 c = some s1 := by
  refine ⟨disconnect_noop, ?_⟩
  rcases reachable_inv hs with ⟨_, l, hr⟩ | hd
  · obtain ⟨s1, e, _, hm, _⟩ := disconnect_total hr hc
    exact ⟨s1, e, hm, disconnect_noop hm⟩
  · have hm := (hd.objects c hc).1
    exact ⟨s, disconnect_noop hm, hm, disconnect_noop hm⟩

theorem disconnect_idempotent_witness :
    (nested_demo.m_signal 2 = none → connection.disconnect nested_demo 2 = some nested_demo) ∧
    ∃ s1, connection.disconnect nested_demo 2 = some s1 ∧ s1.m_signal 2 = none ∧
      connection.disconnect s1 2 = some s1 :=
  disconnect_idempotent nested_demo
    (Reachable.push (Reachable.push (reachable_run_cmds 0 _ (Reachable.init _)) (by decide))
      (by decide))
    2 (by decide)

theorem sigref_upd {m : Nat → Option Nat} (hm : ∀ c g, m c = some g → g = this_signal)
    {v : Option Nat} (hv : ∀ g, v = some g → g = this_signal) (a : Nat) :
    ∀ c g, upd m a v c = some g → g = this_signal := by
  intro c g h
  simp only [upd_apply] at h
  split at h
  · exact hv g h
  · exact hm c g h

theorem sigref_disconnect {s s' : State} {c : Nat} (h : connection.disconnect s c = some s')
    (hm : ∀ c g, s.m_signal c = some g → g = this_signal) :
    ∀ c g, s'.m_signal c = some g → g = this_signal := by
  unfold connection.disconnect at h
  split at h
  · cases h; exact hm
  · split at h
    · cases h
    · cases h
      exact sigref_upd hm (by simp) c

theorem sigref_replace {s s' : State} {d x : Nat} (h : connection.replace s d x = some s')
    (hm : ∀ c g, s.m_signal c = some g → g = this_signal) :
    ∀ c g, s'.m_signal c = some g → g = this_signal := by
  unfold connection.replace at h
  split at h
  · exact sigref_disconnect h hm
  · split at h
    · cases h
    · dsimp only at h
      exact sigref_disconnect h hm

theorem sigref_disconnect_all (fuel : Nat) : ∀ {s s' : State},
    signal.disconnect_all fuel s = some s' →
    (∀ c g, s.m_signal c = some g → g = this_signal) →
    ∀ c g, s'.m_signal c = some g → g = this_signal := by
  induction fuel with
  | zero => intro s s' h; cases h
  | succ n ih =>
    intro s s' h hm
    unfold signal.disconnect_all at h
    split at h
    · cases h; exact hm
    · split at h
      · cases h
      · split at h
        · cases h
        · rename_i s1 e
          exact ih h (sigref_disconnect e hm)

theorem sigref_run {fuel : Nat} {c : Cmd} {s s' : State} (h : c.run fuel s = some s')
    (hm : ∀ c g, s.m_signal c = some g → g = this_signal) :
    ∀ c g, s'.m_signal c = some g → g = this_signal := by
  cases c with
  | emit => simp [Cmd.run] at h
  | connect c f =>
    simp only [Cmd.run] at h
    split at h
    · unfold connection.ctor at h
      split at h
      · cases h
      · cases h
        exact sigref_upd hm (by simp) c
    · cases h
  | construct c =>
    simp only [Cmd.run] at h
    split at h
    · cases h
      exact sigref_upd hm (by simp) c
    · cases h
  | disconnect c =>
    simp only [Cmd.run] at h
    split at h
    · exact sigref_disconnect h hm
    · cases h
  | move_construct d x =>
    simp only [Cmd.run] at h
    split at h
    · unfold connection.move_construct at h
      exact sigref_replace h (sigref_upd hm (fun g hg => hm x g hg) d)
    · cases h
  | move_assign d x =>
    simp only [Cmd.run] at h
    split at h
    · unfold connection.move_assign at h
      split at h
      · split at h
        · cases h
        · rename_i s1 e
          have h1 := sigref_disconnect e hm
          exact sigref_replace h (sigref_upd h1 (fun g hg => h1 x g hg) d)
      · cases h; exact hm
    · cases h
  | destroy c =>
    simp only [Cmd.run] at h
    split at h
    · unfold connection.dtor at h
      split at h
      · cases h
      · rename_i s1 e
        split at h
        · cases h
        · cases h
          have h1 := sigref_disconnect e hm
          exact h1
    · cases h
  | destroy_signal =>
    simp only [Cmd.run] at h
    split at h
    · unfold signal.dtor at h
      dsimp only at h
      split at h
      · cases h
      · rename_i s2 e
        split at h
        · cases h
        · split at h
          · cases h
          · cases h
            have h1 := sigref_disconnect_all fuel e hm
            exact h1
    · cases h

/-- In every reachable state a non-null signal reference of a connection is the
address of the signal. -/
theorem reachable_sigref {s : State} (hs : Reachable s) :
    ∀ c g, s.m_signal c = some g → g = this_signal := by
  induction hs with
  | init h => intro c g h; simp [State.init] at h
  | run fuel c _ hrun ih => exact sigref_run hrun ih
  | push _ _ ih => exact ih
  | step _ _ _ hadv ih =>
    rename_i s0 s1 t f
    unfold signal.advance at hadv
    split at hadv
    · cases hadv
    · split at hadv
      · cases hadv
      · split at hadv
        · cases hadv
        · cases hadv
          exact ih
  | pop _ _ _ ih => exact ih

/-- C16 (attachment invariant): in every reachable state, for every live
connection `c`, the signal reference is non-null if and only if the node of `c`
is linked (its `next` is non-null); and when it is non-null, it is the address
of the signal, the signal is alive, its list is well-formed with some elements
`l` (the forward traversal), and `c` occurs in `l` exactly once. -/
theorem attachment_invariant (s : State) (hs : Reachable s) (c : Nat) (hc : c ∈ s.objects) :
    (s.m_signal c ≠ none ↔ (s.heap c).next ≠ none) ∧
    (s.m_signal c ≠ none → s.m_signal c = some this_signal ∧ s.alive = true ∧
      ∃ l, IsList s.heap m_connections.fake l ∧
        m_connections.forward s.heap (l.length + 1) = some l ∧ l.count c = 1) := by
  rcases reachable_inv hs with ⟨ha, l, hr⟩ | hd
  · constructor
    · constructor
      · intro hm
        have hcl := hr.attached c hc hm
        obtain ⟨p, q, _, _, hq, _⟩ := isList_neighbours hr.isList (List.mem_cons_of_mem _ hcl)
        simp [hq]
      · intro hn hm
        exact hn (by rw [(hr.detached c hc hm).1])
    · intro hm
      refine ⟨?_, ha, l, hr.isList, isList_forward hr.isList (le_refl _), ?_⟩
      · cases hg : s.m_signal c with
        | none => exact absurd hg hm
        | some g => rw [reachable_sigref hs c g hg]
      · exact List.count_eq_one_of_mem (List.nodup_cons.1 hr.isList.2).2 (hr.attached c hc hm)
  · obtain ⟨h1, h2, _⟩ := hd.objects c hc
    constructor
    · simp [h1, h2]
    · intro hm; exact absurd h1 hm

theorem attachment_invariant_witness :
    (nested_demo.m_signal 2 ≠ none ↔ (nested_demo.heap 2).next ≠ none) ∧
    (nested_demo.m_signal 2 ≠ none → nested_demo.m_signal 2 = some this_signal ∧
      nested_demo.alive = true ∧
      ∃ l, IsList nested_demo.heap m_connections.fake l ∧
        m_connections.forward nested_demo.heap (l.length + 1) = some l ∧ l.count 2 = 1) :=
  attachment_invariant nested_demo
    (Reachable.push (Reachable.push (reachable_run_cmds 0 _ (Reachable.init _)) (by decide))
      (by decide))
    2 (by decide)

/-- C20 (connect, then disconnect): in every reachable state with a living
signal, whose list holds `l`, `connect` of a function at a free address `c`
runs without fault and appends `c` to the list; `disconnect` of that connection
then runs without fault and the list holds `l` again (forward traversal `l`,
backward its reverse), every node other than `c` (so every node of the ring,
the sentinel included) has the `prev` and `next` it had before `connect`, every
token and `last_token` are as before, and so are the members of every other
connection; `c` itself is left unattached and unlinked. -/
theorem connect_disconnect_identity (s : State) (hs : Reachable s) (ha : s.alive = true)
    (c g : Nat) (hc : s.free c) :
    ∃ l s1 s2, m_connections.forward s.heap (l.length + 1) = some l ∧
      connection.ctor s c g = some s1 ∧
      m_connections.forward s1.heap (l.length + 2) = some (l ++ [c]) ∧
      connection.disconnect s1 c = some s2 ∧
      m_connections.forward s2.heap (l.length + 1) = some l ∧
      m_connections.backward s2.heap (l.length + 1) = some l.reverse ∧
      (∀ y, y ≠ c → s2.heap y = s.heap y) ∧
      s2.tokens = s.tokens ∧ s2.last_token = s.last_token ∧
      (∀ y, y ≠ c → s2.m_signal y = s.m_signal y ∧ s2.m_callback y = s.m_callback y) ∧
      s2.m_signal c = none ∧ s2.heap c = {} ∧ s2.alive = true ∧ s2.log = s.log := by
  obtain ⟨l, hr⟩ : ∃ l, Rep s l := by
    rcases reachable_inv hs with ⟨_, l, hr⟩ | hd
    · exact ⟨l, hr⟩
    · have := hd.not_alive
      simp [ha] at this
  have hcr := rep_free_not_mem_ring hr hc
  have hl0 : IsList (fresh s.heap c) 0 l := by
    refine isList_congr hr.isList (fun y hy => ?_)
    have : y ≠ c := fun e => hcr (e ▸ hy)
    simp [fresh, this]
  obtain ⟨h1, e1, hl1, hfr1⟩ := isList_push_back hl0 hcr (by simp)
  obtain ⟨h2, e2, hl2, hc2, hfr2⟩ := @isList_unlink h1 0 c l [] hl1
  rw [List.append_nil] at hl2
  have htok : ∀ t ∈ s.tokens, t.iterator ≠ some c := by
    intro t ht e
    have hlive := chain_live (reachable_chain hs ha) t ht
    rcases hr.cursor t ht (by simp [hlive]) with h0 | ⟨c', hc', h0⟩
    · rw [e] at h0
      simp at h0
      exact hc.2 h0
    · rw [e] at h0
      simp at h0
      exact hcr (List.mem_cons_of_mem _ (h0 ▸ hc'))
  have hn1 : (h1 c).next = some 0 := by
    have := @isList_next h1 0 c l [] hl1
    simpa using this
  refine ⟨l, { s with
      heap := h1
      m_callback := upd s.m_callback c (some g)
      m_signal := upd s.m_signal c (some this_signal)
      objects := c :: s.objects },
    { s with
      heap := h2
      m_callback := upd (upd s.m_callback c (some g)) c none
      m_signal := upd (upd s.m_signal c (some this_signal)) c none
      objects := c :: s.objects }, isList_forward hr.isList (le_refl _), ?_, ?_, ?_,
    isList_forward hl2 (le_refl _), isList_backward hl2 (le_refl _), ?_, rfl, rfl, ?_, ?_,
    hc2, ha, rfl⟩
  · have e1' : m_connections.push_back (fresh s.heap c) c = some h1 := e1
    simp [connection.ctor, e1']
  · exact isList_forward hl1 (by simp)
  · have hrt := @retarget_none_on s.tokens c (some 0) htok
    unfold retarget at hrt
    simp [connection.disconnect, e2, hn1, hrt]
  · intro y hy
    by_cases hmem : y ∈ (0 : Nat) :: l
    · exact isList_determines hr.isList hl2 y hmem
    · have hy1 : y ∉ (0 : Nat) :: (l ++ [c]) := by simp at hmem ⊢; tauto
      show h2 y = s.heap y
      rw [show h2 y = h1 y from hfr2 y hy1, hfr1 y hy1]
      simp [fresh, hy]
  · intro y hy
    simp [hy]
  · simp

theorem connect_disconnect_identity_witness :
    ∃ l s1 s2, m_connections.forward nested_demo.heap (l.length + 1) = some l ∧
      connection.ctor nested_demo 7 17 = some s1 ∧
      m_connections.forward s1.heap (l.length + 2) = some (l ++ [7]) ∧
      connection.disconnect s1 7 = some s2 ∧
      m_connections.forward s2.heap (l.length + 1) = some l ∧
      m_connections.backward s2.heap (l.length + 1) = some l.reverse ∧
      (∀ y, y ≠ 7 → s2.heap y = nested_demo.heap y) ∧
      s2.tokens = nested_demo.tokens ∧ s2.last_token = nested_demo.last_token ∧
      (∀ y, y ≠ 7 → s2.m_signal y = nested_demo.m_signal y ∧
        s2.m_callback y = nested_demo.m_callback y) ∧
      s2.m_signal 7 = none ∧ s2.heap 7 = {} ∧ s2.alive = true ∧ s2.log = nested_demo.log :=
  connect_disconnect_identity nested_demo
    (Reachable.push (Reachable.push (reachable_run_cmds 0 _ (Reachable.init _)) (by decide))
      (by decide))
    (by decide) 7 17 (by decide)

end signals

namespace signals

open intrusive

/-- What a pass has still to visit after a connection `c` is appended to the
list `l`: nothing when its cursor is on the sentinel, and otherwise what it had
to visit before, followed by `c`. -/
theorem rest_append_new {l : List Nat} {c : Nat} (hnd : ((0 : Nat) :: (l ++ [c])).Nodup)
    {x : Nat} (hx : x = 0 ∨ x ∈ l) :
    signal.rest (l ++ [c]) (some x) = if x = 0 then [] else signal.rest l (some x) ++ [c] := by
  have h0 : (0 : Nat) ∉ l ++ [c] := (List.nodup_cons.1 hnd).1
  have hndl : (l ++ [c]).Nodup := (List.nodup_cons.1 hnd).2
  rcases hx with rfl | hx
  · simp only [signal.rest, if_true]
    exact dropWhile_none h0
  · have hx0 : x ≠ 0 := by
      rintro rfl
      exact h0 (List.mem_append_left _ hx)
    obtain ⟨l1, l2, rfl⟩ := split_of_mem hx
    have hx1 : x ∉ l1 := by
      intro hm
      rw [List.append_assoc] at hndl
      exact (List.nodup_append.1 hndl).2.2 hm (by simp)
    simp only [signal.rest, if_neg hx0]
    rw [List.append_assoc, List.cons_append, dropWhile_split hx1, dropWhile_split hx1]
    rfl

/-- C8, amended (connect while passes are in progress): in a reachable state
with a living signal, whose list holds `l`, and any number of nested passes in
progress with any cursors, let `connect` create a connection `c` with function
`f` (at a free address, the connection being kept alive), and let the functions
held by the connections, `f` included, do nothing from then on.  Then `connect`
appends `c` to the list, and when the passes run to their end, innermost first,
every pass whose cursor had not reached `end()` when `connect` ran invokes the
connections it had still to visit (from its cursor to the end of `l`), once each
and in order, and after them, in that same pass, the new connection `c`; a pass
whose cursor stood on `end()` when `connect` ran invokes nothing more, so not
`c` either. -/
theorem connect_visited_by_pending_passes (s : State) (hs : Reachable s)
    (ha : s.alive = true) (c f : Nat) (hc : s.free c) (prog : Program)
    (hq : ∀ x ∈ s.objects, ∀ g, s.m_callback x = some g →
      ∀ extra, prog g (s.log ++ extra) = [])
    (hqf : ∀ extra, prog f (s.log ++ extra) = []) :
    ∃ l s1, m_connections.forward s.heap (l.length + 1) = some l ∧
      (Cmd.connect c f).run 0 s = some s1 ∧
      m_connections.forward s1.heap (l.length + 2) = some (l ++ [c]) ∧
      ∀ fuel, s.tokens.length + l.length + 3 ≤ fuel →
        ∃ s2, finish prog fuel s1 = some s2 ∧
          s2.log = s.log ++ s.tokens.flatMap fun t =>
            if t.iterator = some m_connections.end_ then []
            else (signal.rest l t.iterator).map (signal.entry s) ++ [(c, f)] := by
  rcases reachable_inv hs with ⟨_, l, hr⟩ | hd
  swap
  · rw [hd.not_alive] at ha; cases ha
  have hlive := chain_live (reachable_chain hs ha)
  have hcr := rep_free_not_mem_ring hr hc
  obtain ⟨h', e, hr'⟩ := ctor_spec hr hc f
  refine ⟨l, _, isList_forward hr.isList (le_refl _),
    by rw [run_connect 0 f hc ha]; exact e,
    isList_forward hr'.isList (by simp), ?_⟩
  intro fuel hf
  have hcl : c ∉ l := fun hm => hcr (List.mem_cons_of_mem _ hm)
  have hfin := finish_quiet prog _ _ (l ++ [c]) hr' rfl
    (fun t ht => by rw [hlive t ht]; simp)
    (fun x hx extra => by
      dsimp only
      rcases List.mem_append.1 hx with hxl | hxl
      · have hxc : x ≠ c := by rintro rfl; exact hcl hxl
        obtain ⟨g, hg⟩ := Option.ne_none_iff_exists'.1 (hr.linked x hxl).2
        have : (upd s.m_callback c (some f) x).getD 0 = g := by simp [hxc, hg]
        rw [this]
        exact hq x (hr.sub x hxl) g hg extra
      · have hxc : x = c := by simpa using hxl
        subst hxc
        have : (upd s.m_callback x (some f) x).getD 0 = f := by simp
        rw [this]
        exact hqf extra)
    fuel (by
      simp only [List.length_append, List.length_singleton]
      omega)
  refine ⟨_, hfin, ?_⟩
  dsimp only
  congr 1
  apply List.flatMap_congr
  intro t ht
  have hent : ∀ r : List Nat, c ∉ r →
      r.map (signal.entry { s with
        heap := h'
        m_callback := upd s.m_callback c (some f)
        m_signal := upd s.m_signal c (some this_signal)
        objects := c :: s.objects }) = r.map (signal.entry s) := by
    intro r hr
    apply List.map_congr_left
    intro x hx
    have : x ≠ c := by rintro rfl; exact hr hx
    simp [signal.entry, this]
  have hnd := hr'.isList.2
  simp only [fake_eq] at hnd
  have hcur : ∃ x, t.iterator = some x ∧ (x = 0 ∨ x ∈ l) := by
    rcases hr.cursor t ht (by rw [hlive t ht]; simp) with h0 | ⟨x, hx, h0⟩
    · exact ⟨0, h0, Or.inl rfl⟩
    · exact ⟨x, h0, Or.inr hx⟩
  obtain ⟨x, hit, hx⟩ := hcur
  rw [hit, rest_append_new hnd hx]
  by_cases hx0 : x = 0
  · simp [hx0]
  · have hne : (some x : Option Nat) ≠ some m_connections.end_ := by
      simpa using hx0
    rw [if_neg hx0, if_neg hne, List.map_append,
      hent _ (fun hm => hcl (mem_rest hm))]
    simp [signal.entry]

theorem connect_visited_by_pending_passes_witness :
    ∃ l s1, m_connections.forward end_demo.heap (l.length + 1) = some l ∧
      (Cmd.connect 7 17).run 0 end_demo = some s1 ∧
      m_connections.forward s1.heap (l.length + 2) = some (l ++ [7]) ∧
      ∀ fuel, end_demo.tokens.length + l.length + 3 ≤ fuel →
        ∃ s2, finish (fun _ _ => []) fuel s1 = some s2 ∧
          s2.log = end_demo.log ++ end_demo.tokens.flatMap fun t =>
            if t.iterator = some m_connections.end_ then []
            else (signal.rest l t.iterator).map (signal.entry end_demo) ++ [(7, 17)] :=
  connect_visited_by_pending_passes end_demo
    (Reachable.push
      (@Reachable.step cursor_demo _ ⟨some 0, none, some 1⟩ _
        (Reachable.push (Reachable.run 0 (Cmd.connect 1 11) (Reachable.init _)
          (Option.some_get _).symm) (by decide))
        (by decide) (by decide)
        (Option.some_get (by decide : (signal.advance cursor_demo).isSome = true)).symm)
      (by decide))
    (by decide) 7 17 (by decide) (fun _ _ => [])
    (fun _ _ _ _ _ => rfl) (fun _ => rfl)

/-- The instance `end_demo`: the outer pass has its cursor on `end()`, the
nested pass on connection 1; after `connect` of connection 7 the nested pass
invokes 1 and 7, the outer pass invokes nothing more. -/
theorem end_demo_finish :
    end_demo.tokens.map (fun t => t.iterator) = [some 1, some 0] ∧
    end_demo.log = [(1, 11)] ∧
    ((((Cmd.connect 7 17).run 0 end_demo).bind fun s1 => finish (fun _ _ => []) 6 s1).map
        fun s2 => s2.log) = some [(1, 11), (1, 11), (7, 17)] := by
  decide

/-- A connection that is not the last one may also find the cursor on `end()`:
with connections 1 and 2, where the function of 1 disconnects 2 (which moves
the cursor of the pass from 2 to `end()`) and then connects a new connection 3,
one call invokes 1 only, although 3 is in the list when the call returns. -/
theorem connect_after_cursor_moved_to_end :
    (((signal.connect_each (State.init fun _ => {}) [(1, 12), (2, 11)]).bind fun s =>
        call cancel_then_connect_prog 6 s).map fun s1 => s1.log) = some [(1, 12)] ∧
    (((signal.connect_each (State.init fun _ => {}) [(1, 12), (2, 11)]).bind fun s =>
        call cancel_then_connect_prog 6 s).bind fun s1 => m_connections.forward s1.heap 4)
      = some [1, 3] := by
  decide

end signals
